import Mathlib

/-!
Verification of the Bili-wiki dialogue-graph builder, a shallow embedding of
src/parse.py and src/build_graph.py.

Every definition below mirrors one Python function of the repository; its doc
comment names the function (file and line numbers refer to the source files).
External library calls — the hashlib digests and the wikitextparser
collaborator — are modelled by explicit deterministic stand-in functions,
documented where they occur.  The process-wide random generator is modelled by
an explicit function rng : Nat -> Nat together with a draw counter k that is
threaded through every computation: rng k is the value of the k-th
random.randint drawn during a build.
-/

namespace BiliWiki

/-- Python str.strip: remove leading and trailing whitespace characters. -/
def pyStrip (s : String) : String :=
  ⟨((s.data.dropWhile Char.isWhitespace).reverse.dropWhile Char.isWhitespace).reverse⟩

/-- Python slicing s[a:b] on character positions (clamping, as Python does). -/
def pySlice (s : String) (a b : Nat) : String :=
  ⟨(s.data.take b).drop a⟩

/-- Python slicing s[a:] on character positions. -/
def pySliceFrom (s : String) (a : Nat) : String :=
  ⟨s.data.drop a⟩

/-- Python needle in hay / hay.find(needle) != -1, on character lists. -/
def containsSub (needle hay : String) : Bool :=
  decide (needle.data <:+: hay.data)

/-- Lookup in a Python dict modelled as an insertion-ordered association list. -/
def assocGet {α : Type} : List (String × α) → String → Option α
  | [], _ => none
  | q :: rest, k => if q.1 = k then some q.2 else assocGet rest k

/-- Python dict assignment d[k] = v: replace in place if the key exists
(keys are unique in every dict built below), otherwise append, preserving
insertion order. -/
def assocSet {α : Type} : List (String × α) → String → α → List (String × α)
  | [], k, v => [(k, v)]
  | q :: rest, k, v => if q.1 = k then (k, v) :: rest else q :: assocSet rest k v

/-- Index of the first ASCII or fullwidth colon in a character list. -/
def firstColonIdx : List Char → Option Nat
  | [] => none
  | c :: rest =>
    if c = ':' ∨ c = '：' then some 0 else (firstColonIdx rest).map (fun i => i + 1)

/-- Stand-in for the external hashlib.md5 salted digest used for node ids in
GraphBuilder.__get_speaker_name_and_content (build_graph.py line 33):
md5(string.encode() + bytes(salt)).hexdigest()[:10].  The real digest is a
deterministic function of the line text and the drawn salt; no claim below
depends on its numeric value, only on that determinism, so the digest is kept
as an explicit parameter idFn of every builder definition and this concrete
injective encoding is used where a closed evaluation is needed. -/
def idStub (s : String) (salt : Nat) : String :=
  "#" ++ s ++ "_" ++ toString salt

/-- Models GraphBuilder.__get_speaker_name_and_content (build_graph.py 17-35).
Returns none for the early (None, None, None) return on a blank line;
otherwise some (temp_hash, speaker, content) where the content has the
random suffix of line 30 appended, paired with the advanced draw counter.
The anchored regex of line 14 matches exactly when the first ASCII or
fullwidth colon of the line sits at character index at least 1; on a match
the speaker and content groups are stripped, otherwise the default speaker
is used and the content is the raw, unstripped line. -/
def getSpeakerNameAndContent (idFn : String → Nat → String) (rng : Nat → Nat)
    (k : Nat) (string : String) : Option (String × String × String) × Nat :=
  if pyStrip string = "" then (none, k)
  else
    let sc :=
      match firstColonIdx string.data with
      | some i =>
        if 1 ≤ i then (pyStrip (pySlice string 0 i), pyStrip (pySliceFrom string (i + 1)))
        else ("旅行者", string)
      | none => ("旅行者", string)
    let content := sc.2 ++ "_" ++ toString (rng k)
    (some (idFn string (rng (k + 1)), sc.1, content), k + 2)

/-- Python all((md5, speaker, content)) for the extractor triple: every
component is a nonempty string (build_graph.py lines 43, 100, 138). -/
def allNonEmpty (t : String × String × String) : Bool :=
  t.1 ≠ "" && t.2.1 ≠ "" && t.2.2 ≠ ""

/-- Modelled from the spec (section 4.3): a line obeys the
speaker-colon-content convention when it decomposes as
speaker ++ colon ++ content with a nonempty, colon-free speaker part, the
colon being ASCII or fullwidth. -/
def SpeakerSplit (s speaker content : String) : Prop :=
  (∃ c, (c = ':' ∨ c = '：') ∧ s.data = speaker.data ++ c :: content.data)
  ∧ speaker ≠ "" ∧ ∀ c ∈ speaker.data, ¬(c = ':' ∨ c = '：')

theorem take_len_append {α : Type} (l₁ l₂ : List α) : (l₁ ++ l₂).take l₁.length = l₁ := by
  induction l₁ with
  | nil => rfl
  | cons a t ih => simp [ih]

theorem drop_len_succ_append {α : Type} (l₁ : List α) (c : α) (l₂ : List α) :
    (l₁ ++ c :: l₂).drop (l₁.length + 1) = l₂ := by
  induction l₁ with
  | nil => rfl
  | cons a t ih => simp [ih]

theorem firstColonIdx_of_split (sp : List Char) (c : Char) (ct : List Char)
    (hc : c = ':' ∨ c = '：') (hsp : ∀ d ∈ sp, ¬(d = ':' ∨ d = '：')) :
    firstColonIdx (sp ++ c :: ct) = some sp.length := by
  induction sp with
  | nil => simp [firstColonIdx, hc]
  | cons d rest ih =>
    have hd : ¬(d = ':' ∨ d = '：') := hsp d (by simp)
    have ih' := ih (fun x hx => hsp x (by simp [hx]))
    simp [firstColonIdx, if_neg hd, ih']

theorem firstColonIdx_some_split {l : List Char} {i : Nat}
    (h : firstColonIdx l = some i) :
    ∃ pre c suf, l = pre ++ c :: suf ∧ pre.length = i ∧ (c = ':' ∨ c = '：') ∧
      ∀ d ∈ pre, ¬(d = ':' ∨ d = '：') := by
  induction l generalizing i with
  | nil => exact nomatch h
  | cons a rest ih =>
    by_cases ha : a = ':' ∨ a = '：'
    · simp only [firstColonIdx, if_pos ha, Option.some.injEq] at h
      exact ⟨[], a, rest, rfl, by simp [← h], ha, by simp⟩
    · simp only [firstColonIdx, if_neg ha] at h
      match hr : firstColonIdx rest with
      | none => rw [hr] at h; simp at h
      | some j =>
        rw [hr] at h
        have h2 : j + 1 = i := Option.some.inj h
        obtain ⟨pre, c, suf, hdec, hlen, hc, hfree⟩ := ih hr
        refine ⟨a :: pre, c, suf, by simp [hdec], by simp [hlen, ← h2], hc, ?_⟩
        intro d hd
        rcases List.mem_cons.mp hd with rfl | hd
        · exact ha
        · exact hfree d hd

theorem firstColonIdx_none_no_colon {l : List Char} (h : firstColonIdx l = none) :
    ∀ c ∈ l, ¬(c = ':' ∨ c = '：') := by
  induction l with
  | nil => exact fun c hc => absurd hc (List.not_mem_nil c)
  | cons d rest ih =>
    by_cases hd : d = ':' ∨ d = '：'
    · rw [show firstColonIdx (d :: rest) = some 0 by simp [firstColonIdx, hd]] at h
      cases h
    · have h' : firstColonIdx rest = none := by
        simp only [firstColonIdx, if_neg hd] at h
        cases hr : firstColonIdx rest
        · rfl
        · rw [hr] at h; simp at h
      intro c hc
      rcases List.mem_cons.mp hc with rfl | hc
      · exact hd
      · exact ih h' c hc

/-- C1: the claim says the extractor is deterministic under replay; the code
(build_graph.py lines 11, 30, 33) seeds the process RNG from the environment
and salts both the content and the node id with fresh random draws, so two
runs of the same build on the same line at the same position produce
different contents and different node ids.  Evaluation of the model at the
line "A: hi" under two different draw sequences (as two differently seeded
runs give with overwhelming probability): -/
theorem c1_random_salt_breaks_replay :
    (getSpeakerNameAndContent idStub (fun _ => 1000) 0 "A: hi").1
        = some (idStub "A: hi" 1000, "A", "hi_1000")
    ∧ (getSpeakerNameAndContent idStub (fun _ => 1001) 0 "A: hi").1
        = some (idStub "A: hi" 1001, "A", "hi_1001")
    ∧ idStub "A: hi" 1000 ≠ idStub "A: hi" 1001
    ∧ ("hi_1000" : String) ≠ "hi_1001" := by
  refine ⟨by decide, by decide, by decide, by decide⟩

/-- C9 counterexample: the claim says that on a non-matching line the content
returned is exactly the whole trimmed input line.  On the line " hi " (blank
padding, no colon) the code returns the raw untrimmed line with the random
suffix appended, not the trimmed line. -/
theorem c9_untrimmed_content_counterexample :
    (getSpeakerNameAndContent idStub (fun _ => 1000) 0 " hi ").1
        = some (idStub " hi " 1000, "旅行者", " hi _1000")
    ∧ pyStrip " hi " = "hi"
    ∧ (" hi _1000" : String) ≠ "hi" := by
  refine ⟨by decide, by decide, by decide⟩

/-- C9 (amended): contract of GraphBuilder.__get_speaker_name_and_content.
A line blank after trimming yields no node data.  A line that decomposes as
speaker-colon-content (ASCII or fullwidth colon, nonempty colon-free speaker
part) yields the trimmed speaker group and the trimmed content group with the
random suffix appended to the content.  Any other nonblank line yields the
default sentinel speaker 旅行者 and, as content, the whole RAW (untrimmed)
input line with the random suffix appended — not the trimmed line, which is
the correction to the claim.  The node id is the salted digest of the raw
line in both nonblank cases. -/
theorem c9_extractor_contract_amended (idFn : String → Nat → String)
    (rng : Nat → Nat) (k : Nat) (s : String) :
    (pyStrip s = "" → (getSpeakerNameAndContent idFn rng k s).1 = none)
    ∧ (∀ sp ct, SpeakerSplit s sp ct → pyStrip s ≠ "" →
        (getSpeakerNameAndContent idFn rng k s).1
          = some (idFn s (rng (k + 1)), pyStrip sp,
              pyStrip ct ++ "_" ++ toString (rng k)))
    ∧ ((¬ ∃ sp ct, SpeakerSplit s sp ct) → pyStrip s ≠ "" →
        (getSpeakerNameAndContent idFn rng k s).1
          = some (idFn s (rng (k + 1)), "旅行者", s ++ "_" ++ toString (rng k))) := by
  refine ⟨fun hb => by simp [getSpeakerNameAndContent, hb], ?_, ?_⟩
  · rintro sp ct ⟨⟨c, hc, hdecomp⟩, hne, hfree⟩ hnb
    have hidx : firstColonIdx s.data = some sp.data.length := by
      rw [hdecomp]; exact firstColonIdx_of_split _ _ _ hc hfree
    have hlen : 1 ≤ sp.data.length := by
      rcases sp with ⟨l⟩
      cases l with
      | nil => exact absurd (by rfl) hne
      | cons a t => simp
    have hslice : pySlice s 0 sp.data.length = sp := by
      unfold pySlice
      rw [hdecomp, take_len_append]
      simp
    have hfrom : pySliceFrom s (sp.data.length + 1) = ct := by
      unfold pySliceFrom
      rw [hdecomp, drop_len_succ_append]
    simp only [getSpeakerNameAndContent, if_neg hnb, hidx, if_pos hlen, hslice, hfrom]
  · intro hnosplit hnb
    match hidx : firstColonIdx s.data with
    | none => simp [getSpeakerNameAndContent, if_neg hnb, hidx]
    | some i =>
      cases Nat.eq_zero_or_pos i with
      | inr hpos =>
        exfalso
        apply hnosplit
        obtain ⟨pre, c, suf, hdec, hlen, hc, hfree⟩ := firstColonIdx_some_split hidx
        refine ⟨⟨pre⟩, ⟨suf⟩, ⟨c, hc, by rw [hdec]⟩, ?_, hfree⟩
        intro hemp
        have hnil : pre = [] := congrArg String.data hemp
        rw [hnil] at hlen
        simp at hlen
        omega
      | inl hz =>
        subst hz
        simp [getSpeakerNameAndContent, if_neg hnb, hidx]


/-- Value of a parsed component field: a Python str, a list of str, or None. -/
inductive Val where
  | vstr (s : String)
  | vlist (l : List String)
  | vnone
deriving DecidableEq, Repr

/-- Python truthiness of a Val: a nonempty string or a nonempty list. -/
def Val.truthy : Val → Bool
  | .vstr s => s ≠ ""
  | .vlist l => !l.isEmpty
  | .vnone => false

/-- A parsed component dictionary, as produced by Parse.__parse_plot_option_temp
(parse.py 192-260) and consumed by GraphBuilder: the type tag, the parameter
name, the content field (template names and plain text runs), the value field
(parameter values: a line or a sequence of lines after expansion), and the
nested-template mapping from placeholder ids to expanded sub-structures. -/
inductive Part where
  | mk (ptype : String) (name : String) (content : Val) (value : Val)
      (nestedTemp : List (String × List Part))

def Part.ptype : Part → String | .mk t _ _ _ _ => t

def Part.name : Part → String | .mk _ n _ _ _ => n

def Part.content : Part → Val | .mk _ _ c _ _ => c

def Part.value : Part → Val | .mk _ _ _ v _ => v

def Part.nestedTemp : Part → List (String × List Part) | .mk _ _ _ _ nt => nt

/-- Python int(name[-1].strip()) from build_graph.py line 65: only the LAST
character of the continuation name is read; it must be a decimal digit, a
whitespace or other character raises ValueError in int(), an empty name
would raise IndexError. -/
def lastCharDigit (name : String) : Except String Nat :=
  match name.data.getLast? with
  | none => .error "IndexError: string index out of range"
  | some c =>
    if c.isDigit then .ok (c.toNat - 48)
    else .error "ValueError: invalid literal for int()"

/-- Entry of the option/plot pair map (build_graph.py lines 56-60, 69-70). -/
structure PairInfo where
  plot : Option String
  plot_pos : Option Nat
  option_pos : Nat
deriving DecidableEq, Repr

/-- Models one iteration of the loop body of
GraphBuilder.__find_option_plot_pair (build_graph.py 50-76), acting on the
insertion-ordered pair dict for the part at index idx. -/
def foppStep (pair : List (String × PairInfo)) (idx : Nat) (p : Part) :
    Except String (List (String × PairInfo)) :=
  let name := p.name
  if containsSub "选项" name then
    if (assocGet pair name).isSome then .error "Redundant \"选项\" found."
    else .ok (pair ++ [(name, ⟨none, none, idx⟩)])
  else if containsSub "剧情" name then
    if (assocGet pair name).isSome then .error "Redundant \"剧情\" found."
    else
      match lastCharDigit name with
      | .error e => .error e
      | .ok d =>
        match assocGet pair ("选项" ++ toString d) with
        | none => .error "No pairing \"选项\" found."
        | some info =>
          match info.plot with
          | some _ => .error "Existing \"剧情\" found."
          | none =>
            .ok (assocSet pair ("选项" ++ toString d)
              ⟨some name, some idx, info.option_pos⟩)
  else .error ("The passed (" ++ name ++ ") is neither \"剧情\" nor \"选项\".")

/-- Models GraphBuilder.__find_option_plot_pair (build_graph.py 46-78): the
indexed loop over the parameter parts (a raised ValueError aborts the loop). -/
def findOptionPlotPairAux : List (String × PairInfo) → Nat → List Part →
    Except String (List (String × PairInfo))
  | pair, _, [] => .ok pair
  | pair, idx, p :: rest =>
    match foppStep pair idx p with
    | .error e => .error e
    | .ok pair2 => findOptionPlotPairAux pair2 (idx + 1) rest

/-- Models GraphBuilder.__find_option_plot_pair applied to the parameter list
temp_parts (the template components after the template-name marker). -/
def findOptionPlotPair (parts : List Part) : Except String (List (String × PairInfo)) :=
  findOptionPlotPairAux [] 0 parts

/-- Abstraction of the pair dict to the spec-side state: each choice name with
whether its continuation has been assigned. -/
def pairState (pair : List (String × PairInfo)) : List (String × Bool) :=
  pair.map (fun q => (q.1, q.2.plot.isSome))

theorem pairState_keys (pair : List (String × PairInfo)) :
    (pairState pair).map Prod.fst = pair.map Prod.fst := by
  simp [pairState]

theorem containsSub_of_option_key (s : String) :
    containsSub "选项" ("选项" ++ s) = true := by
  unfold containsSub
  rw [decide_eq_true_eq, String.data_append]
  exact (List.prefix_append _ _).isInfix

/-- Parameter part for name = value as produced by the parser for a 剧情选项
template parameter without nested spans (parse.py 88-94 and 201-207). -/
def mkParam (n v : String) : Part := .mk "template" n .vnone (.vstr v) []

/-- C5: build_graph.py line 65 reads int(name[-1]) — only the LAST character of
the continuation name.  For the two-digit index 10, 剧情10 is paired against
选项0 (the truncated index), so on the well-formed template
(选项10=…, 剧情10=…) the pair builder raises the no-pairing error instead of
pairing 剧情10 with 选项10; in particular no plot node tagged with the full
index 10 is ever produced, contradicting the claim, which the spec's
nodeType contract (plot# with # the 1-based choice index) shows to be the
intent.  Evaluation at the failing input: -/
theorem c5_full_index_truncated :
    lastCharDigit "剧情10" = .ok 0
    ∧ findOptionPlotPair [mkParam "选项10" "A", mkParam "剧情10" "B"]
      = .error "No pairing \"选项\" found." := ⟨rfl, rfl⟩

/-- Attributes of a graph node: no attributes (sentinels and auto-added edge
endpoints), the dialogue attribute dict written by the graph builder (the
branch_name key is only present on option/plot nodes, build_graph.py
101-107 and 139-145, not on the nodes of build_graph.py line 41), or the
section tag written by build() (line 247). -/
inductive NodeAttrs where
  | plain
  | dialogue (speaker content node_type : String) (branch_name : Option String)
  | secTag (name : String)
deriving DecidableEq, Repr

/-- A networkx DiGraph: insertion-ordered node list with attributes (node
names unique) and insertion-ordered list of distinct directed edges. -/
structure Graph where
  nodes : List (String × NodeAttrs)
  edges : List (String × String)
deriving DecidableEq, Repr

def Graph.empty : Graph := ⟨[], []⟩

def Graph.keys (g : Graph) : List String := g.nodes.map Prod.fst

def Graph.hasNode (g : Graph) (n : String) : Bool := g.keys.contains n

/-- networkx add_node without attributes: a new node is appended, an existing
node is left unchanged. -/
def addNodePlain (g : Graph) (n : String) : Graph :=
  if g.hasNode n then g else ⟨g.nodes ++ [(n, .plain)], g.edges⟩

/-- networkx add_node with an attribute dict: a new node is appended, an
existing node has its attribute dict updated (every call site below passes
the complete dict, so the update replaces the attributes). -/
def addNodeAttrs (g : Graph) (n : String) (a : NodeAttrs) : Graph :=
  if g.hasNode n then
    ⟨g.nodes.map (fun q => if q.1 = n then (n, a) else q), g.edges⟩
  else ⟨g.nodes ++ [(n, a)], g.edges⟩

/-- networkx add_edge: missing endpoints are added without attributes, then
the edge is appended unless already present. -/
def addEdge (g : Graph) (u v : String) : Graph :=
  if (addNodePlain (addNodePlain g u) v).edges.contains (u, v) then
    addNodePlain (addNodePlain g u) v
  else ⟨(addNodePlain (addNodePlain g u) v).nodes,
        (addNodePlain (addNodePlain g u) v).edges ++ [(u, v)]⟩

def addEdgesFrom (g : Graph) (es : List (String × String)) : Graph :=
  es.foldl (fun g e => addEdge g e.1 e.2) g

/-- networkx out_degree of one node: the number of stored edges leaving it. -/
def outDeg (g : Graph) (n : String) : Nat :=
  (g.edges.filter (fun e => e.1 = n)).length

/-- nx.get_node_attributes(graph, branch_name).items(): the nodes carrying a
branch_name attribute, with its value, in node insertion order. -/
def branchOf : NodeAttrs → Option String
  | .dialogue _ _ _ b => b
  | _ => none

def branchAttrPairs (g : Graph) : List (String × String) :=
  g.nodes.filterMap (fun q => (branchOf q.2).map (fun b => (q.1, b)))

/-- list(graph.out_degree): every node with its out-degree, insertion order. -/
def outDegList (g : Graph) : List (String × Nat) :=
  g.nodes.map (fun q => (q.1, outDeg g q.1))

/-- The terminal-set computation of build_graph.py lines 151-156: zip the
branch_name attribute iteration with the out-degree iteration offset by one
position ([1:]) and keep each attribute node whose PAIRED degree entry is
zero and whose tag is the current branch. -/
def endByZip (g : Graph) (branch : String) : List String :=
  (List.zip (branchAttrPairs g) ((outDegList g).drop 1)).filterMap
    (fun z => if z.1.2 = branch ∧ z.2.2 = 0 then some z.1.1 else none)

/-- Modelled from the spec (sections 4.4 step 4 and 9): the terminal set
computed by explicitly filtering the nodes whose branch_name attribute
equals the current branch tag and whose own out-degree is zero, independent
of iteration order. -/
def endBySpecFilter (g : Graph) (branch : String) : List String :=
  g.nodes.filterMap (fun q =>
    match branchOf q.2 with
    | some b => if b = branch ∧ outDeg g q.1 = 0 then some q.1 else none
    | none => none)

/-- The dynamically typed frontier prev_node_names: a Python list of node
names, or a single string (assigned from the end field of a nested
non-option structure), over whose characters Python then iterates. -/
inductive PrevV where
  | plist (l : List String)
  | pstr (s : String)
deriving DecidableEq, Repr

/-- The dynamically typed end field of the builder return dicts: a list
(option-template blocks, warpped leaf lists) or a single node name
(plain-text and collapse blocks, the END sentinel). -/
inductive EndV where
  | elist (l : List String)
  | estr (s : String)
deriving DecidableEq, Repr

def endToPrev : EndV → PrevV
  | .elist l => .plist l
  | .estr s => .pstr s

/-- Python zip(prev_node_names, [target] * len(prev_node_names)) of
build_graph.py lines 108-110 and 146-148: each frontier entry is paired
with the target node; when the frontier is a single string, len() and zip
iterate over its characters, each character becoming an edge source. -/
def zipPrevTo (prev : PrevV) (target : String) : List (String × String) :=
  match prev with
  | .plist l => l.map (fun n => (n, target))
  | .pstr s => s.data.map (fun c => (String.mk [c], target))

/-- prev_node_names[0] of build_graph.py line 90: the first element of a list
(IndexError when empty), the first character of a string. -/
def prevHead : PrevV → Except String String
  | .plist [] => .error "IndexError: list index out of range"
  | .plist (n :: _) => .ok n
  | .pstr s =>
    match s.data with
    | [] => .error "IndexError: string index out of range"
    | c :: _ => .ok (String.mk [c])

/-- Python list indexing l[i] with an IndexError on overflow. -/
def pyIndex {α : Type} (l : List α) (i : Nat) : Except String α :=
  match l.get? i with
  | some a => .ok a
  | none => .error "IndexError: list index out of range"

/-- Python name[-1] as a one-character string, IndexError on an empty name. -/
def pyLastChar (s : String) : Except String String :=
  match s.data.getLast? with
  | none => .error "IndexError: string index out of range"
  | some c => .ok (String.mk [c])

/-- re.match of the placeholder pattern of build_graph.py line 15 against a
value: the value STARTS with two dollar signs, ten decimal digits and two
dollar signs (re.match anchors only the start, trailing text is allowed). -/
def placeholderMatch (value : String) : Bool :=
  match value.data with
  | '$' :: '$' :: rest =>
    (rest.take 10).length = 10 && (rest.take 10).all Char.isDigit &&
      (match rest.drop 10 with
       | '$' :: '$' :: _ => true
       | _ => false)
  | _ => false

/-- value.replace of build_graph.py line 127: delete every dollar sign. -/
def stripDollars (value : String) : String :=
  ⟨value.data.filter (fun c => c ≠ '$')⟩

/-- The items Python iterates over in __convert_str_seq_into_node_list and the
plot-value normalisation of build_graph.py 120-121: a list iterates its
elements, a string iterates its characters, None is not iterable. -/
def seqItems : Val → Except String (List String)
  | .vstr s => .ok (s.data.map (fun c => String.mk [c]))
  | .vlist l => .ok l
  | .vnone => .error "TypeError: NoneType is not iterable"

/-- The standard return dict of the component handlers (build_graph.py
157-162, 174-184, 195-199): graph, start node, end value. -/
structure RetDict where
  graph : Graph
  start : String
  endv : EndV
deriving DecidableEq, Repr

/-- Result of one modelled call: the optional return dict (None for empty
components), the state of the caller-supplied aliased graph after the call,
and the advanced draw counter. -/
structure BRes where
  ret : Option RetDict
  gstate : Graph
  k : Nat
deriving Repr

/-- The zipped dict comprehension of __convert_str_seq_into_node_list
(build_graph.py 37-44): items and node types are zipped (truncating to the
shorter list; map is lazy, so the extractor and its draws run only for the
zipped prefix), triples with an empty component are dropped, and the dict
keeps the first position of a repeated md5 key while updating its value. -/
def convertLoop (idFn : String → Nat → String) (rng : Nat → Nat) :
    List (String × NodeAttrs) → Nat → List String → List String →
    List (String × NodeAttrs) × Nat
  | d, k, item :: items, ty :: tys =>
    let r := getSpeakerNameAndContent idFn rng k item
    let d2 := match r.1 with
      | some t =>
        if allNonEmpty t then assocSet d t.1 (.dialogue t.2.1 t.2.2 ty none) else d
      | none => d
    convertLoop idFn rng d2 r.2 items tys
  | d, k, _, _ => (d, k)

/-- The options loop of GraphBuilder.__build_plot_option_graph (build_graph.py
95-111): one option node per surviving choice value, fan-in edges from every
frontier entry, and the option_name -> node id record. -/
def optionsLoop (idFn : String → Nat → String) (rng : Nat → Nat)
    (tmpl : List Part) (prev : PrevV) (branch : String) :
    Graph → List (String × String) → Nat → List (String × PairInfo) →
    Except String (Graph × List (String × String) × Nat)
  | graph, opts, k, [] => .ok (graph, opts, k)
  | graph, opts, k, (optionName, info) :: restPair => do
    let option ← pyIndex tmpl (info.option_pos + 1)
    match option.value with
    | .vstr ov =>
      let r := getSpeakerNameAndContent idFn rng k ov
      match r.1 with
      | some t =>
        if allNonEmpty t then do
          let lastC ← pyLastChar optionName
          let g2 := addNodeAttrs graph t.1
            (.dialogue t.2.1 t.2.2 ("option" ++ lastC) (some branch))
          let g3 := addEdgesFrom g2 (zipPrevTo prev t.1)
          optionsLoop idFn rng tmpl prev branch g3 (opts ++ [(optionName, t.1)]) r.2 restPair
        else optionsLoop idFn rng tmpl prev branch graph opts r.2 restPair
      | none => optionsLoop idFn rng tmpl prev branch graph opts r.2 restPair
    | _ => .error "AttributeError: value has no strip"

/-- One call frame of the modelled builder: the mutually recursive bodies of
GraphBuilder.__build_plot_option_graph (pog, build_graph.py 80-164, with its
plots loop 113-149 split into the plots and plotValues frames),
__handle_component (handle, 186-237) and __warpped_build_plot_option_graph
(warpped, 166-184). -/
inductive BCall where
  | pog (k : Nat) (tmpl : List Part) (graph0 : Option Graph) (prev0 : Option PrevV)
      (branch : String)
  | handle (k : Nat) (comps : List Part) (followed : Bool)
  | warpped (k : Nat) (comps : List Part) (followed : Bool)
  | plots (k : Nat) (tmpl : List Part) (graph : Graph) (branch : String)
      (opts : List (String × String)) (pairRest : List (String × PairInfo))
  | plotValues (k : Nat) (graph : Graph) (branch : String) (plotName : String)
      (nested : List (String × List Part)) (prev : PrevV) (values : List String)

/-- The modelled builder.  Fuel bounds the recursion depth (Python raises
RecursionError when it is exceeded; every closed evaluation below uses ample
fuel).  See BCall for the correspondence to build_graph.py. -/
def runBuilder (idFn : String → Nat → String) (rng : Nat → Nat) :
    Nat → BCall → Except String BRes
  | 0, _ => .error "RecursionError: maximum recursion depth exceeded"
  | fuel + 1, call =>
    match call with
    | .pog k tmpl graph0 prev0 branch => do
      let prev : PrevV := prev0.getD (.plist ["START"])
      let graph ←
        match graph0 with
        | some g => pure g
        | none => do
          let h ← prevHead prev
          pure (addNodePlain Graph.empty h)
      match tmpl with
      | [] => .error "IndexError: list index out of range"
      | p0 :: rest =>
        if p0.ptype = "template_name" ∧ p0.content = .vstr "剧情选项" then do
          match findOptionPlotPair rest with
          | .error e => .error e
          | .ok pair => do
            let (g1, opts, k1) ← optionsLoop idFn rng tmpl prev branch graph [] k pair
            let res ← runBuilder idFn rng fuel (.plots k1 tmpl g1 branch opts pair)
            let endList := endByZip res.gstate branch
            pure ⟨some ⟨res.gstate, "START", .elist endList⟩, res.gstate, res.k⟩
        else do
          let res ← runBuilder idFn rng fuel (.handle k tmpl true)
          pure ⟨res.ret, graph, res.k⟩
    | .handle k comps followed =>
      match comps with
      | [] => pure ⟨none, Graph.empty, k⟩
      | c0 :: _ =>
        if c0.ptype = "common_string" then do
          let items ← seqItems c0.content
          let (nodes, k1) :=
            convertLoop idFn rng [] k items (items.map (fun _ => "common_string"))
          match nodes.map Prod.fst with
          | [] => .error "IndexError: pop from empty list"
          | h :: t =>
            let hashList := h :: t
            let g1 : Graph := ⟨nodes, []⟩
            let g2 := addEdgesFrom g1 (List.zip hashList.dropLast (hashList.drop 1))
            pure ⟨some ⟨g2, h, .estr (hashList.getLast (by simp))⟩, g2, k1⟩
        else if c0.ptype = "template_name" then do
          let res ← runBuilder idFn rng fuel (.warpped k comps followed)
          pure res
        else if c0.ptype = "collapse" then do
          let items ← seqItems c0.content
          let (nodes, k1) := convertLoop idFn rng [] k items ["collapse"]
          match nodes.map Prod.fst with
          | [] => .error "IndexError: list index out of range"
          | h :: t =>
            let g1 : Graph := ⟨nodes, []⟩
            pure ⟨some ⟨g1, h, .estr ((h :: t).getLast (by simp))⟩, g1, k1⟩
        else .error ("NotImplementedError: no method for " ++ c0.ptype)
    | .warpped k comps followed => do
      let res ← runBuilder idFn rng fuel (.pog k comps none none "None")
      match res.ret with
      | none => .error "TypeError: NoneType is not subscriptable"
      | some rd =>
        let graph := rd.graph
        let leaf := ((outDegList graph).filter (fun q => q.2 = 0)).map Prod.fst
        if followed then
          let g2 := addNodePlain graph "END"
          let g3 := addEdgesFrom g2 (leaf.map (fun n => (n, "END")))
          pure ⟨some ⟨g3, "START", .estr "END"⟩, g3, res.k⟩
        else
          pure ⟨some ⟨graph, "START", .elist leaf⟩, graph, res.k⟩
    | .plots k tmpl graph branch opts pairRest =>
      match pairRest with
      | [] => pure ⟨none, graph, k⟩
      | (optionName, info) :: restPair =>
        match info.plot_pos with
        | none => runBuilder idFn rng fuel (.plots k tmpl graph branch opts restPair)
        | some plotPos => do
          let pairedPlot ← pyIndex tmpl (plotPos + 1)
          let values ←
            match pairedPlot.value with
            | .vstr s => pure [s]
            | .vlist l => pure l
            | .vnone => .error "TypeError: NoneType is not iterable"
          let prev0 ←
            match assocGet opts optionName with
            | some nid => pure (PrevV.plist [nid])
            | none => .error "KeyError: options_to_be_connected"
          let res ← runBuilder idFn rng fuel
            (.plotValues k graph branch pairedPlot.name pairedPlot.nestedTemp prev0 values)
          runBuilder idFn rng fuel (.plots res.k tmpl res.gstate branch opts restPair)
    | .plotValues k graph branch plotName nested prev values =>
      match values with
      | [] => pure ⟨none, graph, k⟩
      | value :: vrest =>
        if placeholderMatch value then do
          let th := stripDollars value
          match assocGet nested th with
          | none => .error "KeyError: nested_temp"
          | some sub => do
            let branchNew := toString (rng k)
            let res ← runBuilder idFn rng fuel (.pog (k + 1) sub (some graph) (some prev) branchNew)
            match res.ret with
            | none => .error "TypeError: NoneType is not subscriptable"
            | some rd =>
              runBuilder idFn rng fuel
                (.plotValues res.k res.gstate branch plotName nested (endToPrev rd.endv) vrest)
        else
          let r := getSpeakerNameAndContent idFn rng k value
          match r.1 with
          | some t =>
            if allNonEmpty t then do
              let lastC ← pyLastChar plotName
              let g2 := addNodeAttrs graph t.1
                (.dialogue t.2.1 t.2.2 ("plot" ++ lastC) (some branch))
              let g3 := addEdgesFrom g2 (zipPrevTo prev t.1)
              runBuilder idFn rng fuel
                (.plotValues r.2 g3 branch plotName nested (.plist [t.1]) vrest)
            else
              runBuilder idFn rng fuel (.plotValues r.2 graph branch plotName nested prev vrest)
          | none =>
            runBuilder idFn rng fuel (.plotValues r.2 graph branch plotName nested prev vrest)

/-- GraphBuilder.__build_plot_option_graph (build_graph.py 80-164). -/
def buildPlotOptionGraph (idFn : String → Nat → String) (rng : Nat → Nat) (fuel : Nat)
    (k : Nat) (tmpl : List Part) (graph0 : Option Graph) (prev0 : Option PrevV)
    (branch : String) : Except String BRes :=
  runBuilder idFn rng fuel (.pog k tmpl graph0 prev0 branch)

/-- GraphBuilder.__handle_component (build_graph.py 186-237). -/
def handleComponent (idFn : String → Nat → String) (rng : Nat → Nat) (fuel : Nat)
    (k : Nat) (comps : List Part) (followed : Bool) : Except String BRes :=
  runBuilder idFn rng fuel (.handle k comps followed)

/-- GraphBuilder.__warpped_build_plot_option_graph (build_graph.py 166-184,
keeping the source name). -/
def warppedBuildPlotOptionGraph (idFn : String → Nat → String) (rng : Nat → Nat)
    (fuel : Nat) (k : Nat) (comps : List Part) (followed : Bool) : Except String BRes :=
  runBuilder idFn rng fuel (.warpped k comps followed)

/-- The component dispatch conditional of GraphBuilder.build (build_graph.py
252-256): enumerate index strictly below the component-list length selects
the handler call with is_followed_by_other_lines=True, an index equal to the
length would select False, and any other index leaves graph_dict unbound
(NameError).  Python's enumerate makes the first branch the only reachable
one. -/
def dispatchFlag (i n : Nat) : Option Bool :=
  if i < n then some true else if i = n then some false else none

/-- nx.union of build_graph.py 259: raises when the node sets intersect,
otherwise concatenates nodes and edges of both graphs. -/
def nxUnion (g h : Graph) : Except String Graph :=
  if g.keys.any (fun n => h.keys.contains n) then
    .error "nx.union: node sets are not disjoint"
  else .ok ⟨g.nodes ++ h.nodes, g.edges ++ h.edges⟩

/-- The inner component loop of GraphBuilder.build (build_graph.py 252-267):
total is the Python len(sec_components), cIdx the enumerate index. -/
def buildComponents (idFn : String → Nat → String) (rng : Nat → Nat) (fuel : Nat)
    (total : Nat) :
    Graph → EndV → Nat → Nat → List (List Part) → Except String (Graph × EndV × Nat)
  | g, prevE, k, _, [] => .ok (g, prevE, k)
  | g, prevE, k, cIdx, comp :: restComps => do
    match dispatchFlag cIdx total with
    | none => .error "NameError: name graph_dict is not defined"
    | some f => do
      let res ← runBuilder idFn rng fuel (.handle k comp f)
      match res.ret with
      | none => buildComponents idFn rng fuel total g prevE res.k (cIdx + 1) restComps
      | some rd => do
        let g2 ← nxUnion g rd.graph
        let g3 :=
          match prevE with
          | .elist l => addEdgesFrom g2 (l.map (fun n2 => (n2, rd.start)))
          | .estr s => addEdgesFrom g2 [(s, rd.start)]
        buildComponents idFn rng fuel total g3 rd.endv res.k (cIdx + 1) restComps

/-- The middle loop of GraphBuilder.build over section[1:] (build_graph.py
250): the frontier value prev_node persists across its iterations. -/
def buildSecList (idFn : String → Nat → String) (rng : Nat → Nat) (fuel : Nat) :
    Graph → EndV → Nat → List (List (List Part)) → Except String (Graph × EndV × Nat)
  | g, prevE, k, [] => .ok (g, prevE, k)
  | g, prevE, k, secComponents :: rest => do
    let (g2, p2, k2) ← buildComponents idFn rng fuel secComponents.length g prevE k 0 secComponents
    buildSecList idFn rng fuel g2 p2 k2 rest

/-- GraphBuilder.build (build_graph.py 239-269): one section entry node per
top-level section (the 任务剧情 recap section is skipped), components
chained from the previous block end value. -/
def buildGraph (idFn : String → Nat → String) (rng : Nat → Nat) (fuel : Nat) :
    Graph → Nat → List (String × List (List (List Part))) → Except String (Graph × Nat)
  | g, k, [] => .ok (g, k)
  | g, k, (secName, secList) :: rest =>
    if secName = "任务剧情" then buildGraph idFn rng fuel g k rest
    else do
      let g1 := addNodeAttrs g secName (.secTag secName)
      let (g2, _, k2) ← buildSecList idFn rng fuel g1 (.estr secName) k secList
      buildGraph idFn rng fuel g2 k2 rest

/-- Position of a name in a key list (length when absent). -/
def idxOf : List String → String → Nat
  | [], _ => 0
  | m :: rest, n => if m = n then 0 else idxOf rest n + 1

theorem idxOf_lt_length {l : List String} {n : String} (h : n ∈ l) :
    idxOf l n < l.length := by
  induction l with
  | nil => cases h
  | cons m rest ih =>
    by_cases hm : m = n
    · simp [idxOf, hm]
    · rcases List.mem_cons.mp h with rfl | h2
      · exact absurd rfl hm
      · simp only [idxOf, if_neg hm, List.length_cons]
        exact Nat.succ_lt_succ (ih h2)

theorem idxOf_append_of_mem {l : List String} {n : String} (ext : List String)
    (h : n ∈ l) : idxOf (l ++ ext) n = idxOf l n := by
  induction l with
  | nil => cases h
  | cons m rest ih =>
    by_cases hm : m = n
    · simp [idxOf, hm]
    · rcases List.mem_cons.mp h with rfl | h2
      · exact absurd rfl hm
      · simp [idxOf, if_neg hm, ih h2]

/-- networkx in_degree of one node: the number of stored edges entering it. -/
def inDeg (g : Graph) (n : String) : Nat :=
  (g.edges.filter (fun e => e.2 = n)).length

def EdgeRel (g : Graph) (u v : String) : Prop := (u, v) ∈ g.edges

/-- Modelled from the spec (section 8): no node is reachable from itself by
following one or more outgoing edges. -/
def Acyclic (g : Graph) : Prop := ∀ n, ¬ Relation.TransGen (EdgeRel g) n n

/-- Edge-order invariant maintained by the builder: every edge target is a
present node of length at least two (the salted ids and the sentinels; the
stray one-character nodes that Python's string iteration creates are only
ever edge sources), and every edge from a node of length at least two goes
strictly forward in insertion order. -/
structure GInv (g : Graph) : Prop where
  tgt_mem : ∀ e ∈ g.edges, e.2 ∈ g.keys
  tgt_len : ∀ e ∈ g.edges, 2 ≤ e.2.length
  src_mem : ∀ e ∈ g.edges, e.1 ∈ g.keys
  fwd : ∀ e ∈ g.edges, 2 ≤ e.1.length → idxOf g.keys e.1 < idxOf g.keys e.2

theorem ginv_empty : GInv Graph.empty := by
  constructor <;> intro e he <;> cases he

theorem acyclic_of_ginv {g : Graph} (hg : GInv g) : Acyclic g := by
  have key : ∀ u v, Relation.TransGen (EdgeRel g) u v →
      2 ≤ v.length ∧ (2 ≤ u.length → idxOf g.keys u < idxOf g.keys v) := by
    intro u v h
    induction h with
    | single e => exact ⟨hg.tgt_len _ e, fun hu => hg.fwd _ e hu⟩
    | tail hsteps e ih =>
      refine ⟨hg.tgt_len _ e, fun hu => ?_⟩
      exact lt_trans (ih.2 hu) (hg.fwd _ e ih.1)
  intro n hn
  obtain ⟨hlen, hidx⟩ := key n n hn
  exact lt_irrefl _ (hidx hlen)

/-- The names a frontier value contributes as edge sources (list entries, or
the characters of a single string). -/
def prevNames : PrevV → List String
  | .plist l => l
  | .pstr s => s.data.map (fun c => String.mk [c])

theorem zipPrevTo_eq_map (prev : PrevV) (target : String) :
    zipPrevTo prev target = (prevNames prev).map (fun n => (n, target)) := by
  cases prev <;> simp [zipPrevTo, prevNames, List.map_map, Function.comp]

/-- Frontier entries of length at least two are present nodes. -/
def PrevOK (g : Graph) (prev : PrevV) : Prop :=
  ∀ n ∈ prevNames prev, 2 ≤ n.length → n ∈ g.keys

theorem hasNode_eq_mem (g : Graph) (n : String) : g.hasNode n = true ↔ n ∈ g.keys := by
  simp [Graph.hasNode]

theorem addNodePlain_edges (g : Graph) (n : String) :
    (addNodePlain g n).edges = g.edges := by
  unfold addNodePlain; split <;> rfl

theorem addNodePlain_nodes (g : Graph) (n : String) :
    ∃ ext, (addNodePlain g n).nodes = g.nodes ++ ext
      ∧ ∀ q ∈ ext, q = (n, NodeAttrs.plain) ∧ q.1 ∉ g.keys := by
  unfold addNodePlain
  split
  · exact ⟨[], by simp, by simp⟩
  · next h =>
    exact ⟨[(n, .plain)], rfl, by
      intro q hq
      rw [List.mem_singleton.mp hq]
      exact ⟨rfl, fun hmem => h ((hasNode_eq_mem g n).mpr hmem)⟩⟩

theorem addNodePlain_mem (g : Graph) (n : String) : n ∈ (addNodePlain g n).keys := by
  unfold addNodePlain
  split
  · next h => exact (hasNode_eq_mem g n).mp h
  · simp [Graph.keys]

theorem map_fst_replace (nodes : List (String × NodeAttrs)) (n : String) (a : NodeAttrs) :
    (nodes.map (fun q => if q.1 = n then (n, a) else q)).map Prod.fst
      = nodes.map Prod.fst := by
  induction nodes with
  | nil => rfl
  | cons q rest ih =>
    by_cases h : q.1 = n
    · simp [h, ih]
    · simp [h, ih]

theorem addNodeAttrs_edges (g : Graph) (n : String) (a : NodeAttrs) :
    (addNodeAttrs g n a).edges = g.edges := by
  unfold addNodeAttrs; split <;> rfl

theorem addNodeAttrs_nodes_fresh {g : Graph} {n : String} (a : NodeAttrs)
    (h : n ∉ g.keys) : (addNodeAttrs g n a).nodes = g.nodes ++ [(n, a)] := by
  unfold addNodeAttrs
  rw [if_neg (by simp [hasNode_eq_mem g n, h])]

theorem addNodeAttrs_keys (g : Graph) (n : String) (a : NodeAttrs) :
    ∃ ext, (addNodeAttrs g n a).keys = g.keys ++ ext ∧ ∀ m ∈ ext, m = n := by
  unfold addNodeAttrs
  split
  · exact ⟨[], by simpa [Graph.keys] using map_fst_replace g.nodes n a, by simp⟩
  · exact ⟨[n], by simp [Graph.keys], by simp⟩

theorem addEdge_nodes (g : Graph) (u v : String) :
    ∃ ext, (addEdge g u v).nodes = g.nodes ++ ext
      ∧ ∀ q ∈ ext, q.2 = NodeAttrs.plain ∧ (q.1 = u ∨ q.1 = v) ∧ q.1 ∉ g.keys := by
  unfold addEdge
  obtain ⟨e1, he1, hq1⟩ := addNodePlain_nodes g u
  obtain ⟨e2, he2, hq2⟩ := addNodePlain_nodes (addNodePlain g u) v
  have hk1 : (addNodePlain g u).keys = g.keys ++ e1.map Prod.fst := by
    simp [Graph.keys, he1]
  refine ⟨e1 ++ e2, ?_, ?_⟩
  · split <;> simp [he2, he1]
  · intro q hq
    rcases List.mem_append.mp hq with h | h
    · obtain ⟨hq3, hq4⟩ := hq1 q h
      rw [hq3]
      exact ⟨rfl, Or.inl rfl, by rw [hq3] at hq4; exact hq4⟩
    · obtain ⟨hq3, hq4⟩ := hq2 q h
      rw [hq3]
      refine ⟨rfl, Or.inr rfl, ?_⟩
      rw [hq3] at hq4
      intro hmem
      exact hq4 (by rw [hk1]; exact List.mem_append_left _ hmem)

theorem addEdge_edges (g : Graph) (u v : String) :
    (addEdge g u v).edges = g.edges ∨ (addEdge g u v).edges = g.edges ++ [(u, v)] := by
  unfold addEdge
  rw [addNodePlain_edges, addNodePlain_edges]
  split
  · left; rw [addNodePlain_edges, addNodePlain_edges]
  · right; rfl

theorem addEdge_edges_mem (g : Graph) (u v : String) :
    (u, v) ∈ (addEdge g u v).edges := by
  unfold addEdge
  rw [addNodePlain_edges, addNodePlain_edges]
  split
  · next h =>
    rw [addNodePlain_edges, addNodePlain_edges]
    simpa using h
  · simp

theorem addEdge_edges_sub (g : Graph) (u v : String) {e : String × String}
    (h : e ∈ g.edges) : e ∈ (addEdge g u v).edges := by
  rcases addEdge_edges g u v with h2 | h2 <;> rw [h2]
  · exact h
  · exact List.mem_append_left _ h

theorem addEdgesFrom_nodes (g : Graph) (es : List (String × String)) :
    ∃ ext, (addEdgesFrom g es).nodes = g.nodes ++ ext
      ∧ ∀ q ∈ ext, q.2 = NodeAttrs.plain
        ∧ (q.1 ∈ es.map Prod.fst ∨ q.1 ∈ es.map Prod.snd) := by
  induction es generalizing g with
  | nil => exact ⟨[], by simp [addEdgesFrom], by simp⟩
  | cons e rest ih =>
    obtain ⟨e1, he1, hq1⟩ := addEdge_nodes g e.1 e.2
    obtain ⟨e2, he2, hq2⟩ := ih (addEdge g e.1 e.2)
    refine ⟨e1 ++ e2, ?_, ?_⟩
    · show (addEdgesFrom (addEdge g e.1 e.2) rest).nodes = _
      rw [he2, he1, List.append_assoc]
    · intro q hq
      rcases List.mem_append.mp hq with h | h
      · obtain ⟨h2, h3⟩ := hq1 q h
        refine ⟨h2, ?_⟩
        rcases h3 with h4 | h4
        · exact Or.inl (by simp [h4])
        · exact Or.inr (by simp [h4])
      · obtain ⟨h2, h3⟩ := hq2 q h
        refine ⟨h2, ?_⟩
        rcases h3 with h4 | h4
        · exact Or.inl (by simp; exact Or.inr (by simpa using h4))
        · exact Or.inr (by simp; exact Or.inr (by simpa using h4))

theorem addEdgesFrom_edges_sub (g : Graph) (es : List (String × String))
    {e : String × String} (h : e ∈ g.edges) : e ∈ (addEdgesFrom g es).edges := by
  induction es generalizing g with
  | nil => exact h
  | cons e2 rest ih =>
    exact ih (addEdge g e2.1 e2.2) (addEdge_edges_sub g e2.1 e2.2 h)

theorem addEdgesFrom_edges_decomp (g : Graph) (es : List (String × String)) :
    ∃ newEs, (addEdgesFrom g es).edges = g.edges ++ newEs ∧ ∀ e ∈ newEs, e ∈ es := by
  induction es generalizing g with
  | nil => exact ⟨[], by simp [addEdgesFrom], by simp⟩
  | cons e rest ih =>
    obtain ⟨n2, hn2, hs2⟩ := ih (addEdge g e.1 e.2)
    rcases addEdge_edges g e.1 e.2 with h1 | h1
    · refine ⟨n2, ?_, fun x hx => List.mem_cons_of_mem _ (hs2 x hx)⟩
      show (addEdgesFrom (addEdge g e.1 e.2) rest).edges = _
      rw [hn2, h1]
    · refine ⟨(e.1, e.2) :: n2, ?_, ?_⟩
      · show (addEdgesFrom (addEdge g e.1 e.2) rest).edges = _
        rw [hn2, h1, List.append_assoc]
        rfl
      · intro x hx
        rcases List.mem_cons.mp hx with rfl | hx
        · simp
        · exact List.mem_cons_of_mem _ (hs2 x hx)

theorem idxOf_append_self {l : List String} {n : String} (h : n ∉ l) :
    idxOf (l ++ [n]) n = l.length := by
  induction l with
  | nil => simp [idxOf]
  | cons m rest ih =>
    have hm : m ≠ n := fun he => h (by simp [he])
    simp [idxOf, hm, ih (fun h2 => h (List.mem_cons_of_mem _ h2))]

theorem keys_of_nodes_ext {g g2 : Graph} {ext : List (String × NodeAttrs)}
    (h : g2.nodes = g.nodes ++ ext) : g2.keys = g.keys ++ ext.map Prod.fst := by
  simp [Graph.keys, h]

theorem ginv_of_ext {g g2 : Graph} (ext : List String)
    (hk : g2.keys = g.keys ++ ext) (he : g2.edges = g.edges) (hg : GInv g) :
    GInv g2 := by
  constructor
  · intro e hee; rw [he] at hee; rw [hk]
    exact List.mem_append_left _ (hg.tgt_mem e hee)
  · intro e hee; rw [he] at hee; exact hg.tgt_len e hee
  · intro e hee; rw [he] at hee; rw [hk]
    exact List.mem_append_left _ (hg.src_mem e hee)
  · intro e hee hlen
    rw [he] at hee
    rw [hk, idxOf_append_of_mem ext (hg.src_mem e hee),
      idxOf_append_of_mem ext (hg.tgt_mem e hee)]
    exact hg.fwd e hee hlen

theorem addEdge_keys_ext (g : Graph) (u v : String) :
    ∃ ext, (addEdge g u v).keys = g.keys ++ ext := by
  obtain ⟨ext, hext, _⟩ := addEdge_nodes g u v
  exact ⟨ext.map Prod.fst, keys_of_nodes_ext hext⟩

theorem addEdge_mem_left (g : Graph) (u v : String) : u ∈ (addEdge g u v).keys := by
  unfold addEdge
  have h1 : u ∈ (addNodePlain g u).keys := addNodePlain_mem g u
  obtain ⟨e2, he2, _⟩ := addNodePlain_nodes (addNodePlain g u) v
  have h2 : u ∈ (addNodePlain (addNodePlain g u) v).keys := by
    rw [keys_of_nodes_ext he2]
    exact List.mem_append_left _ h1
  split
  · exact h2
  · exact h2

theorem ginv_addEdge_ok {g : Graph} {u v : String} (hg : GInv g)
    (hvmem : v ∈ g.keys) (hvlen : 2 ≤ v.length)
    (hufwd : 2 ≤ u.length → u ∈ g.keys ∧ idxOf g.keys u < idxOf g.keys v) :
    GInv (addEdge g u v) := by
  obtain ⟨extn, hextn, _⟩ := addEdge_nodes g u v
  have hk : (addEdge g u v).keys = g.keys ++ extn.map Prod.fst := keys_of_nodes_ext hextn
  have hidx : ∀ n ∈ g.keys, idxOf (addEdge g u v).keys n = idxOf g.keys n := by
    intro n hn
    rw [hk]
    exact idxOf_append_of_mem _ hn
  have hold : ∀ e ∈ g.edges,
      e.2 ∈ (addEdge g u v).keys ∧ 2 ≤ e.2.length ∧ e.1 ∈ (addEdge g u v).keys
      ∧ (2 ≤ e.1.length →
          idxOf (addEdge g u v).keys e.1 < idxOf (addEdge g u v).keys e.2) := by
    intro e he
    refine ⟨by rw [hk]; exact List.mem_append_left _ (hg.tgt_mem e he),
      hg.tgt_len e he,
      by rw [hk]; exact List.mem_append_left _ (hg.src_mem e he), ?_⟩
    intro hl
    rw [hidx _ (hg.src_mem e he), hidx _ (hg.tgt_mem e he)]
    exact hg.fwd e he hl
  have hnew : (u, v).2 ∈ (addEdge g u v).keys ∧ 2 ≤ (u, v).2.length
      ∧ (u, v).1 ∈ (addEdge g u v).keys
      ∧ (2 ≤ (u, v).1.length →
          idxOf (addEdge g u v).keys (u, v).1 < idxOf (addEdge g u v).keys (u, v).2) := by
    refine ⟨by rw [hk]; exact List.mem_append_left _ hvmem, hvlen,
      addEdge_mem_left g u v, ?_⟩
    intro hl
    obtain ⟨humem, hults⟩ := hufwd hl
    rw [hidx _ humem, hidx _ hvmem]
    exact hults
  rcases addEdge_edges g u v with hE | hE
  · constructor
    · intro e he; rw [hE] at he; exact (hold e he).1
    · intro e he; rw [hE] at he; exact (hold e he).2.1
    · intro e he; rw [hE] at he; exact (hold e he).2.2.1
    · intro e he; rw [hE] at he; exact (hold e he).2.2.2
  · constructor
    · intro e he; rw [hE] at he
      rcases List.mem_append.mp he with h | h
      · exact (hold e h).1
      · rw [List.mem_singleton.mp h]; exact hnew.1
    · intro e he; rw [hE] at he
      rcases List.mem_append.mp he with h | h
      · exact (hold e h).2.1
      · rw [List.mem_singleton.mp h]; exact hnew.2.1
    · intro e he; rw [hE] at he
      rcases List.mem_append.mp he with h | h
      · exact (hold e h).2.2.1
      · rw [List.mem_singleton.mp h]; exact hnew.2.2.1
    · intro e he; rw [hE] at he
      rcases List.mem_append.mp he with h | h
      · exact (hold e h).2.2.2
      · rw [List.mem_singleton.mp h]; exact hnew.2.2.2

theorem ginv_addEdgesFrom_fanin {v : String} :
    ∀ {g : Graph} {es : List (String × String)}, GInv g →
    v ∈ g.keys → 2 ≤ v.length →
    (∀ e ∈ es, e.2 = v ∧ (2 ≤ e.1.length →
        e.1 ∈ g.keys ∧ idxOf g.keys e.1 < idxOf g.keys v)) →
    GInv (addEdgesFrom g es) := by
  intro g es
  induction es generalizing g with
  | nil => intro hg _ _ _; exact hg
  | cons e rest ih =>
    intro hg hvmem hvlen hes
    obtain ⟨hev, hef⟩ := hes e (by simp)
    have hg2 : GInv (addEdge g e.1 e.2) := by
      apply ginv_addEdge_ok hg (by rw [hev]; exact hvmem) (by rw [hev]; exact hvlen)
      intro hl
      obtain ⟨hm, hlt⟩ := hef hl
      rw [hev]
      exact ⟨hm, hlt⟩
    obtain ⟨ext, hk⟩ := addEdge_keys_ext g e.1 e.2
    have hvmem2 : v ∈ (addEdge g e.1 e.2).keys := by
      rw [hk]; exact List.mem_append_left _ hvmem
    show GInv (addEdgesFrom (addEdge g e.1 e.2) rest)
    apply ih hg2 hvmem2 hvlen
    intro e2 he2
    obtain ⟨h1, h2⟩ := hes e2 (List.mem_cons_of_mem _ he2)
    refine ⟨h1, fun hl => ?_⟩
    obtain ⟨hm, hlt⟩ := h2 hl
    rw [hk, idxOf_append_of_mem _ hm, idxOf_append_of_mem _ hvmem]
    exact ⟨List.mem_append_left _ hm, hlt⟩

theorem addEdgesFrom_nodes_ok :
    ∀ {g : Graph} {es : List (String × String)},
    (∀ e ∈ es, 2 ≤ e.1.length → e.1 ∈ g.keys) →
    (∀ e ∈ es, e.2 ∈ g.keys) →
    ∃ ext, (addEdgesFrom g es).nodes = g.nodes ++ ext
      ∧ ∀ q ∈ ext, q.2 = NodeAttrs.plain ∧ q.1.length ≤ 1 := by
  intro g es
  induction es generalizing g with
  | nil => intro _ _; exact ⟨[], by simp [addEdgesFrom], by simp⟩
  | cons e rest ih =>
    intro hsrc htgt
    obtain ⟨ext1, hext1, hq1⟩ := addEdge_nodes g e.1 e.2
    have hk1 : (addEdge g e.1 e.2).keys = g.keys ++ ext1.map Prod.fst :=
      keys_of_nodes_ext hext1
    have hsub : ∀ n ∈ g.keys, n ∈ (addEdge g e.1 e.2).keys := by
      intro n hn; rw [hk1]; exact List.mem_append_left _ hn
    obtain ⟨ext2, hext2, hq2⟩ :=
      ih (g := addEdge g e.1 e.2)
        (fun x hx hl => hsub _ (hsrc x (List.mem_cons_of_mem _ hx) hl))
        (fun x hx => hsub _ (htgt x (List.mem_cons_of_mem _ hx)))
    refine ⟨ext1 ++ ext2, ?_, ?_⟩
    · show (addEdgesFrom (addEdge g e.1 e.2) rest).nodes = _
      rw [hext2, hext1, List.append_assoc]
    · intro q hq
      rcases List.mem_append.mp hq with h | h
      · obtain ⟨hpl, hor, hnin⟩ := hq1 q h
        refine ⟨hpl, ?_⟩
        rcases hor with h4 | h4
        · by_cases hl : 2 ≤ q.1.length
          · exfalso
            apply hnin
            rw [h4]
            apply hsrc e (by simp)
            rw [← h4]
            exact hl
          · omega
        · exfalso
          apply hnin
          rw [h4]
          exact htgt e (by simp)
      · exact hq2 q h

/-- Keys created by the salted digest with a draw index below k. -/
def idOrigin (idFn : String → Nat → String) (rng : Nat → Nat) (k : Nat) (n : String) : Prop :=
  ∃ s j, j < k ∧ n = idFn s (rng j)

/-- Every node of the graph is a stray short node (Python string iteration), an
allowed sentinel from A, or a salted id drawn before index k. -/
def goodKeys (idFn : String → Nat → String) (rng : Nat → Nat) (A : List String)
    (g : Graph) (k : Nat) : Prop :=
  ∀ n ∈ g.keys, n.length ≤ 1 ∨ n ∈ A ∨ idOrigin idFn rng k n

/-- Every branch-tagged node has length at least two. -/
def battrLen (g : Graph) : Prop := ∀ p ∈ branchAttrPairs g, 2 ≤ p.1.length

/-- Builder-state invariant threaded through the recursion. -/
structure GSt (idFn : String → Nat → String) (rng : Nat → Nat) (A : List String)
    (g : Graph) (k : Nat) : Prop where
  inv : GInv g
  good : goodKeys idFn rng A g k
  battr : battrLen g

/-- Hypotheses under which the salted node ids are collision-free: the digest
determines its salt, the generator never repeats a value, ids have at least
two characters and never equal a sentinel of A. -/
structure HId (idFn : String → Nat → String) (rng : Nat → Nat) (A : List String) : Prop where
  salt_inj : ∀ s1 k1 s2 k2, idFn s1 k1 = idFn s2 k2 → k1 = k2
  rng_inj : ∀ i j, rng i = rng j → i = j
  len2 : ∀ s k, 2 ≤ (idFn s k).length
  not_base : ∀ s k, idFn s k ∉ A

theorem fresh_id {idFn : String → Nat → String} {rng : Nat → Nat} {A : List String}
    {g : Graph} {k : Nat} (hid : HId idFn rng A)
    (hgood : goodKeys idFn rng A g k) (s : String) : idFn s (rng k) ∉ g.keys := by
  intro hmem
  rcases hgood _ hmem with hl | hA | ⟨s2, j, hj, he⟩
  · have := hid.len2 s (rng k)
    omega
  · exact hid.not_base s (rng k) hA
  · have h1 := hid.salt_inj _ _ _ _ he
    have h2 := hid.rng_inj _ _ h1
    omega

theorem goodKeys_mono {idFn : String → Nat → String} {rng : Nat → Nat} {A : List String}
    {g : Graph} {k k2 : Nat} (h : goodKeys idFn rng A g k) (hk : k ≤ k2) :
    goodKeys idFn rng A g k2 := by
  intro n hn
  rcases h n hn with h1 | h1 | ⟨s, j, hj, he⟩
  · exact Or.inl h1
  · exact Or.inr (Or.inl h1)
  · exact Or.inr (Or.inr ⟨s, j, by omega, he⟩)

theorem gst_mono {idFn : String → Nat → String} {rng : Nat → Nat} {A : List String}
    {g : Graph} {k k2 : Nat} (h : GSt idFn rng A g k) (hk : k ≤ k2) :
    GSt idFn rng A g k2 :=
  ⟨h.inv, goodKeys_mono h.good hk, h.battr⟩

/-- New keys contributed by a builder step: stray short names or fresh ids. -/
def extGood (idFn : String → Nat → String) (rng : Nat → Nat) (k : Nat)
    (ext : List String) : Prop :=
  ∀ n ∈ ext, n.length ≤ 1 ∨ idOrigin idFn rng k n

theorem extGood_mono {idFn : String → Nat → String} {rng : Nat → Nat}
    {k k2 : Nat} {ext : List String} (h : extGood idFn rng k ext) (hk : k ≤ k2) :
    extGood idFn rng k2 ext := by
  intro n hn
  rcases h n hn with h1 | ⟨s, j, hj, he⟩
  · exact Or.inl h1
  · exact Or.inr ⟨s, j, by omega, he⟩

theorem extGood_append {idFn : String → Nat → String} {rng : Nat → Nat}
    {k : Nat} {e1 e2 : List String} (h1 : extGood idFn rng k e1)
    (h2 : extGood idFn rng k e2) : extGood idFn rng k (e1 ++ e2) := by
  intro n hn
  rcases List.mem_append.mp hn with h | h
  · exact h1 n h
  · exact h2 n h

theorem goodKeys_of_extGood {idFn : String → Nat → String} {rng : Nat → Nat}
    {B : List String} {g g2 : Graph} {k : Nat} {ext : List String}
    (hg : goodKeys idFn rng B g k) (hk : g2.keys = g.keys ++ ext)
    (hext : extGood idFn rng k ext) : goodKeys idFn rng B g2 k := by
  intro n hn
  rw [hk] at hn
  rcases List.mem_append.mp hn with h | h
  · exact hg n h
  · rcases hext n h with h1 | h1
    · exact Or.inl h1
    · exact Or.inr (Or.inr h1)

theorem assocGet_some_mem {α : Type} {l : List (String × α)} {k : String} {v : α}
    (h : assocGet l k = some v) : (k, v) ∈ l := by
  induction l with
  | nil => cases h
  | cons q rest ih =>
    obtain ⟨q1, q2⟩ := q
    by_cases hq : q1 = k
    · subst hq
      simp only [assocGet, if_pos rfl] at h
      rw [← Option.some.inj h]
      exact List.mem_cons_self _ _
    · simp only [assocGet, if_neg hq] at h
      exact List.mem_cons_of_mem _ (ih h)

theorem assocSet_fresh {α : Type} {l : List (String × α)} {k : String}
    (h : k ∉ l.map Prod.fst) (v : α) : assocSet l k v = l ++ [(k, v)] := by
  induction l with
  | nil => rfl
  | cons q rest ih =>
    rw [List.map_cons] at h
    have hq : q.1 ≠ k := fun he => h (by rw [he]; exact List.mem_cons_self _ _)
    have h2 : k ∉ rest.map Prod.fst := fun hm => h (List.mem_cons_of_mem _ hm)
    simp only [assocSet, if_neg hq, List.cons_append, ih h2]

theorem leaf_mem {g : Graph} {n : String}
    (h : n ∈ ((outDegList g).filter (fun q => q.2 = 0)).map Prod.fst) :
    n ∈ g.keys := by
  obtain ⟨q, hq, rfl⟩ := List.mem_map.mp h
  obtain ⟨p, hp, he⟩ := List.mem_map.mp (List.mem_of_mem_filter hq)
  rw [← he]
  exact List.mem_map_of_mem Prod.fst hp

theorem filterMap_branch_plain (ext : List (String × NodeAttrs))
    (hpl : ∀ q ∈ ext, q.2 = NodeAttrs.plain) :
    ext.filterMap (fun q => (branchOf q.2).map (fun b => (q.1, b))) = [] := by
  induction ext with
  | nil => rfl
  | cons q rest ih =>
    have h1 : q.2 = NodeAttrs.plain := hpl q (by simp)
    simp only [List.filterMap_cons, h1, branchOf]
    exact ih (fun x hx => hpl x (List.mem_cons_of_mem _ hx))

theorem branchAttrPairs_plain_ext {g g2 : Graph} {ext : List (String × NodeAttrs)}
    (h : g2.nodes = g.nodes ++ ext) (hpl : ∀ q ∈ ext, q.2 = NodeAttrs.plain) :
    branchAttrPairs g2 = branchAttrPairs g := by
  simp [branchAttrPairs, h, filterMap_branch_plain ext hpl]

/-- Effect of one node creation with fan-in edges from the frontier
(build_graph.py 101-110 and 139-148) on the builder-state invariant. -/
theorem fanin_gst {idFn : String → Nat → String} {rng : Nat → Nat} {A : List String}
    {g : Graph} {k k2 : Nat}
    (hst : GSt idFn rng A g k) (hkk : k ≤ k2)
    (prev : PrevV) (hprev : PrevOK g prev)
    {id : String} (hfresh : id ∉ g.keys) (hlen : 2 ≤ id.length)
    (horig : idOrigin idFn rng k2 id) (attrs : NodeAttrs) :
    GSt idFn rng A (addEdgesFrom (addNodeAttrs g id attrs) (zipPrevTo prev id)) k2
    ∧ (∃ ext, (addEdgesFrom (addNodeAttrs g id attrs) (zipPrevTo prev id)).keys
        = (g.keys ++ [id]) ++ ext ∧ ∀ n ∈ ext, n.length ≤ 1)
    ∧ (∃ newEs, (addEdgesFrom (addNodeAttrs g id attrs) (zipPrevTo prev id)).edges
        = g.edges ++ newEs ∧ ∀ e ∈ newEs, e.2 = id) := by
  have hn1 : (addNodeAttrs g id attrs).nodes = g.nodes ++ [(id, attrs)] :=
    addNodeAttrs_nodes_fresh attrs hfresh
  have hk1 : (addNodeAttrs g id attrs).keys = g.keys ++ [id] := by
    simpa using keys_of_nodes_ext hn1
  have he1 : (addNodeAttrs g id attrs).edges = g.edges := addNodeAttrs_edges g id attrs
  have hinv1 : GInv (addNodeAttrs g id attrs) := ginv_of_ext [id] hk1 he1 hst.inv
  have hidmem : id ∈ (addNodeAttrs g id attrs).keys := by
    rw [hk1]; simp
  have hsrcs : ∀ e ∈ zipPrevTo prev id, e.2 = id
      ∧ (2 ≤ e.1.length → e.1 ∈ (addNodeAttrs g id attrs).keys
          ∧ idxOf (addNodeAttrs g id attrs).keys e.1
            < idxOf (addNodeAttrs g id attrs).keys id) := by
    intro e he
    rw [zipPrevTo_eq_map] at he
    obtain ⟨n, hn, rfl⟩ := List.mem_map.mp he
    refine ⟨rfl, fun hl => ?_⟩
    have hmem : n ∈ g.keys := hprev n hn hl
    rw [hk1]
    refine ⟨List.mem_append_left _ hmem, ?_⟩
    rw [idxOf_append_of_mem _ hmem, idxOf_append_self hfresh]
    exact idxOf_lt_length hmem
  have hinv2 : GInv (addEdgesFrom (addNodeAttrs g id attrs) (zipPrevTo prev id)) :=
    ginv_addEdgesFrom_fanin hinv1 hidmem hlen hsrcs
  obtain ⟨ext2, hnext2, hq2⟩ :=
    @addEdgesFrom_nodes_ok (addNodeAttrs g id attrs) (zipPrevTo prev id)
      (fun e he hl => ((hsrcs e he).2 hl).1) (fun e he => by rw [(hsrcs e he).1]; exact hidmem)
  have hkeys2 : (addEdgesFrom (addNodeAttrs g id attrs) (zipPrevTo prev id)).keys
      = (g.keys ++ [id]) ++ ext2.map Prod.fst := by
    rw [keys_of_nodes_ext hnext2, hk1]
  obtain ⟨newEs, hnewEs, hsub⟩ :=
    addEdgesFrom_edges_decomp (addNodeAttrs g id attrs) (zipPrevTo prev id)
  refine ⟨⟨hinv2, ?_, ?_⟩, ⟨ext2.map Prod.fst, hkeys2, ?_⟩, ⟨newEs, by rw [hnewEs, he1], ?_⟩⟩
  · intro n hn
    rw [hkeys2] at hn
    rcases List.mem_append.mp hn with hn2 | hn2
    · rcases List.mem_append.mp hn2 with hn3 | hn3
      · exact goodKeys_mono hst.good hkk n hn3
      · rw [List.mem_singleton.mp hn3]
        exact Or.inr (Or.inr horig)
    · obtain ⟨q, hq, rfl⟩ := List.mem_map.mp hn2
      exact Or.inl (hq2 q hq).2
  · have hbap : branchAttrPairs (addEdgesFrom (addNodeAttrs g id attrs) (zipPrevTo prev id))
        = branchAttrPairs (addNodeAttrs g id attrs) :=
      branchAttrPairs_plain_ext hnext2 (fun q hq => (hq2 q hq).1)
    intro p hp
    rw [hbap] at hp
    have hbap1 : branchAttrPairs (addNodeAttrs g id attrs)
        = branchAttrPairs g
          ++ [(id, attrs)].filterMap (fun q => (branchOf q.2).map (fun b => (q.1, b))) := by
      simp [branchAttrPairs, hn1]
    rw [hbap1] at hp
    rcases List.mem_append.mp hp with hp2 | hp2
    · exact hst.battr p hp2
    · match hb : branchOf attrs with
      | some b =>
        simp only [List.filterMap_cons, hb] at hp2
        simp only [Option.map_some, List.filterMap_nil] at hp2
        rcases List.mem_cons.mp hp2 with rfl | hp3
        · exact hlen
        · cases hp3
      | none =>
        simp only [List.filterMap_cons, hb, Option.map_none, List.filterMap_nil] at hp2
        cases hp2
  · intro n hn
    obtain ⟨q, hq, rfl⟩ := List.mem_map.mp hn
    exact (hq2 q hq).2
  · intro e he
    have := hsub e he
    rw [zipPrevTo_eq_map] at this
    obtain ⟨n, _, rfl⟩ := List.mem_map.mp this
    rfl

def endvNames : EndV → List String
  | .elist l => l
  | .estr s => [s]

/-- Facts about a completed call's return dict. -/
structure RdOK (idFn : String → Nat → String) (rng : Nat → Nat) (A : List String)
    (k : Nat) (rd : RetDict) : Prop where
  inv : GInv rd.graph
  good : goodKeys idFn rng A rd.graph k
  battr : battrLen rd.graph
  endv_ok : ∀ n ∈ endvNames rd.endv, 2 ≤ n.length → n ∈ rd.graph.keys
  start_mem : rd.start ∈ rd.graph.keys
  start_len : 2 ≤ rd.start.length

theorem branchAttrPairs_mem_keys {g : Graph} {p : String × String}
    (h : p ∈ branchAttrPairs g) : p.1 ∈ g.keys := by
  obtain ⟨q, hq, he⟩ := List.mem_filterMap.mp h
  match hb : branchOf q.2 with
  | some b =>
    rw [hb] at he
    have he2 : (q.1, b) = p := Option.some.inj he
    rw [← he2]
    exact List.mem_map_of_mem Prod.fst hq
  | none => rw [hb] at he; cases he

theorem endByZip_mem {g : Graph} {b n : String} (h : n ∈ endByZip g b) :
    ∃ p ∈ branchAttrPairs g, p.1 = n := by
  obtain ⟨z, hz, he⟩ := List.mem_filterMap.mp h
  by_cases hc : z.1.2 = b ∧ z.2.2 = 0
  · rw [if_pos hc] at he
    exact ⟨z.1, (List.of_mem_zip hz).1, Option.some.inj he⟩
  · rw [if_neg hc] at he; cases he

theorem endByZip_ok {g : Graph} {b : String} (hb : battrLen g) :
    ∀ n ∈ endByZip g b, 2 ≤ n.length ∧ n ∈ g.keys := by
  intro n hn
  obtain ⟨p, hp, he⟩ := endByZip_mem hn
  rw [← he]
  exact ⟨hb p hp, branchAttrPairs_mem_keys hp⟩

def PreOf (idFn : String → Nat → String) (rng : Nat → Nat) (A : List String) :
    BCall → Prop
  | .pog k _ graph0 prev0 _ =>
      (graph0 = none ↔ prev0 = none)
      ∧ (∀ g, graph0 = some g → GSt idFn rng A g k
          ∧ ∀ prev, prev0 = some prev → PrevOK g prev)
  | .handle _ _ _ => True
  | .warpped _ comps _ => ∃ c0 r2, comps = c0 :: r2 ∧ c0.ptype = "template_name"
  | .plots k _ g _ opts _ =>
      GSt idFn rng A g k ∧ (∀ q ∈ opts, q.2 ∈ g.keys ∧ 2 ≤ q.2.length)
  | .plotValues k g _ _ _ prev _ => GSt idFn rng A g k ∧ PrevOK g prev

def PostOf (idFn : String → Nat → String) (rng : Nat → Nat) (A : List String) :
    BCall → BRes → Prop
  | .pog k tmpl graph0 _ _ =>
      fun res =>
        k ≤ res.k ∧ GSt idFn rng A res.gstate res.k
        ∧ (∀ g, graph0 = some g →
            (∃ ext, res.gstate.keys = g.keys ++ ext ∧ extGood idFn rng res.k ext)
            ∧ (∀ n ∈ g.keys, inDeg res.gstate n = inDeg g n))
        ∧ (∀ rd, res.ret = some rd → PrevOK res.gstate (endToPrev rd.endv))
        ∧ (graph0 = none → ∀ rd, res.ret = some rd →
            RdOK idFn rng A res.k rd
            ∧ goodKeys idFn rng ["START"] rd.graph res.k)
        ∧ (∀ c0 r2, tmpl = c0 :: r2 → c0.ptype = "template_name" →
            ∀ rd, res.ret = some rd →
              rd.graph = res.gstate ∧ rd.start = "START" ∧ ∃ l, rd.endv = .elist l)
  | .handle k comps followed =>
      fun res =>
        k ≤ res.k ∧ ∀ rd, res.ret = some rd →
          RdOK idFn rng A res.k rd
          ∧ (∀ c0 rest2, comps = c0 :: rest2 → c0.ptype ≠ "template_name" →
              goodKeys idFn rng ["START"] rd.graph res.k)
          ∧ (followed = true → ∃ s, rd.endv = EndV.estr s)
  | .warpped k _ followed =>
      fun res =>
        k ≤ res.k ∧ ∀ rd, res.ret = some rd →
          RdOK idFn rng A res.k rd ∧ (followed = true → rd.endv = .estr "END")
  | .plots k _ g _ _ _ =>
      fun res =>
        k ≤ res.k ∧ GSt idFn rng A res.gstate res.k
        ∧ (∃ ext, res.gstate.keys = g.keys ++ ext ∧ extGood idFn rng res.k ext)
        ∧ (∀ n ∈ g.keys, inDeg res.gstate n = inDeg g n)
  | .plotValues k g _ _ _ _ _ =>
      fun res =>
        k ≤ res.k ∧ GSt idFn rng A res.gstate res.k
        ∧ (∃ ext, res.gstate.keys = g.keys ++ ext ∧ extGood idFn rng res.k ext)
        ∧ (∀ n ∈ g.keys, inDeg res.gstate n = inDeg g n)

theorem except_bind_ok {α β : Type} (a : α) (f : α → Except String β) :
    (Except.ok a >>= f) = f a := rfl

theorem extractor_some {idFn : String → Nat → String} {rng : Nat → Nat} {k : Nat}
    {s : String} {t : String × String × String}
    (h : (getSpeakerNameAndContent idFn rng k s).1 = some t) :
    t.1 = idFn s (rng (k + 1)) ∧ (getSpeakerNameAndContent idFn rng k s).2 = k + 2 := by
  by_cases hb : pyStrip s = ""
  · simp [getSpeakerNameAndContent, hb] at h
  · constructor
    · simp only [getSpeakerNameAndContent, if_neg hb] at h
      have h2 := Option.some.inj h
      rw [← h2]
    · simp [getSpeakerNameAndContent, hb]

theorem extractor_k_between (idFn : String → Nat → String) (rng : Nat → Nat)
    (k : Nat) (s : String) :
    k ≤ (getSpeakerNameAndContent idFn rng k s).2
    ∧ (getSpeakerNameAndContent idFn rng k s).2 ≤ k + 2 := by
  by_cases hb : pyStrip s = ""
  · simp [getSpeakerNameAndContent, hb]
  · simp [getSpeakerNameAndContent, hb]

theorem inDeg_ext {g g2 : Graph} {newEs : List (String × String)} {id : String}
    (h : g2.edges = g.edges ++ newEs)
    (htgt : ∀ e ∈ newEs, e.2 = id) {n : String} (hne : n ≠ id) :
    inDeg g2 n = inDeg g n := by
  unfold inDeg
  rw [h, List.filter_append]
  have hnil : newEs.filter (fun e => decide (e.2 = n)) = [] := by
    rw [List.filter_eq_nil_iff]
    intro e he
    rw [htgt e he]
    simpa using fun h2 => hne h2.symm
  rw [hnil, List.append_nil]

theorem optionsLoop_post {idFn : String → Nat → String} {rng : Nat → Nat}
    {A : List String} (hid : HId idFn rng A) (tmpl : List Part)
    (prev : PrevV) (branch : String) :
    ∀ (pairRest : List (String × PairInfo)) (g : Graph)
      (opts : List (String × String)) (k : Nat)
      (res : Graph × List (String × String) × Nat),
    GSt idFn rng A g k →
    PrevOK g prev →
    (∀ q ∈ opts, q.2 ∈ g.keys ∧ 2 ≤ q.2.length) →
    optionsLoop idFn rng tmpl prev branch g opts k pairRest = .ok res →
    GSt idFn rng A res.1 res.2.2 ∧ k ≤ res.2.2
    ∧ (∃ ext, res.1.keys = g.keys ++ ext ∧ extGood idFn rng res.2.2 ext)
    ∧ (∀ q ∈ res.2.1, q.2 ∈ res.1.keys ∧ 2 ≤ q.2.length)
    ∧ (∀ n ∈ g.keys, inDeg res.1 n = inDeg g n) := by
  intro pairRest
  induction pairRest with
  | nil =>
    intro g opts k res hst hprev hopts hok
    have hres : (g, opts, k) = res := by
      simpa [optionsLoop] using hok
    rw [← hres]
    exact ⟨hst, le_refl _, ⟨[], by simp, fun n hn => absurd hn (by simp)⟩,
      hopts, fun n _ => rfl⟩
  | cons oi restPair ih =>
    intro g opts k res hst hprev hopts hok
    obtain ⟨optionName, info⟩ := oi
    simp only [optionsLoop] at hok
    match hidx : pyIndex tmpl (info.option_pos + 1) with
    | .error e => rw [hidx] at hok; cases hok
    | .ok option =>
      rw [hidx] at hok
      simp only [except_bind_ok] at hok
      match hval : option.value with
      | .vlist l => rw [hval] at hok; cases hok
      | .vnone => rw [hval] at hok; cases hok
      | .vstr ov =>
        rw [hval] at hok
        dsimp only at hok
        match hr : (getSpeakerNameAndContent idFn rng k ov).1 with
        | none =>
          rw [hr] at hok
          dsimp only at hok
          have hk2 := extractor_k_between idFn rng k ov
          have hst2 := gst_mono hst hk2.1
          have := ih g opts (getSpeakerNameAndContent idFn rng k ov).2 res hst2 hprev hopts hok
          exact ⟨this.1, le_trans hk2.1 this.2.1, this.2.2.1, this.2.2.2.1, this.2.2.2.2⟩
        | some t =>
          rw [hr] at hok
          dsimp only at hok
          by_cases hall : allNonEmpty t = true
          · rw [if_pos hall] at hok
            match hlc : pyLastChar optionName with
            | .error e => rw [hlc] at hok; cases hok
            | .ok lastC =>
              rw [hlc] at hok
              simp only [except_bind_ok] at hok
              obtain ⟨hid1, hk2⟩ := extractor_some hr
              have hfresh : t.1 ∉ g.keys := by
                rw [hid1]
                exact fresh_id hid (goodKeys_mono hst.good (by omega)) ov
              have horig : idOrigin idFn rng (k + 2) t.1 :=
                ⟨ov, k + 1, by omega, hid1⟩
              have hlen : 2 ≤ t.1.length := by rw [hid1]; exact hid.len2 _ _
              obtain ⟨hst3, ⟨ext3, hkeys3, hext3⟩, ⟨newEs, hEs, hEtgt⟩⟩ :=
                fanin_gst hst (by omega) prev hprev hfresh hlen horig
                  (.dialogue t.2.1 t.2.2 ("option" ++ lastC) (some branch))
              have hsub3 : ∀ n ∈ g.keys,
                  n ∈ (addEdgesFrom (addNodeAttrs g t.1
                    (.dialogue t.2.1 t.2.2 ("option" ++ lastC) (some branch)))
                    (zipPrevTo prev t.1)).keys := by
                intro n hn
                rw [hkeys3]
                exact List.mem_append_left _ (List.mem_append_left _ hn)
              have hprev3 : PrevOK (addEdgesFrom (addNodeAttrs g t.1
                  (.dialogue t.2.1 t.2.2 ("option" ++ lastC) (some branch)))
                  (zipPrevTo prev t.1)) prev :=
                fun n hn hl => hsub3 n (hprev n hn hl)
              have hopts3 : ∀ q ∈ opts ++ [(optionName, t.1)],
                  q.2 ∈ (addEdgesFrom (addNodeAttrs g t.1
                    (.dialogue t.2.1 t.2.2 ("option" ++ lastC) (some branch)))
                    (zipPrevTo prev t.1)).keys ∧ 2 ≤ q.2.length := by
                intro q hq
                rcases List.mem_append.mp hq with h2 | h2
                · obtain ⟨hm, hl⟩ := hopts q h2
                  exact ⟨hsub3 _ hm, hl⟩
                · rw [List.mem_singleton.mp h2]
                  refine ⟨?_, hlen⟩
                  rw [hkeys3]
                  exact List.mem_append_left _ (List.mem_append_right _ (by simp))
              rw [hk2] at hok
              have hres := ih _ _ _ _ hst3 hprev3 hopts3 hok
              have hk5 : k + 2 ≤ res.2.2 := hres.2.1
              refine ⟨hres.1, by omega, ?_, hres.2.2.2.1, ?_⟩
              · obtain ⟨ext4, hkeys4, hext4⟩ := hres.2.2.1
                refine ⟨[t.1] ++ ext3 ++ ext4, by rw [hkeys4, hkeys3]; simp, ?_⟩
                intro n hn
                rcases List.mem_append.mp hn with hn1 | hn1
                · rcases List.mem_append.mp hn1 with hn2 | hn2
                  · rw [List.mem_singleton.mp hn2]
                    exact Or.inr ⟨ov, k + 1, by omega, hid1⟩
                  · exact Or.inl (hext3 n hn2)
                · rcases hext4 n hn1 with h5 | h5
                  · exact Or.inl h5
                  · exact Or.inr h5
              · intro n hn
                rw [hres.2.2.2.2 n (hsub3 n hn)]
                exact inDeg_ext hEs hEtgt (fun he => hfresh (he ▸ hn))
          · have hallF : allNonEmpty t = false := by
              cases h2 : allNonEmpty t
              · rfl
              · exact absurd h2 hall
            rw [hallF] at hok
            simp only [Bool.false_eq_true, if_false] at hok
            have hk2 := extractor_k_between idFn rng k ov
            have hst2 := gst_mono hst hk2.1
            have := ih g opts (getSpeakerNameAndContent idFn rng k ov).2 res hst2 hprev hopts hok
            exact ⟨this.1, le_trans hk2.1 this.2.1, this.2.2.1, this.2.2.2.1, this.2.2.2.2⟩

theorem except_bind_pure {α : Type} (x : Except String α) :
    (x >>= fun a => (pure a : Except String α)) = x := by
  cases x <;> rfl

theorem handle_tname_step (idFn : String → Nat → String) (rng : Nat → Nat)
    (fuel k : Nat) (c0 : Part) (rest : List Part) (followed : Bool)
    (hty : c0.ptype = "template_name") :
    runBuilder idFn rng (fuel + 1) (.handle k (c0 :: rest) followed)
      = runBuilder idFn rng fuel (.warpped k (c0 :: rest) followed) := by
  have h1 : ¬ c0.ptype = "common_string" := by rw [hty]; decide
  simp only [runBuilder, if_neg h1, if_pos hty]
  cases runBuilder idFn rng fuel (.warpped k (c0 :: rest) followed) <;> rfl

/-- A template component that is not the option template sends
__handle_component and __build_plot_option_graph into mutual recursion that
never returns (Python RecursionError): no fuel makes it succeed. -/
theorem handle_nonopt_no_ok (idFn : String → Nat → String) (rng : Nat → Nat) :
    ∀ fuel k (c0 : Part) (rest : List Part) (followed : Bool) (res : BRes),
    c0.ptype = "template_name" → c0.content ≠ Val.vstr "剧情选项" →
    runBuilder idFn rng fuel (.handle k (c0 :: rest) followed) = .ok res → False := by
  intro fuel
  induction fuel using Nat.strong_induction_on with
  | _ fuel ih =>
    intro k c0 rest followed res hty hct hok
    match fuel, hok with
    | 0, hok => exact nomatch hok
    | f + 1, hok =>
      rw [handle_tname_step idFn rng f k c0 rest followed hty] at hok
      match f, hok with
      | 0, hok => exact nomatch hok
      | f2 + 1, hok =>
        simp only [runBuilder] at hok
        match hpog : runBuilder idFn rng f2 (.pog k (c0 :: rest) none none "None") with
        | .error e => rw [hpog] at hok; exact nomatch hok
        | .ok rpog =>
          rw [hpog] at hok
          match f2, hpog with
          | 0, hpog => exact nomatch hpog
          | f3 + 1, hpog =>
            dsimp only [runBuilder, Option.getD, prevHead, Bind.bind, Except.bind, pure,
              Except.pure] at hpog
            have hcond : ¬ (c0.ptype = "template_name" ∧ c0.content = Val.vstr "剧情选项") := by
              intro h2
              exact hct h2.2
            rw [if_neg hcond] at hpog
            match hh : runBuilder idFn rng f3 (.handle k (c0 :: rest) true) with
            | .error e => rw [hh] at hpog; exact nomatch hpog
            | .ok rh =>
              exact ih f3 (by omega) k c0 rest true rh hty hct hh

theorem prevok_of_estr (g : Graph) (s : String) : PrevOK g (endToPrev (EndV.estr s)) := by
  intro n hn hl
  exfalso
  obtain ⟨c, _, rfl⟩ := List.mem_map.mp hn
  have h1 : (String.mk [c]).length = 1 := rfl
  omega

theorem ginv_addEdgesFrom_present : ∀ {g : Graph} {es : List (String × String)},
    GInv g →
    (∀ e ∈ es, e.1 ∈ g.keys ∧ e.2 ∈ g.keys ∧ 2 ≤ e.2.length
      ∧ idxOf g.keys e.1 < idxOf g.keys e.2) →
    GInv (addEdgesFrom g es) ∧ (addEdgesFrom g es).nodes = g.nodes := by
  intro g es
  induction es generalizing g with
  | nil => intro hg _; exact ⟨hg, rfl⟩
  | cons e rest ih =>
    intro hg hes
    obtain ⟨h1, h2, h3, h4⟩ := hes e (by simp)
    have hu : addNodePlain g e.1 = g := by
      unfold addNodePlain
      rw [if_pos ((hasNode_eq_mem g e.1).mpr h1)]
    have hv : addNodePlain g e.2 = g := by
      unfold addNodePlain
      rw [if_pos ((hasNode_eq_mem g e.2).mpr h2)]
    have hnodes : (addEdge g e.1 e.2).nodes = g.nodes := by
      unfold addEdge
      rw [hu, hv]
      split <;> rfl
    have hkeys : (addEdge g e.1 e.2).keys = g.keys := by
      unfold Graph.keys
      rw [hnodes]
    have hg2 : GInv (addEdge g e.1 e.2) :=
      ginv_addEdge_ok hg h2 h3 (fun _ => ⟨h1, h4⟩)
    have hrest := ih hg2 (fun x hx => by
      obtain ⟨a1, a2, a3, a4⟩ := hes x (List.mem_cons_of_mem _ hx)
      rw [hkeys]
      exact ⟨a1, a2, a3, a4⟩)
    refine ⟨hrest.1, ?_⟩
    show (addEdgesFrom (addEdge g e.1 e.2) rest).nodes = g.nodes
    rw [hrest.2, hnodes]

theorem mem_zip_consec : ∀ {l : List String} {e : String × String},
    e ∈ List.zip l.dropLast (l.drop 1) →
    ∃ i, ∃ h1 : i + 1 < l.length,
      e.1 = l.get ⟨i, by omega⟩ ∧ e.2 = l.get ⟨i + 1, h1⟩ := by
  intro l
  induction l with
  | nil => intro e he; cases he
  | cons a l ih =>
    intro e he
    match l with
    | [] => cases he
    | b :: l2 =>
      rw [show (a :: b :: l2).dropLast = a :: (b :: l2).dropLast from rfl] at he
      rw [show (a :: b :: l2).drop 1 = b :: l2 from rfl] at he
      rw [List.zip_cons_cons] at he
      rcases List.mem_cons.mp he with rfl | he2
      · exact ⟨0, by simp, rfl, rfl⟩
      · have he3 : e ∈ List.zip (b :: l2).dropLast ((b :: l2).drop 1) := he2
        obtain ⟨i, h1, hg1, hg2⟩ := ih he3
        exact ⟨i + 1, by simpa using Nat.succ_lt_succ h1, hg1, hg2⟩

theorem idxOf_get_nodup : ∀ {l : List String}, l.Nodup →
    ∀ {i : Nat} (h : i < l.length), idxOf l (l.get ⟨i, h⟩) = i := by
  intro l
  induction l with
  | nil => intro _ i h; exact absurd h (by simp)
  | cons a l ih =>
    intro hnd i h
    match i with
    | 0 => simp [idxOf]
    | i + 1 =>
      have h2 : i < l.length := by simpa using h
      have ha : a ≠ l.get ⟨i, h2⟩ := by
        intro he
        exact (List.nodup_cons.mp hnd).1 (he ▸ l.get_mem i h2)
      show idxOf (a :: l) (l.get ⟨i, h2⟩) = i + 1
      simp only [idxOf, if_neg ha]
      rw [ih (List.nodup_cons.mp hnd).2 h2]

theorem convertLoop_post {idFn : String → Nat → String} {rng : Nat → Nat}
    {A : List String} (hid : HId idFn rng A) :
    ∀ (items tys : List String) (d : List (String × NodeAttrs)) (k : Nat)
      (out : List (String × NodeAttrs)) (k1 : Nat),
    convertLoop idFn rng d k items tys = (out, k1) →
    (∀ q ∈ d, ∃ s j, j < k ∧ q.1 = idFn s (rng j)) →
    (d.map Prod.fst).Nodup →
    k ≤ k1
    ∧ ∃ newNodes,
        out = d ++ newNodes
        ∧ (∀ q ∈ newNodes, (∃ s j, k ≤ j ∧ j < k1 ∧ q.1 = idFn s (rng j))
            ∧ ∃ sp ct ty, q.2 = NodeAttrs.dialogue sp ct ty none)
        ∧ (out.map Prod.fst).Nodup := by
  intro items
  induction items with
  | nil =>
    intro tys d k out k1 hok hd hnd
    have he : d = out ∧ k = k1 := by
      have : (d, k) = (out, k1) := hok
      exact ⟨congrArg Prod.fst this, congrArg Prod.snd this⟩
    obtain ⟨rfl, rfl⟩ := he
    exact ⟨le_refl _, [], by simp, fun q hq => absurd hq (by simp), hnd⟩
  | cons item items ih =>
    intro tys d k out k1 hok hd hnd
    match tys with
    | [] =>
      have he : d = out ∧ k = k1 := by
        have : (d, k) = (out, k1) := hok
        exact ⟨congrArg Prod.fst this, congrArg Prod.snd this⟩
      obtain ⟨rfl, rfl⟩ := he
      exact ⟨le_refl _, [], by simp, fun q hq => absurd hq (by simp), hnd⟩
    | ty :: tys2 =>
      simp only [convertLoop] at hok
      match hr : (getSpeakerNameAndContent idFn rng k item).1 with
      | none =>
        rw [hr] at hok
        dsimp only at hok
        have hkb := extractor_k_between idFn rng k item
        have hd2 : ∀ q ∈ d, ∃ s j, j < (getSpeakerNameAndContent idFn rng k item).2
            ∧ q.1 = idFn s (rng j) := by
          intro q hq
          obtain ⟨s, j, hj, he⟩ := hd q hq
          exact ⟨s, j, by omega, he⟩
        obtain ⟨hk1, newNodes, hout, hnew, hnd2⟩ := ih tys2 d _ out k1 hok hd2 hnd
        refine ⟨by omega, newNodes, hout, ?_, hnd2⟩
        intro q hq
        obtain ⟨⟨s, j, hj1, hj2, he⟩, h2⟩ := hnew q hq
        exact ⟨⟨s, j, by omega, hj2, he⟩, h2⟩
      | some t =>
        rw [hr] at hok
        dsimp only at hok
        obtain ⟨hid1, hk2⟩ := extractor_some hr
        by_cases hall : allNonEmpty t = true
        · rw [if_pos hall] at hok
          have hfresh : t.1 ∉ d.map Prod.fst := by
            intro hmem
            obtain ⟨q, hq, he⟩ := List.mem_map.mp hmem
            obtain ⟨s, j, hj, he2⟩ := hd q hq
            rw [he2, hid1] at he
            have h3 := hid.salt_inj _ _ _ _ he
            have h4 := hid.rng_inj _ _ h3
            omega
          rw [assocSet_fresh hfresh] at hok
          rw [hk2] at hok
          have hd2 : ∀ q ∈ d ++ [(t.1, NodeAttrs.dialogue t.2.1 t.2.2 ty none)],
              ∃ s j, j < k + 2 ∧ q.1 = idFn s (rng j) := by
            intro q hq
            rcases List.mem_append.mp hq with h | h
            · obtain ⟨s, j, hj, he⟩ := hd q h
              exact ⟨s, j, by omega, he⟩
            · rw [List.mem_singleton.mp h]
              exact ⟨item, k + 1, by omega, hid1⟩
          have hnd2 : ((d ++ [(t.1, NodeAttrs.dialogue t.2.1 t.2.2 ty none)]).map
              Prod.fst).Nodup := by
            rw [List.map_append]
            rw [List.nodup_append]
            refine ⟨hnd, by simp, ?_⟩
            intro x hx hx2
            simp only [List.map_cons, List.map_nil, List.mem_singleton] at hx2
            rw [hx2] at hx
            exact hfresh hx
          obtain ⟨hk1, newNodes, hout, hnew, hnd3⟩ := ih tys2 _ _ out k1 hok hd2 hnd2
          refine ⟨by omega, (t.1, NodeAttrs.dialogue t.2.1 t.2.2 ty none) :: newNodes,
            ?_, ?_, hnd3⟩
          · rw [hout, List.append_assoc]
            rfl
          · intro q hq
            rcases List.mem_cons.mp hq with rfl | hq2
            · exact ⟨⟨item, k + 1, by omega, by omega, hid1⟩, t.2.1, t.2.2, ty, rfl⟩
            · obtain ⟨⟨s, j, hj1, hj2, he⟩, h2⟩ := hnew q hq2
              exact ⟨⟨s, j, by omega, hj2, he⟩, h2⟩
        · have hallF : allNonEmpty t = false := by
            cases h2 : allNonEmpty t
            · rfl
            · exact absurd h2 hall
          rw [hallF] at hok
          simp only [Bool.false_eq_true, if_false] at hok
          rw [hk2] at hok
          have hd2 : ∀ q ∈ d, ∃ s j, j < k + 2 ∧ q.1 = idFn s (rng j) := by
            intro q hq
            obtain ⟨s, j, hj, he⟩ := hd q hq
            exact ⟨s, j, by omega, he⟩
          obtain ⟨hk1, newNodes, hout, hnew, hnd2⟩ := ih tys2 d _ out k1 hok hd2 hnd
          refine ⟨by omega, newNodes, hout, ?_, hnd2⟩
          intro q hq
          obtain ⟨⟨s, j, hj1, hj2, he⟩, h2⟩ := hnew q hq
          exact ⟨⟨s, j, by omega, hj2, he⟩, h2⟩

theorem pog_if_core {idFn : String → Nat → String} {rng : Nat → Nat} {A : List String}
    (hid : HId idFn rng A) (fuel : Nat)
    (IH : ∀ call res2, PreOf idFn rng A call →
        runBuilder idFn rng fuel call = .ok res2 → PostOf idFn rng A call res2)
    {k k1 : Nat} {tmpl : List Part} {graph g1 : Graph} {prev : PrevV} {branch : String}
    {pair : List (String × PairInfo)} {opts : List (String × String)} {res2 : BRes}
    (hst : GSt idFn rng A graph k) (hprev : PrevOK graph prev)
    (hopt : optionsLoop idFn rng tmpl prev branch graph [] k pair = .ok (g1, opts, k1))
    (hpl : runBuilder idFn rng fuel (.plots k1 tmpl g1 branch opts pair) = .ok res2) :
    k ≤ res2.k ∧ GSt idFn rng A res2.gstate res2.k
    ∧ (∃ ext, res2.gstate.keys = graph.keys ++ ext ∧ extGood idFn rng res2.k ext)
    ∧ (∀ n ∈ graph.keys, inDeg res2.gstate n = inDeg graph n)
    ∧ (∀ n ∈ endByZip res2.gstate branch, 2 ≤ n.length ∧ n ∈ res2.gstate.keys) := by
  obtain ⟨hst1, hk1, ⟨ext1, hke1, hge1⟩, hopts1, hind1⟩ :=
    optionsLoop_post hid tmpl prev branch pair graph [] k (g1, opts, k1) hst hprev
      (fun q hq => absurd hq (by simp)) hopt
  have hst1' : GSt idFn rng A g1 k1 := hst1
  have hk1' : k ≤ k1 := hk1
  have hke1' : g1.keys = graph.keys ++ ext1 := hke1
  have hge1' : extGood idFn rng k1 ext1 := hge1
  have hopts1' : ∀ q ∈ opts, q.2 ∈ g1.keys ∧ 2 ≤ q.2.length := hopts1
  have hind1' : ∀ n ∈ graph.keys, inDeg g1 n = inDeg graph n := hind1
  have hpost := IH (.plots k1 tmpl g1 branch opts pair) res2
    (show PreOf idFn rng A (.plots k1 tmpl g1 branch opts pair) from ⟨hst1', hopts1'⟩) hpl
  obtain ⟨hk2, hst2, ⟨ext2, hke2, hge2⟩, hind2⟩ := hpost
  refine ⟨by omega, hst2, ⟨ext1 ++ ext2, by rw [hke2, hke1', List.append_assoc],
      extGood_append (extGood_mono hge1' (by omega)) hge2⟩, ?_, ?_⟩
  · intro n hn
    rw [hind2 n (by rw [hke1']; exact List.mem_append_left _ hn), hind1' n hn]
  · exact endByZip_ok hst2.battr

theorem runBuilder_post {idFn : String → Nat → String} {rng : Nat → Nat}
    {A : List String} (hid : HId idFn rng A)
    (hS : "START" ∈ A) (hE : "END" ∈ A) :
    ∀ (fuel : Nat) (call : BCall) (res : BRes),
    PreOf idFn rng A call →
    runBuilder idFn rng fuel call = .ok res →
    PostOf idFn rng A call res := by
  intro fuel
  induction fuel with
  | zero => intro call res _ h; exact nomatch h
  | succ fuel ih =>
    intro call res hpre hok
    match call with
    | .pog k tmpl graph0 prev0 branch =>
      obtain ⟨hnp, hsome⟩ := hpre
      match graph0, prev0 with
      | none, some p => exact absurd (hnp.mp rfl) (by simp)
      | some g, none => exact absurd (hnp.mpr rfl) (by simp)
      | none, none =>
        match tmpl with
        | [] =>
          dsimp only [runBuilder, Option.getD, prevHead, Bind.bind, Except.bind, pure,
            Except.pure] at hok
          exact nomatch hok
        | p0 :: rest =>
          dsimp only [runBuilder, Option.getD, prevHead, Bind.bind, Except.bind, pure,
            Except.pure] at hok
          rw [show addNodePlain Graph.empty "START"
            = Graph.mk [("START", NodeAttrs.plain)] [] from rfl] at hok
          have hbk : (Graph.mk [("START", NodeAttrs.plain)] []).keys = ["START"] := rfl
          have hstb : GSt idFn rng A (Graph.mk [("START", NodeAttrs.plain)] []) k := by
            refine ⟨⟨?_, ?_, ?_, ?_⟩, ?_, ?_⟩
            · intro e he
              exact absurd he (by simp)
            · intro e he
              exact absurd he (by simp)
            · intro e he
              exact absurd he (by simp)
            · intro e he hl
              exact absurd he (by simp)
            · intro n hn
              rw [hbk] at hn
              rw [List.mem_singleton.mp hn]
              exact Or.inr (Or.inl hS)
            · intro q hq
              exact absurd hq (by simp [branchAttrPairs, branchOf])
          have hgb : goodKeys idFn rng ["START"]
              (Graph.mk [("START", NodeAttrs.plain)] []) k := by
            intro n hn
            rw [hbk] at hn
            exact Or.inr (Or.inl hn)
          have hprevb : PrevOK (Graph.mk [("START", NodeAttrs.plain)] [])
              (PrevV.plist ["START"]) := by
            intro n hn _
            rw [List.mem_singleton.mp hn, hbk]
            simp
          by_cases hcond : p0.ptype = "template_name" ∧ p0.content = Val.vstr "剧情选项"
          · rw [if_pos hcond] at hok
            match hfp : findOptionPlotPair rest with
            | .error e => rw [hfp] at hok; exact nomatch hok
            | .ok pair =>
              rw [hfp] at hok
              dsimp only at hok
              match hopt : optionsLoop idFn rng (p0 :: rest) (PrevV.plist ["START"])
                  branch (Graph.mk [("START", NodeAttrs.plain)] []) [] k pair with
              | .error e => rw [hopt] at hok; exact nomatch hok
              | .ok trip =>
                obtain ⟨g1, opts, k1⟩ := trip
                rw [hopt] at hok
                dsimp only at hok
                match hpl : runBuilder idFn rng fuel
                    (.plots k1 (p0 :: rest) g1 branch opts pair) with
                | .error e => rw [hpl] at hok; exact nomatch hok
                | .ok res2 =>
                  rw [hpl] at hok
                  dsimp only at hok
                  obtain ⟨hkc, hstc, ⟨extc, hkec, hgec⟩, hindc, hendc⟩ :=
                    pog_if_core hid fuel ih hstb hprevb hopt hpl
                  rw [← Except.ok.inj hok]
                  refine ⟨hkc, hstc, ?_, ?_, ?_, ?_⟩
                  · intro g2 hg2
                    exact absurd hg2 (by simp)
                  · intro rd hrd
                    cases Option.some.inj hrd
                    intro n hn _
                    exact (hendc n hn).2
                  · intro _ rd hrd
                    cases Option.some.inj hrd
                    refine ⟨⟨hstc.inv, hstc.good, hstc.battr, ?_, ?_,
                      by show 2 ≤ ("START" : String).length; decide⟩, ?_⟩
                    · intro n hn _
                      exact (hendc n hn).2
                    · rw [hkec, hbk]
                      exact List.mem_append_left _ (by simp)
                    · exact goodKeys_of_extGood (goodKeys_mono hgb hkc) hkec hgec
                  · intro c0' r2' he hty' rd hrd
                    cases Option.some.inj hrd
                    exact ⟨rfl, rfl, _, rfl⟩
          · rw [if_neg hcond] at hok
            match hh : runBuilder idFn rng fuel (.handle k (p0 :: rest) true) with
            | .error e => rw [hh] at hok; exact nomatch hok
            | .ok res1 =>
              rw [hh] at hok
              simp only [except_bind_ok] at hok
              have hposth := ih (.handle k (p0 :: rest) true) res1 trivial hh
              obtain ⟨hk1, hrdf⟩ := hposth
              rw [← Except.ok.inj hok]
              refine ⟨hk1, gst_mono hstb hk1, ?_, ?_, ?_, ?_⟩
              · intro g2 hg2
                exact absurd hg2 (by simp)
              · intro rd hrd
                obtain ⟨s, hends⟩ := (hrdf rd hrd).2.2 rfl
                rw [hends]
                exact prevok_of_estr _ s
              · intro _ rd hrd
                obtain ⟨hrdok, hnt, _⟩ := hrdf rd hrd
                refine ⟨hrdok, ?_⟩
                by_cases hty2 : p0.ptype = "template_name"
                · exfalso
                  have hct : p0.content ≠ Val.vstr "剧情选项" := fun hc => hcond ⟨hty2, hc⟩
                  exact handle_nonopt_no_ok idFn rng fuel k p0 rest true res1 hty2 hct hh
                · exact hnt p0 rest rfl hty2
              · intro c0' r2' he hty' rd hrd
                exfalso
                injection he with h1 h2
                rw [← h1] at hty'
                have hct : p0.content ≠ Val.vstr "剧情选项" := fun hc => hcond ⟨hty', hc⟩
                exact handle_nonopt_no_ok idFn rng fuel k p0 rest true res1 hty' hct hh
      | some g, some p =>
        obtain ⟨hstg, hprevg⟩ := hsome g rfl
        have hprevp : PrevOK g p := hprevg p rfl
        match tmpl with
        | [] =>
          dsimp only [runBuilder, Option.getD, Bind.bind, Except.bind, pure,
            Except.pure] at hok
          exact nomatch hok
        | p0 :: rest =>
          dsimp only [runBuilder, Option.getD, Bind.bind, Except.bind, pure,
            Except.pure] at hok
          by_cases hcond : p0.ptype = "template_name" ∧ p0.content = Val.vstr "剧情选项"
          · rw [if_pos hcond] at hok
            match hfp : findOptionPlotPair rest with
            | .error e => rw [hfp] at hok; exact nomatch hok
            | .ok pair =>
              rw [hfp] at hok
              dsimp only at hok
              match hopt : optionsLoop idFn rng (p0 :: rest) p branch g [] k pair with
              | .error e => rw [hopt] at hok; exact nomatch hok
              | .ok trip =>
                obtain ⟨g1, opts, k1⟩ := trip
                rw [hopt] at hok
                dsimp only at hok
                match hpl : runBuilder idFn rng fuel
                    (.plots k1 (p0 :: rest) g1 branch opts pair) with
                | .error e => rw [hpl] at hok; exact nomatch hok
                | .ok res2 =>
                  rw [hpl] at hok
                  dsimp only at hok
                  obtain ⟨hkc, hstc, ⟨extc, hkec, hgec⟩, hindc, hendc⟩ :=
                    pog_if_core hid fuel ih hstg hprevp hopt hpl
                  rw [← Except.ok.inj hok]
                  refine ⟨hkc, hstc, ?_, ?_, ?_, ?_⟩
                  · intro g2 hg2
                    cases Option.some.inj hg2
                    exact ⟨⟨extc, hkec, hgec⟩, hindc⟩
                  · intro rd hrd
                    cases Option.some.inj hrd
                    intro n hn _
                    exact (hendc n hn).2
                  · intro hno
                    exact absurd hno (by simp)
                  · intro c0' r2' he hty' rd hrd
                    cases Option.some.inj hrd
                    exact ⟨rfl, rfl, _, rfl⟩
          · rw [if_neg hcond] at hok
            match hh : runBuilder idFn rng fuel (.handle k (p0 :: rest) true) with
            | .error e => rw [hh] at hok; exact nomatch hok
            | .ok res1 =>
              rw [hh] at hok
              simp only [except_bind_ok] at hok
              have hposth := ih (.handle k (p0 :: rest) true) res1 trivial hh
              obtain ⟨hk1, hrdf⟩ := hposth
              rw [← Except.ok.inj hok]
              refine ⟨hk1, gst_mono hstg hk1, ?_, ?_, ?_, ?_⟩
              · intro g2 hg2
                cases Option.some.inj hg2
                exact ⟨⟨[], by simp, fun n hn => absurd hn (by simp)⟩, fun n _ => rfl⟩
              · intro rd hrd
                obtain ⟨s, hends⟩ := (hrdf rd hrd).2.2 rfl
                rw [hends]
                exact prevok_of_estr _ s
              · intro hno
                exact absurd hno (by simp)
              · intro c0' r2' he hty' rd hrd
                exfalso
                injection he with h1 h2
                rw [← h1] at hty'
                have hct : p0.content ≠ Val.vstr "剧情选项" := fun hc => hcond ⟨hty', hc⟩
                exact handle_nonopt_no_ok idFn rng fuel k p0 rest true res1 hty' hct hh
    | .handle k comps followed =>
      match comps with
      | [] =>
        have hres : (⟨none, Graph.empty, k⟩ : BRes) = res := by
          simp only [runBuilder] at hok
          exact Except.ok.inj hok
        rw [← hres]
        exact ⟨le_refl _, fun rd h => nomatch h⟩
      | c0 :: rest =>
        by_cases hcs : c0.ptype = "common_string"
        · simp only [runBuilder, if_pos hcs] at hok
          match hsi : seqItems c0.content with
          | .error e => rw [hsi] at hok; exact nomatch hok
          | .ok items =>
            rw [hsi] at hok
            simp only [except_bind_ok] at hok
            match hcv : convertLoop idFn rng [] k items
                (items.map (fun _ => "common_string")) with
            | (nodes, k1) =>
              rw [hcv] at hok
              dsimp only at hok
              match hml : nodes.map Prod.fst with
              | [] => rw [hml] at hok; exact nomatch hok
              | h :: t =>
                rw [hml] at hok
                dsimp only at hok
                obtain ⟨hkk1, newNodes, hout, hnew, hnd⟩ :=
                  convertLoop_post hid items (items.map (fun _ => "common_string"))
                    [] k nodes k1 hcv (by simp) (by simp)
                have hnd2 : (h :: t).Nodup := hml ▸ hnd
                have hidk : ∀ n ∈ (h :: t), idOrigin idFn rng k1 n ∧ 2 ≤ n.length := by
                  intro n hn
                  rw [← hml] at hn
                  obtain ⟨q, hq, rfl⟩ := List.mem_map.mp hn
                  have hq2 : q ∈ newNodes := by
                    rw [hout] at hq
                    simpa using hq
                  obtain ⟨⟨s, j, hj1, hj2, he⟩, _⟩ := hnew q hq2
                  exact ⟨⟨s, j, hj2, he⟩, by rw [he]; exact hid.len2 _ _⟩
                have hkeys1 : (Graph.mk nodes []).keys = h :: t := hml
                have hginv1 : GInv (Graph.mk nodes []) := by
                  refine ⟨?_, ?_, ?_, ?_⟩ <;> intro e he <;> exact absurd he (by simp)
                have hes : ∀ e ∈ List.zip (h :: t).dropLast ((h :: t).drop 1),
                    e.1 ∈ (Graph.mk nodes []).keys ∧ e.2 ∈ (Graph.mk nodes []).keys
                    ∧ 2 ≤ e.2.length
                    ∧ idxOf (Graph.mk nodes []).keys e.1
                        < idxOf (Graph.mk nodes []).keys e.2 := by
                  intro e he
                  obtain ⟨i, hi1, hg1, hg2⟩ := mem_zip_consec he
                  have hm1 : e.1 ∈ (h :: t) := by
                    rw [hg1]
                    exact (h :: t).get_mem _ _
                  have hm2 : e.2 ∈ (h :: t) := by
                    rw [hg2]
                    exact (h :: t).get_mem _ _
                  refine ⟨by rw [hkeys1]; exact hm1, by rw [hkeys1]; exact hm2,
                    (hidk _ hm2).2, ?_⟩
                  rw [hkeys1, hg1, hg2, idxOf_get_nodup hnd2, idxOf_get_nodup hnd2]
                  omega
                obtain ⟨hginv2, hnodes2⟩ := ginv_addEdgesFrom_present hginv1 hes
                have hkeys2 : (addEdgesFrom (Graph.mk nodes [])
                    (List.zip (h :: t).dropLast ((h :: t).drop 1))).keys = h :: t := by
                  unfold Graph.keys
                  rw [hnodes2]
                  exact hml
                have hbattr : branchAttrPairs (addEdgesFrom (Graph.mk nodes [])
                    (List.zip (h :: t).dropLast ((h :: t).drop 1))) = [] := by
                  unfold branchAttrPairs
                  rw [hnodes2]
                  apply List.filterMap_eq_nil_iff.mpr
                  intro q hq
                  have hq2 : q ∈ newNodes := by
                    rw [hout] at hq
                    simpa using hq
                  obtain ⟨_, sp, ct, ty, hqa⟩ := (hnew q hq2)
                  rw [hqa]
                  rfl
                have hgood : ∀ B : List String, goodKeys idFn rng B
                    (addEdgesFrom (Graph.mk nodes [])
                      (List.zip (h :: t).dropLast ((h :: t).drop 1))) k1 := by
                  intro B n hn
                  rw [hkeys2] at hn
                  exact Or.inr (Or.inr (hidk n hn).1)
                have hbl : battrLen (addEdgesFrom (Graph.mk nodes [])
                    (List.zip (h :: t).dropLast ((h :: t).drop 1))) := by
                  intro p hp
                  rw [hbattr] at hp
                  exact absurd hp (by simp)
                rw [← Except.ok.inj hok]
                refine ⟨hkk1, ?_⟩
                intro rd hrd
                cases Option.some.inj hrd
                refine ⟨⟨hginv2, hgood A, hbl, ?_, ?_, ?_⟩, ?_, ?_⟩
                · intro n hn _
                  have hn2 : n = (h :: t).getLast (by simp) := List.mem_singleton.mp hn
                  rw [hkeys2, hn2]
                  exact List.getLast_mem _
                · rw [hkeys2]
                  exact List.mem_cons_self _ _
                · exact (hidk h (by simp)).2
                · intro c0' rest2 he hne
                  exact hgood ["START"]
                · intro _
                  exact ⟨(h :: t).getLast (by simp), rfl⟩
        · by_cases hts : c0.ptype = "template_name"
          · rw [handle_tname_step idFn rng fuel k c0 rest followed hts] at hok
            have hpostw := ih (.warpped k (c0 :: rest) followed) res
              (show PreOf idFn rng A _ from ⟨c0, rest, rfl, hts⟩) hok
            obtain ⟨hkw, hrdw⟩ := hpostw
            refine ⟨hkw, ?_⟩
            intro rd hrd
            obtain ⟨hrdok, hend⟩ := hrdw rd hrd
            refine ⟨hrdok, ?_, ?_⟩
            · intro c0' rest2 he hne
              injection he with h1 h2
              rw [← h1] at hne
              exact absurd hts hne
            · intro hf
              exact ⟨"END", hend hf⟩
          · by_cases hcl : c0.ptype = "collapse"
            · simp only [runBuilder, if_neg hcs, if_neg hts, if_pos hcl] at hok
              match hsi : seqItems c0.content with
              | .error e => rw [hsi] at hok; exact nomatch hok
              | .ok items =>
                rw [hsi] at hok
                simp only [except_bind_ok] at hok
                match hcv : convertLoop idFn rng [] k items ["collapse"] with
                | (nodes, k1) =>
                  rw [hcv] at hok
                  dsimp only at hok
                  match hml : nodes.map Prod.fst with
                  | [] => rw [hml] at hok; exact nomatch hok
                  | h :: t =>
                    rw [hml] at hok
                    dsimp only at hok
                    obtain ⟨hkk1, newNodes, hout, hnew, hnd⟩ :=
                      convertLoop_post hid items ["collapse"] [] k nodes k1 hcv
                        (by simp) (by simp)
                    have hidk : ∀ n ∈ (h :: t), idOrigin idFn rng k1 n ∧ 2 ≤ n.length := by
                      intro n hn
                      rw [← hml] at hn
                      obtain ⟨q, hq, rfl⟩ := List.mem_map.mp hn
                      have hq2 : q ∈ newNodes := by
                        rw [hout] at hq
                        simpa using hq
                      obtain ⟨⟨s, j, hj1, hj2, he⟩, _⟩ := hnew q hq2
                      exact ⟨⟨s, j, hj2, he⟩, by rw [he]; exact hid.len2 _ _⟩
                    have hkeys1 : (Graph.mk nodes []).keys = h :: t := hml
                    have hginv1 : GInv (Graph.mk nodes []) := by
                      refine ⟨?_, ?_, ?_, ?_⟩ <;> intro e he <;> exact absurd he (by simp)
                    have hbattr : branchAttrPairs (Graph.mk nodes []) = [] := by
                      unfold branchAttrPairs
                      apply List.filterMap_eq_nil_iff.mpr
                      intro q hq
                      have hq2 : q ∈ newNodes := by
                        rw [hout] at hq
                        simpa using hq
                      obtain ⟨_, sp, ct, ty, hqa⟩ := (hnew q hq2)
                      rw [hqa]
                      rfl
                    have hgood : ∀ B : List String,
                        goodKeys idFn rng B (Graph.mk nodes []) k1 := by
                      intro B n hn
                      rw [hkeys1] at hn
                      exact Or.inr (Or.inr (hidk n hn).1)
                    have hbl : battrLen (Graph.mk nodes []) := by
                      intro p hp
                      rw [hbattr] at hp
                      exact absurd hp (by simp)
                    rw [← Except.ok.inj hok]
                    refine ⟨hkk1, ?_⟩
                    intro rd hrd
                    cases Option.some.inj hrd
                    refine ⟨⟨hginv1, hgood A, hbl, ?_, ?_, ?_⟩, ?_, ?_⟩
                    · intro n hn _
                      have hn2 : n = (h :: t).getLast (by simp) := List.mem_singleton.mp hn
                      rw [hkeys1, hn2]
                      exact List.getLast_mem _
                    · rw [hkeys1]
                      exact List.mem_cons_self _ _
                    · exact (hidk h (by simp)).2
                    · intro c0' rest2 he hne
                      exact hgood ["START"]
                    · intro _
                      exact ⟨(h :: t).getLast (by simp), rfl⟩
            · simp only [runBuilder, if_neg hcs, if_neg hts, if_neg hcl] at hok
              exact nomatch hok
    | .warpped k comps followed =>
      obtain ⟨c0, r2, hcomps, hty⟩ := hpre
      simp only [runBuilder] at hok
      match hr1 : runBuilder idFn rng fuel (.pog k comps none none "None") with
      | .error e => rw [hr1] at hok; exact nomatch hok
      | .ok res1 =>
        rw [hr1] at hok
        simp only [except_bind_ok] at hok
        have hpost1 := ih (.pog k comps none none "None") res1
          (show PreOf idFn rng A _ from ⟨⟨fun _ => rfl, fun _ => rfl⟩, fun g hg => nomatch hg⟩) hr1
        obtain ⟨hk1, hst1, _, hprevend, hnone, htmplc⟩ := hpost1
        match hret : res1.ret with
        | none => rw [hret] at hok; exact nomatch hok
        | some rd =>
          rw [hret] at hok
          dsimp only at hok
          obtain ⟨hrdok, hgood'⟩ := hnone rfl rd hret
          obtain ⟨hrg, hrstart, l, hrend⟩ := htmplc c0 r2 hcomps hty rd hret
          by_cases hf : followed = true
          · rw [hf] at hok
            rw [if_pos rfl] at hok
            have hEfresh : "END" ∉ rd.graph.keys := by
              intro hmem
              rcases hgood' _ hmem with hl | hA | ⟨s, j, _, he⟩
              · have h3 : ("END" : String).length = 3 := rfl
                omega
              · have h3 : ("END" : String) = "START" := List.mem_singleton.mp hA
                exact absurd h3 (by decide)
              · exact hid.not_base s (rng j) (he ▸ hE)
            have hEnodes : (addNodePlain rd.graph "END").nodes
                = rd.graph.nodes ++ [("END", NodeAttrs.plain)] := by
              unfold addNodePlain
              rw [if_neg (fun hh2 => hEfresh ((hasNode_eq_mem _ _).mp hh2))]
            have hkeys2 : (addNodePlain rd.graph "END").keys
                = rd.graph.keys ++ ["END"] := by
              simpa using keys_of_nodes_ext hEnodes
            have hginv2 : GInv (addNodePlain rd.graph "END") :=
              ginv_of_ext ["END"] hkeys2 (addNodePlain_edges _ _) hrdok.inv
            have hEmem2 : "END" ∈ (addNodePlain rd.graph "END").keys := by
              rw [hkeys2]
              exact List.mem_append_right _ (by simp)
            have hesE : ∀ e ∈ (((outDegList rd.graph).filter
                  (fun q => q.2 = 0)).map Prod.fst).map (fun n => (n, "END")),
                e.2 = "END" ∧ (2 ≤ e.1.length →
                  e.1 ∈ (addNodePlain rd.graph "END").keys
                  ∧ idxOf (addNodePlain rd.graph "END").keys e.1
                      < idxOf (addNodePlain rd.graph "END").keys "END") := by
              intro e he
              obtain ⟨n, hn, rfl⟩ := List.mem_map.mp he
              refine ⟨rfl, fun _ => ?_⟩
              have hnm : n ∈ rd.graph.keys := leaf_mem hn
              constructor
              · rw [hkeys2]
                exact List.mem_append_left _ hnm
              · rw [hkeys2, idxOf_append_of_mem _ hnm, idxOf_append_self hEfresh]
                exact idxOf_lt_length hnm
            have hginv3 : GInv (addEdgesFrom (addNodePlain rd.graph "END")
                ((((outDegList rd.graph).filter (fun q => q.2 = 0)).map Prod.fst).map
                  (fun n => (n, "END")))) :=
              ginv_addEdgesFrom_fanin hginv2 hEmem2 (by decide) hesE
            obtain ⟨ext4, hext4, hq4⟩ := @addEdgesFrom_nodes_ok
              (addNodePlain rd.graph "END")
              ((((outDegList rd.graph).filter (fun q => q.2 = 0)).map Prod.fst).map
                (fun n => (n, "END")))
              (fun e he _ => by
                obtain ⟨n, hn, rfl⟩ := List.mem_map.mp he
                rw [hkeys2]
                exact List.mem_append_left _ (leaf_mem hn))
              (fun e he => by
                obtain ⟨n, hn, rfl⟩ := List.mem_map.mp he
                exact hEmem2)
            have hkeys3 : (addEdgesFrom (addNodePlain rd.graph "END")
                ((((outDegList rd.graph).filter (fun q => q.2 = 0)).map Prod.fst).map
                  (fun n => (n, "END")))).keys
                = (addNodePlain rd.graph "END").keys ++ ext4.map Prod.fst :=
              keys_of_nodes_ext hext4
            have hgood3 : goodKeys idFn rng A (addEdgesFrom (addNodePlain rd.graph "END")
                ((((outDegList rd.graph).filter (fun q => q.2 = 0)).map Prod.fst).map
                  (fun n => (n, "END")))) res1.k := by
              intro n hn
              rw [hkeys3, hkeys2] at hn
              rcases List.mem_append.mp hn with hn1 | hn1
              · rcases List.mem_append.mp hn1 with hn2 | hn2
                · exact hrdok.good n hn2
                · rw [List.mem_singleton.mp hn2]
                  exact Or.inr (Or.inl hE)
              · obtain ⟨q, hq, rfl⟩ := List.mem_map.mp hn1
                exact Or.inl (hq4 q hq).2
            have hnodes3 : (addEdgesFrom (addNodePlain rd.graph "END")
                ((((outDegList rd.graph).filter (fun q => q.2 = 0)).map Prod.fst).map
                  (fun n => (n, "END")))).nodes
                = rd.graph.nodes ++ ([("END", NodeAttrs.plain)] ++ ext4) := by
              rw [hext4, hEnodes, List.append_assoc]
            have hbattr3 : branchAttrPairs (addEdgesFrom (addNodePlain rd.graph "END")
                ((((outDegList rd.graph).filter (fun q => q.2 = 0)).map Prod.fst).map
                  (fun n => (n, "END"))))
                = branchAttrPairs rd.graph := by
              apply branchAttrPairs_plain_ext hnodes3
              intro q hq
              rcases List.mem_append.mp hq with h | h
              · rw [List.mem_singleton.mp h]
              · exact (hq4 q h).1
            have hbl3 : battrLen (addEdgesFrom (addNodePlain rd.graph "END")
                ((((outDegList rd.graph).filter (fun q => q.2 = 0)).map Prod.fst).map
                  (fun n => (n, "END")))) := by
              intro p hp
              rw [hbattr3] at hp
              exact hrdok.battr p hp
            rw [← Except.ok.inj hok]
            refine ⟨hk1, ?_⟩
            intro rd2 hrd2
            cases Option.some.inj hrd2
            refine ⟨⟨hginv3, hgood3, hbl3, ?_, ?_,
              by show 2 ≤ ("START" : String).length; decide⟩, fun _ => rfl⟩
            · intro n hn _
              have hn2 : n = "END" := List.mem_singleton.mp hn
              rw [hn2, hkeys3]
              exact List.mem_append_left _ hEmem2
            · rw [hkeys3, hkeys2]
              have hsm : "START" ∈ rd.graph.keys := hrstart ▸ hrdok.start_mem
              exact List.mem_append_left _ (List.mem_append_left _ hsm)
          · have hf2 : followed = false := by
              cases h2 : followed
              · rfl
              · exact absurd h2 hf
            rw [hf2] at hok
            rw [if_neg (by decide)] at hok
            rw [← Except.ok.inj hok]
            refine ⟨hk1, ?_⟩
            intro rd2 hrd2
            cases Option.some.inj hrd2
            refine ⟨⟨hrdok.inv, hrdok.good, hrdok.battr, ?_, ?_,
              by show 2 ≤ ("START" : String).length; decide⟩, ?_⟩
            · intro n hn _
              exact leaf_mem hn
            · exact hrstart ▸ hrdok.start_mem
            · intro hft
              exact absurd (hf2 ▸ hft) (by decide)
    | .plots k tmpl graph branch opts pairRest =>
      obtain ⟨hst, hopts⟩ := hpre
      match pairRest with
      | [] =>
        have hres : (⟨none, graph, k⟩ : BRes) = res := by
          simp only [runBuilder] at hok
          exact Except.ok.inj hok
        rw [← hres]
        exact ⟨le_refl _, hst, ⟨[], by simp, fun n hn => absurd hn (by simp)⟩,
          fun n _ => rfl⟩
      | (optionName, info) :: restPair =>
        simp only [runBuilder] at hok
        match hpp : info.plot_pos with
        | none =>
          rw [hpp] at hok
          dsimp only at hok
          exact ih (.plots k tmpl graph branch opts restPair) res ⟨hst, hopts⟩ hok
        | some plotPos =>
          rw [hpp] at hok
          dsimp only at hok
          match hpi : pyIndex tmpl (plotPos + 1) with
          | .error e => rw [hpi] at hok; exact nomatch hok
          | .ok pairedPlot =>
            rw [hpi] at hok
            simp only [except_bind_ok] at hok
            have main : ∀ (values : List String),
                (match assocGet opts optionName with
                  | some nid =>
                    (do
                      let res1 ← runBuilder idFn rng fuel
                        (.plotValues k graph branch pairedPlot.name pairedPlot.nestedTemp
                          (PrevV.plist [nid]) values)
                      runBuilder idFn rng fuel
                        (.plots res1.k tmpl res1.gstate branch opts restPair))
                  | none => Except.error "KeyError: options_to_be_connected")
                  = Except.ok res →
                PostOf idFn rng A (.plots k tmpl graph branch opts
                  ((optionName, info) :: restPair)) res := by
              intro values hok2
              match hga : assocGet opts optionName with
              | none => rw [hga] at hok2; exact nomatch hok2
              | some nid =>
                rw [hga] at hok2
                dsimp only at hok2
                match hr1 : runBuilder idFn rng fuel
                    (.plotValues k graph branch pairedPlot.name pairedPlot.nestedTemp
                      (PrevV.plist [nid]) values) with
                | .error e => rw [hr1] at hok2; exact nomatch hok2
                | .ok res1 =>
                  rw [hr1] at hok2
                  simp only [except_bind_ok] at hok2
                  have hnid : (optionName, nid) ∈ opts := assocGet_some_mem hga
                  obtain ⟨hnidm, hnidl⟩ := hopts _ hnid
                  have hprev : PrevOK graph (PrevV.plist [nid]) := by
                    intro n hn _
                    rw [List.mem_singleton.mp hn]
                    exact hnidm
                  have hpost1 := ih (.plotValues k graph branch pairedPlot.name
                      pairedPlot.nestedTemp (PrevV.plist [nid]) values) res1
                    (show PreOf idFn rng A _ from ⟨hst, hprev⟩) hr1
                  obtain ⟨hk1, hst1, ⟨ext1, hke1, hge1⟩, hind1⟩ := hpost1
                  have hopts2 : ∀ q ∈ opts, q.2 ∈ res1.gstate.keys ∧ 2 ≤ q.2.length := by
                    intro q hq
                    obtain ⟨hm, hl⟩ := hopts q hq
                    exact ⟨by rw [hke1]; exact List.mem_append_left _ hm, hl⟩
                  have hpost2 := ih (.plots res1.k tmpl res1.gstate branch opts restPair)
                    res (show PreOf idFn rng A _ from ⟨hst1, hopts2⟩) hok2
                  obtain ⟨hk2, hst2, ⟨ext2, hke2, hge2⟩, hind2⟩ := hpost2
                  refine ⟨by omega, hst2,
                    ⟨ext1 ++ ext2, by rw [hke2, hke1, List.append_assoc],
                      extGood_append (extGood_mono hge1 (by omega)) hge2⟩, ?_⟩
                  intro n hn
                  rw [hind2 n (by rw [hke1]; exact List.mem_append_left _ hn), hind1 n hn]
            match hv : pairedPlot.value with
            | .vnone => rw [hv] at hok; exact nomatch hok
            | .vstr s =>
              rw [hv] at hok
              dsimp only at hok
              exact main [s] hok
            | .vlist l =>
              rw [hv] at hok
              dsimp only at hok
              exact main l hok
    | .plotValues k graph branch plotName nested prev values =>
      obtain ⟨hst, hprev⟩ := hpre
      match values with
      | [] =>
        have hres : (⟨none, graph, k⟩ : BRes) = res := by
          simp only [runBuilder] at hok
          exact Except.ok.inj hok
        rw [← hres]
        exact ⟨le_refl _, hst, ⟨[], by simp, fun n hn => absurd hn (by simp)⟩,
          fun n _ => rfl⟩
      | value :: vrest =>
        simp only [runBuilder] at hok
        by_cases hpm : placeholderMatch value = true
        · rw [hpm] at hok
          simp only [if_true] at hok
          match hsub : assocGet nested (stripDollars value) with
          | none => rw [hsub] at hok; exact nomatch hok
          | some sub =>
            rw [hsub] at hok
            dsimp only at hok
            match hr1 : runBuilder idFn rng fuel
                (.pog (k + 1) sub (some graph) (some prev) (toString (rng k))) with
            | .error e => rw [hr1] at hok; exact nomatch hok
            | .ok res1 =>
              rw [hr1] at hok
              simp only [except_bind_ok] at hok
              have hpre1 : PreOf idFn rng A
                  (.pog (k + 1) sub (some graph) (some prev) (toString (rng k))) := by
                refine ⟨by simp, ?_⟩
                intro g hg
                cases Option.some.inj hg
                refine ⟨gst_mono hst (by omega), ?_⟩
                intro p hp
                cases Option.some.inj hp
                exact hprev
              have hpost1 := ih _ res1 hpre1 hr1
              obtain ⟨hk1, hst1, hsome1, hprevend, _, _⟩ := hpost1
              obtain ⟨⟨ext1, hke1, hge1⟩, hind1⟩ := hsome1 graph rfl
              match hret : res1.ret with
              | none => rw [hret] at hok; exact nomatch hok
              | some rd =>
                rw [hret] at hok
                dsimp only at hok
                have hpre2 : PreOf idFn rng A (.plotValues res1.k res1.gstate branch
                    plotName nested (endToPrev rd.endv) vrest) :=
                  ⟨hst1, hprevend rd hret⟩
                have hpost2 := ih _ res hpre2 hok
                obtain ⟨hk2, hst2, ⟨ext2, hke2, hge2⟩, hind2⟩ := hpost2
                refine ⟨by omega, hst2,
                  ⟨ext1 ++ ext2, by rw [hke2, hke1, List.append_assoc],
                    extGood_append (extGood_mono hge1 (by omega)) hge2⟩, ?_⟩
                intro n hn
                rw [hind2 n (by rw [hke1]; exact List.mem_append_left _ hn), hind1 n hn]
        · have hpm2 : placeholderMatch value = false := by
            cases h2 : placeholderMatch value
            · rfl
            · exact absurd h2 hpm
          rw [hpm2] at hok
          simp only [Bool.false_eq_true, if_false] at hok
          match hr : (getSpeakerNameAndContent idFn rng k value).1 with
          | none =>
            rw [hr] at hok
            dsimp only at hok
            have hkb := extractor_k_between idFn rng k value
            have hpost := ih (.plotValues (getSpeakerNameAndContent idFn rng k value).2
                graph branch plotName nested prev vrest) res
              (show PreOf idFn rng A _ from ⟨gst_mono hst hkb.1, hprev⟩) hok
            obtain ⟨hk2, hst2, hext2, hind2⟩ := hpost
            exact ⟨by omega, hst2, hext2, hind2⟩
          | some t =>
            rw [hr] at hok
            dsimp only at hok
            by_cases hall : allNonEmpty t = true
            · rw [hall] at hok
              simp only [if_true] at hok
              match hlc : pyLastChar plotName with
              | .error e => rw [hlc] at hok; exact nomatch hok
              | .ok lastC =>
                rw [hlc] at hok
                simp only [except_bind_ok] at hok
                obtain ⟨hid1, hk2e⟩ := extractor_some hr
                rw [hk2e] at hok
                have hfresh : t.1 ∉ graph.keys := by
                  rw [hid1]
                  exact fresh_id hid (goodKeys_mono hst.good (by omega)) value
                have horig : idOrigin idFn rng (k + 2) t.1 := ⟨value, k + 1, by omega, hid1⟩
                have hlen : 2 ≤ t.1.length := by rw [hid1]; exact hid.len2 _ _
                obtain ⟨hst3, ⟨ext3, hkeys3, hext3⟩, ⟨newEs, hEs, hEtgt⟩⟩ :=
                  fanin_gst hst (by omega) prev hprev hfresh hlen horig
                    (.dialogue t.2.1 t.2.2 ("plot" ++ lastC) (some branch))
                have hmem3 : t.1 ∈ (addEdgesFrom (addNodeAttrs graph t.1
                    (.dialogue t.2.1 t.2.2 ("plot" ++ lastC) (some branch)))
                    (zipPrevTo prev t.1)).keys := by
                  rw [hkeys3]
                  exact List.mem_append_left _ (List.mem_append_right _ (by simp))
                have hprev3 : PrevOK (addEdgesFrom (addNodeAttrs graph t.1
                    (.dialogue t.2.1 t.2.2 ("plot" ++ lastC) (some branch)))
                    (zipPrevTo prev t.1)) (.plist [t.1]) := by
                  intro n hn _
                  rw [List.mem_singleton.mp hn]
                  exact hmem3
                have hpost := ih (.plotValues (k + 2) (addEdgesFrom (addNodeAttrs graph t.1
                    (.dialogue t.2.1 t.2.2 ("plot" ++ lastC) (some branch)))
                    (zipPrevTo prev t.1)) branch plotName nested (.plist [t.1]) vrest) res
                  (show PreOf idFn rng A _ from ⟨hst3, hprev3⟩) hok
                obtain ⟨hk4, hst4, ⟨ext4, hke4, hge4⟩, hind4⟩ := hpost
                refine ⟨by omega, hst4,
                  ⟨[t.1] ++ ext3 ++ ext4, by rw [hke4, hkeys3]; simp, ?_⟩, ?_⟩
                · intro n hn
                  rcases List.mem_append.mp hn with hn1 | hn1
                  · rcases List.mem_append.mp hn1 with hn2 | hn2
                    · rw [List.mem_singleton.mp hn2]
                      exact Or.inr ⟨value, k + 1, by omega, hid1⟩
                    · exact Or.inl (hext3 n hn2)
                  · rcases hge4 n hn1 with h5 | h5
                    · exact Or.inl h5
                    · exact Or.inr h5
                · intro n hn
                  have hnm3 : n ∈ (addEdgesFrom (addNodeAttrs graph t.1
                      (.dialogue t.2.1 t.2.2 ("plot" ++ lastC) (some branch)))
                      (zipPrevTo prev t.1)).keys := by
                    rw [hkeys3]
                    exact List.mem_append_left _ (List.mem_append_left _ hn)
                  rw [hind4 n hnm3]
                  exact inDeg_ext hEs hEtgt (fun he => hfresh (he ▸ hn))
            · have hallF : allNonEmpty t = false := by
                cases h2 : allNonEmpty t
                · rfl
                · exact absurd h2 hall
              rw [hallF] at hok
              simp only [Bool.false_eq_true, if_false] at hok
              have hkb := extractor_k_between idFn rng k value
              have hpost := ih (.plotValues (getSpeakerNameAndContent idFn rng k value).2
                  graph branch plotName nested prev vrest) res
                (show PreOf idFn rng A _ from ⟨gst_mono hst hkb.1, hprev⟩) hok
              obtain ⟨hk2, hst2, hext2, hind2⟩ := hpost
              exact ⟨by omega, hst2, hext2, hind2⟩

theorem idxOf_append_right {l : List String} {n : String} (l2 : List String)
    (h : n ∉ l) : idxOf (l ++ l2) n = l.length + idxOf l2 n := by
  induction l with
  | nil => simp [idxOf]
  | cons m rest ih =>
    have hm : m ≠ n := fun he => h (by rw [he]; exact List.mem_cons_self _ _)
    have ih2 := ih (fun h2 => h (List.mem_cons_of_mem _ h2))
    show idxOf (m :: (rest ++ l2)) n = (m :: rest).length + idxOf l2 n
    simp only [idxOf, if_neg hm, List.length_cons]
    omega

theorem keys_union (g h : Graph) :
    (Graph.mk (g.nodes ++ h.nodes) (g.edges ++ h.edges)).keys = g.keys ++ h.keys := by
  unfold Graph.keys
  exact List.map_append _ _ _

theorem ginv_union {g h : Graph} (hg : GInv g) (hh : GInv h)
    (hdisj : ∀ n ∈ h.keys, n ∉ g.keys) :
    GInv (Graph.mk (g.nodes ++ h.nodes) (g.edges ++ h.edges)) := by
  have hk := keys_union g h
  constructor
  · intro e he
    rw [hk]
    rcases List.mem_append.mp he with h1 | h1
    · exact List.mem_append_left _ (hg.tgt_mem e h1)
    · exact List.mem_append_right _ (hh.tgt_mem e h1)
  · intro e he
    rcases List.mem_append.mp he with h1 | h1
    · exact hg.tgt_len e h1
    · exact hh.tgt_len e h1
  · intro e he
    rw [hk]
    rcases List.mem_append.mp he with h1 | h1
    · exact List.mem_append_left _ (hg.src_mem e h1)
    · exact List.mem_append_right _ (hh.src_mem e h1)
  · intro e he hl
    rw [hk]
    rcases List.mem_append.mp he with h1 | h1
    · rw [idxOf_append_of_mem _ (hg.src_mem e h1),
        idxOf_append_of_mem _ (hg.tgt_mem e h1)]
      exact hg.fwd e h1 hl
    · rw [idxOf_append_right _ (hdisj _ (hh.src_mem e h1)),
        idxOf_append_right _ (hdisj _ (hh.tgt_mem e h1))]
      have h2 := hh.fwd e h1 hl
      omega

/-- The frontier value prev_node of GraphBuilder.build between component
blocks: every entry of length at least two is a present node. -/
def PrevEOK (g : Graph) (pe : EndV) : Prop :=
  ∀ n ∈ endvNames pe, 2 ≤ n.length → n ∈ g.keys

theorem ginv_addNodeAttrs {g : Graph} (n : String) (a : NodeAttrs) (hg : GInv g) :
    GInv (addNodeAttrs g n a) := by
  obtain ⟨ext, hk, _⟩ := addNodeAttrs_keys g n a
  exact ginv_of_ext ext hk (addNodeAttrs_edges g n a) hg

theorem addNodeAttrs_self_mem (g : Graph) (n : String) (a : NodeAttrs) :
    n ∈ (addNodeAttrs g n a).keys := by
  unfold addNodeAttrs
  split
  · next hh =>
    have h1 : n ∈ g.keys := (hasNode_eq_mem g n).mp hh
    show n ∈ (Graph.mk _ _).keys
    unfold Graph.keys
    dsimp only
    rw [map_fst_replace]
    exact h1
  · show n ∈ (Graph.mk _ _).keys
    unfold Graph.keys
    dsimp only
    rw [List.map_append]
    exact List.mem_append_right _ (by simp)

theorem nxUnion_ok {g h g2 : Graph} (hok : nxUnion g h = .ok g2) :
    g2 = Graph.mk (g.nodes ++ h.nodes) (g.edges ++ h.edges)
    ∧ ∀ n ∈ h.keys, n ∉ g.keys := by
  unfold nxUnion at hok
  by_cases hc : g.keys.any (fun n => h.keys.contains n) = true
  · rw [if_pos hc] at hok
    exact nomatch hok
  · rw [if_neg hc] at hok
    refine ⟨(Except.ok.inj hok).symm, ?_⟩
    intro n hn hng
    apply hc
    rw [List.any_eq_true]
    exact ⟨n, hng, by simpa using hn⟩

theorem buildComponents_post {idFn : String → Nat → String} {rng : Nat → Nat}
    {A : List String} (hid : HId idFn rng A)
    (hS : "START" ∈ A) (hE : "END" ∈ A) (fuel total : Nat) :
    ∀ (comps : List (List Part)) (g : Graph) (prevE : EndV) (k cIdx : Nat)
      (out : Graph × EndV × Nat),
    GInv g → PrevEOK g prevE →
    buildComponents idFn rng fuel total g prevE k cIdx comps = .ok out →
    GInv out.1 ∧ PrevEOK out.1 out.2.1 := by
  intro comps
  induction comps with
  | nil =>
    intro g prevE k cIdx out hg hp hok
    have hout : (g, prevE, k) = out := by
      simp only [buildComponents] at hok
      exact Except.ok.inj hok
    rw [← hout]
    exact ⟨hg, hp⟩
  | cons comp restComps ih =>
    intro g prevE k cIdx out hg hp hok
    simp only [buildComponents] at hok
    match hdf : dispatchFlag cIdx total with
    | none => rw [hdf] at hok; exact nomatch hok
    | some f =>
      rw [hdf] at hok
      dsimp only at hok
      match hh : runBuilder idFn rng fuel (.handle k comp f) with
      | .error e => rw [hh] at hok; exact nomatch hok
      | .ok res =>
        rw [hh] at hok
        simp only [except_bind_ok] at hok
        have hpost := runBuilder_post hid hS hE fuel (.handle k comp f) res trivial hh
        obtain ⟨hkr, hrdf⟩ := hpost
        match hret : res.ret with
        | none =>
          rw [hret] at hok
          dsimp only at hok
          exact ih g prevE res.k (cIdx + 1) out hg hp hok
        | some rd =>
          rw [hret] at hok
          dsimp only at hok
          obtain ⟨hrdok, _, _⟩ := hrdf rd hret
          match hun : nxUnion g rd.graph with
          | .error e => rw [hun] at hok; exact nomatch hok
          | .ok g2 =>
            rw [hun] at hok
            simp only [except_bind_ok] at hok
            obtain ⟨hg2eq, hdisj⟩ := nxUnion_ok hun
            have hg2inv : GInv g2 := by
              rw [hg2eq]
              exact ginv_union hg hrdok.inv hdisj
            have hg2keys : g2.keys = g.keys ++ rd.graph.keys := by
              rw [hg2eq]
              exact keys_union g rd.graph
            have hsm : rd.start ∈ g2.keys := by
              rw [hg2keys]
              exact List.mem_append_right _ hrdok.start_mem
            have hsnotg : rd.start ∉ g.keys := hdisj _ hrdok.start_mem
            have hfan : ∀ (srcs : List String), (∀ n ∈ srcs, 2 ≤ n.length → n ∈ g.keys) →
                GInv (addEdgesFrom g2 (srcs.map (fun n2 => (n2, rd.start))))
                ∧ ∀ m ∈ g2.keys,
                    m ∈ (addEdgesFrom g2 (srcs.map (fun n2 => (n2, rd.start)))).keys := by
              intro srcs hsrc
              constructor
              · apply ginv_addEdgesFrom_fanin hg2inv hsm hrdok.start_len
                intro e he
                obtain ⟨n2, hn2, rfl⟩ := List.mem_map.mp he
                refine ⟨rfl, fun hl => ?_⟩
                have hng : n2 ∈ g.keys := hsrc n2 hn2 hl
                refine ⟨by rw [hg2keys]; exact List.mem_append_left _ hng, ?_⟩
                rw [hg2keys, idxOf_append_of_mem _ hng, idxOf_append_right _ hsnotg]
                have h1 := idxOf_lt_length hng
                omega
              · intro m hm
                obtain ⟨ext5, hk5, _⟩ := addEdgesFrom_nodes g2
                  (srcs.map (fun n2 => (n2, rd.start)))
                rw [keys_of_nodes_ext hk5]
                exact List.mem_append_left _ hm
            have hpe2 : ∀ n ∈ endvNames rd.endv, 2 ≤ n.length → n ∈ g2.keys := by
              intro n hn hl
              rw [hg2keys]
              exact List.mem_append_right _ (hrdok.endv_ok n hn hl)
            match prevE with
            | .elist l =>
              dsimp only at hok
              obtain ⟨hg3, hm3⟩ := hfan l hp
              exact ih _ rd.endv res.k (cIdx + 1) out hg3
                (fun n hn hl => hm3 n (hpe2 n hn hl)) hok
            | .estr s =>
              dsimp only at hok
              have hs1 : ∀ n ∈ [s], 2 ≤ n.length → n ∈ g.keys := by
                intro n hn hl
                rw [List.mem_singleton.mp hn]
                exact hp s (by simp [endvNames]) (by rw [← List.mem_singleton.mp hn]; exact hl)
              obtain ⟨hg3, hm3⟩ := hfan [s] hs1
              exact ih _ rd.endv res.k (cIdx + 1) out hg3
                (fun n hn hl => hm3 n (hpe2 n hn hl)) hok

theorem buildSecList_post {idFn : String → Nat → String} {rng : Nat → Nat}
    {A : List String} (hid : HId idFn rng A)
    (hS : "START" ∈ A) (hE : "END" ∈ A) (fuel : Nat) :
    ∀ (secList : List (List (List Part))) (g : Graph) (prevE : EndV) (k : Nat)
      (out : Graph × EndV × Nat),
    GInv g → PrevEOK g prevE →
    buildSecList idFn rng fuel g prevE k secList = .ok out →
    GInv out.1 ∧ PrevEOK out.1 out.2.1 := by
  intro secList
  induction secList with
  | nil =>
    intro g prevE k out hg hp hok
    have hout : (g, prevE, k) = out := by
      simp only [buildSecList] at hok
      exact Except.ok.inj hok
    rw [← hout]
    exact ⟨hg, hp⟩
  | cons secComponents rest ih =>
    intro g prevE k out hg hp hok
    simp only [buildSecList] at hok
    match hbc : buildComponents idFn rng fuel secComponents.length g prevE k 0
        secComponents with
    | .error e => rw [hbc] at hok; exact nomatch hok
    | .ok trip =>
      obtain ⟨g2, p2, k2⟩ := trip
      rw [hbc] at hok
      simp only [except_bind_ok] at hok
      obtain ⟨hg2, hp2⟩ := buildComponents_post hid hS hE fuel secComponents.length
        secComponents g prevE k 0 (g2, p2, k2) hg hp hbc
      exact ih g2 p2 k2 out hg2 hp2 hok

theorem buildGraph_post {idFn : String → Nat → String} {rng : Nat → Nat}
    {A : List String} (hid : HId idFn rng A)
    (hS : "START" ∈ A) (hE : "END" ∈ A) (fuel : Nat) :
    ∀ (sections : List (String × List (List (List Part)))) (g : Graph) (k : Nat)
      (out : Graph × Nat),
    GInv g →
    buildGraph idFn rng fuel g k sections = .ok out →
    GInv out.1 := by
  intro sections
  induction sections with
  | nil =>
    intro g k out hg hok
    have hout : (g, k) = out := by
      simp only [buildGraph] at hok
      exact Except.ok.inj hok
    rw [← hout]
    exact hg
  | cons sec rest ih =>
    intro g k out hg hok
    obtain ⟨secName, secList⟩ := sec
    simp only [buildGraph] at hok
    by_cases hskip : secName = "任务剧情"
    · rw [if_pos hskip] at hok
      exact ih g k out hg hok
    · rw [if_neg hskip] at hok
      have hg1 : GInv (addNodeAttrs g secName (.secTag secName)) :=
        ginv_addNodeAttrs secName _ hg
      have hp1 : PrevEOK (addNodeAttrs g secName (.secTag secName)) (.estr secName) := by
        intro n hn _
        rw [List.mem_singleton.mp hn]
        exact addNodeAttrs_self_mem g secName _
      match hbs : buildSecList idFn rng fuel (addNodeAttrs g secName (.secTag secName))
          (.estr secName) k secList with
      | .error e => rw [hbs] at hok; exact nomatch hok
      | .ok trip =>
        obtain ⟨g2, p2, k2⟩ := trip
        rw [hbs] at hok
        simp only [except_bind_ok] at hok
        obtain ⟨hg2, _⟩ := buildSecList_post hid hS hE fuel secList
          (addNodeAttrs g secName (.secTag secName)) (.estr secName) k (g2, p2, k2)
          hg1 hp1 hbs
        exact ih g2 k2 out hg2 hok

theorem addEdgesFrom_mem_of_mem : ∀ {g : Graph} {es : List (String × String)}
    {e : String × String}, e ∈ es → e ∈ (addEdgesFrom g es).edges := by
  intro g es
  induction es generalizing g with
  | nil => intro e he; cases he
  | cons e2 rest ih =>
    intro e he
    rcases List.mem_cons.mp he with rfl | h2
    · exact addEdgesFrom_edges_sub _ rest (addEdge_edges_mem g e.1 e.2)
    · exact ih h2

/-- The zipped end-set computation coincides with the explicit filter over
any node segment all of whose entries carry a branch_name attribute. -/
theorem zip_filter_eq {branch : String} :
    ∀ (rest : List (String × NodeAttrs)) (deg : String → Nat),
    (∀ q ∈ rest, (branchOf q.2).isSome = true) →
    (List.zip (rest.filterMap (fun q => (branchOf q.2).map (fun b => (q.1, b))))
        (rest.map (fun q => (q.1, deg q.1)))).filterMap
      (fun z => if z.1.2 = branch ∧ z.2.2 = 0 then some z.1.1 else none)
    = rest.filterMap (fun q =>
        match branchOf q.2 with
        | some b => if b = branch ∧ deg q.1 = 0 then some q.1 else none
        | none => none) := by
  intro rest
  induction rest with
  | nil => intro deg _; rfl
  | cons q rest ih =>
    intro deg hall
    have hq := hall q (by simp)
    match hb : branchOf q.2 with
    | none => rw [hb] at hq; cases hq
    | some b =>
      simp only [List.filterMap_cons, List.map_cons, hb]
      dsimp only [Option.map]
      rw [List.zip_cons_cons, List.filterMap_cons]
      dsimp only
      have ih2 := ih deg (fun x hx => hall x (List.mem_cons_of_mem _ hx))
      dsimp only [Option.map] at ih2
      rw [ih2]

/-- C3 (amended): the end set of build_graph.py lines 151-156 — the zip of the
branch_name attribute iteration with the out-degree iteration offset by one —
equals the spec's explicit filter of the zero-out-degree nodes tagged with the
current branch whenever the graph has the shape the zip silently assumes:
exactly the first inserted node lacks the branch_name attribute.  The START
sentinel is that first node; the assumption is broken by the attribute-less
nodes that nested non-option blocks insert mid-list, which is the
counterexample. -/
theorem c3_endset_zip_amended (g : Graph) (branch : String)
    (n0 : String × NodeAttrs) (rest : List (String × NodeAttrs))
    (hn : g.nodes = n0 :: rest) (h0 : branchOf n0.2 = none)
    (hrest : ∀ q ∈ rest, (branchOf q.2).isSome = true) :
    endByZip g branch = endBySpecFilter g branch := by
  unfold endByZip endBySpecFilter branchAttrPairs outDegList
  rw [hn]
  simp only [List.filterMap_cons, List.map_cons, h0, Option.map_none]
  rw [show ((n0.1, outDeg g n0.1) :: rest.map (fun q => (q.1, outDeg g q.1))).drop 1
    = rest.map (fun q => (q.1, outDeg g q.1)) from rfl]
  exact zip_filter_eq rest (fun n => outDeg g n) hrest

def c3wGraph : Graph :=
  ⟨[("START", NodeAttrs.plain), ("#a", .dialogue "s" "c" "option1" (some "None"))],
   [("START", "#a")]⟩

/-- C3 witness: the amended equivalence applied to a concrete two-node
builder graph, discharging the shape hypotheses there. -/
theorem c3_endset_zip_witness :
    endByZip c3wGraph "None" = endBySpecFilter c3wGraph "None" :=
  c3_endset_zip_amended c3wGraph "None" ("START", NodeAttrs.plain)
    [("#a", NodeAttrs.dialogue "s" "c" "option1" (some "None"))] rfl rfl (by decide)

def tnPart : Part := .mk "template_name" "" (Val.vstr "剧情选项") Val.vnone []

def rngA : Nat → Nat := fun i => 1000 + i

def c3plot : Part := .mk "template" "剧情1" Val.vnone
  (Val.vlist ["$$0123456789$$", "z", "q"])
  [("0123456789", [Part.mk "collapse" "" (Val.vstr "w") Val.vnone []])]

def c3parts : List Part := [tnPart, mkParam "选项1" "opt", c3plot]

set_option maxRecDepth 4000 in
/-- C3 counterexample: a run whose plot list nests a non-option block.  The
nested collapse node and the stray one-character nodes of the string frontier
sit between the attribute nodes, the zip pairs every attribute node after the
first with the wrong degree entry, and the returned end set ["#opt_1001"]
omits the true leaf #q_1008 that the explicit filter finds. -/
theorem c3_zip_offset_counterexample :
    ((buildPlotOptionGraph idStub rngA 20 0 c3parts none none "None").map
        (fun r => (endByZip r.gstate "None", endBySpecFilter r.gstate "None")))
      = Except.ok (["#opt_1001"], ["#opt_1001", "#q_1008"])
    ∧ (["#opt_1001"] : List String) ≠ ["#opt_1001", "#q_1008"] := ⟨rfl, by decide⟩

def c7plot : Part := .mk "template" "剧情1" Val.vnone (Val.vlist ["y", "y"]) []

def c7parts : List Part := [tnPart, mkParam "选项1" "opt", c7plot]

def c7graph : Graph :=
  ⟨[("START", NodeAttrs.plain),
    ("#opt_7", .dialogue "旅行者" "opt_7" "option1" (some "None")),
    ("#y_7", .dialogue "旅行者" "y_7" "plot1" (some "None"))],
   [("START", "#opt_7"), ("#opt_7", "#y_7"), ("#y_7", "#y_7")]⟩

/-- C7 counterexample: two identical plot lines that draw the same salt (the
4-digit generator of build_graph.py lines 30 and 33 repeats values; the
modelled digest with a constant generator reproduces the collision) produce
the same node id, the second line reuses the node as its own frontier, and
the builder returns a graph with the self-loop (#y_7, #y_7): not acyclic. -/
theorem c7_salt_collision_cycle :
    (buildPlotOptionGraph idStub (fun _ => 7) 20 0 c7parts none none "None").map
        BRes.gstate = Except.ok c7graph
    ∧ EdgeRel c7graph "#y_7" "#y_7"
    ∧ ¬ Acyclic c7graph := by
  refine ⟨rfl, ?_, ?_⟩
  · show ("#y_7", "#y_7") ∈ c7graph.edges
    decide
  · intro hacy
    exact hacy "#y_7" (Relation.TransGen.single
      (show ("#y_7", "#y_7") ∈ c7graph.edges by decide))

/-- C7 (amended): under collision-free salted ids — the digest determines its
salt, the generator never repeats, ids are at least two characters and never
equal the START or END sentinels — every graph of a complete build() run and
every graph state returned by __build_plot_option_graph (the top-level call
and every intermediate recursive call whose inputs satisfy the builder
precondition) is acyclic.  With the actual 4-digit salts the assumption can
fail and a salt collision yields a cyclic graph (the counterexample). -/
theorem c7_acyclic_amended (idFn : String → Nat → String) (rng : Nat → Nat)
    (hid : HId idFn rng ["START", "END"]) :
    (∀ fuel sections out,
        buildGraph idFn rng fuel Graph.empty 0 sections = .ok out →
        Acyclic out.1)
    ∧ (∀ fuel k tmpl branch res,
        buildPlotOptionGraph idFn rng fuel k tmpl none none branch = .ok res →
        Acyclic res.gstate)
    ∧ (∀ fuel k tmpl graph0 prev0 branch res,
        PreOf idFn rng ["START", "END"] (.pog k tmpl graph0 prev0 branch) →
        runBuilder idFn rng fuel (.pog k tmpl graph0 prev0 branch) = .ok res →
        Acyclic res.gstate) := by
  have hS : "START" ∈ ["START", "END"] := by decide
  have hE : "END" ∈ ["START", "END"] := by decide
  refine ⟨?_, ?_, ?_⟩
  · intro fuel sections out hok
    exact acyclic_of_ginv
      (buildGraph_post hid hS hE fuel sections Graph.empty 0 out ginv_empty hok)
  · intro fuel k tmpl branch res hok
    have hpre : PreOf idFn rng ["START", "END"] (.pog k tmpl none none branch) := by
      refine ⟨⟨fun _ => rfl, fun _ => rfl⟩, ?_⟩
      intro g hg
      exact absurd hg (by simp)
    have hpost := runBuilder_post hid hS hE fuel _ res hpre hok
    exact acyclic_of_ginv hpost.2.1.inv
  · intro fuel k tmpl graph0 prev0 branch res hpre hok
    have hpost := runBuilder_post hid hS hE fuel _ res hpre hok
    exact acyclic_of_ginv hpost.2.1.inv

/-- Stand-in digest for the C7 witness: collision-free by construction. -/
def idW : String → Nat → String := fun _ k => String.mk ('i' :: 'd' :: List.replicate k 'x')

theorem hid_idW : HId idW (fun i => i) ["START", "END"] := by
  refine ⟨?_, ?_, ?_, ?_⟩
  · intro s1 k1 s2 k2 h
    have h2 := congrArg (fun s => s.data.length) h
    simp only [idW] at h2
    simpa using h2
  · intro i j h
    exact h
  · intro s k
    show 2 ≤ ('i' :: 'd' :: List.replicate k 'x').length
    simp
  · intro s k hmem
    have hh : (idW s k).data.head? = some 'i' := rfl
    rcases List.mem_cons.mp hmem with h | h
    · rw [h] at hh
      exact absurd hh (by decide)
    · rcases List.mem_cons.mp h with h2 | h2
      · rw [h2] at hh
        exact absurd hh (by decide)
      · cases h2

/-- C7 witness: the amended acyclicity applied to a concrete option-template
run under the collision-free stand-in digest. -/
theorem c7_acyclic_witness :
    ∃ res, buildPlotOptionGraph idW (fun i => i) 20 0
        [tnPart, mkParam "选项1" "A: hi", mkParam "剧情1" "B: bye"] none none "None"
      = Except.ok res ∧ Acyclic res.gstate := by
  refine ⟨_, rfl, ?_⟩
  exact (c7_acyclic_amended idW (fun i => i) hid_idW).2.1 20 0
    [tnPart, mkParam "选项1" "A: hi", mkParam "剧情1" "B: bye"] "None" _ rfl

/-- C10: in GraphBuilder.build the enumerate index is always strictly below
len(sec_components), so the dispatch conditional of lines 252-256 always
selects the is_followed_by_other_lines=True call and the elif branch is dead;
consequently every template block goes through
__warpped_build_plot_option_graph with is_followed_by_lines True, which adds
the synthetic END node, an edge into END from every zero-out-degree node of
the inner graph, and reports END — never the true leaves — as the block's
end value. -/
theorem c10_dead_elif_and_end (idFn : String → Nat → String) (rng : Nat → Nat) :
    (∀ i n, i < n → dispatchFlag i n = some true)
    ∧ (∀ fuel k comps res rd,
        warppedBuildPlotOptionGraph idFn rng (fuel + 1) k comps true = .ok res →
        res.ret = some rd →
        rd.endv = .estr "END" ∧ "END" ∈ rd.graph.keys
        ∧ ∃ res1 rd1,
            runBuilder idFn rng fuel (.pog k comps none none "None") = .ok res1
            ∧ res1.ret = some rd1
            ∧ ∀ n ∈ ((outDegList rd1.graph).filter (fun q => q.2 = 0)).map Prod.fst,
                (n, "END") ∈ rd.graph.edges) := by
  constructor
  · intro i n h
    simp [dispatchFlag, h]
  · intro fuel k comps res rd hok hrd
    simp only [warppedBuildPlotOptionGraph, runBuilder] at hok
    match hr1 : runBuilder idFn rng fuel (.pog k comps none none "None") with
    | .error e => rw [hr1] at hok; exact nomatch hok
    | .ok res1 =>
      rw [hr1] at hok
      simp only [except_bind_ok] at hok
      match hret : res1.ret with
      | none => rw [hret] at hok; exact nomatch hok
      | some rd1 =>
        rw [hret] at hok
        dsimp only at hok
        simp only [if_true] at hok
        rw [← Except.ok.inj hok] at hrd
        cases Option.some.inj hrd
        refine ⟨rfl, ?_, res1, rd1, rfl, hret, ?_⟩
        · have h2 : "END" ∈ (addNodePlain rd1.graph "END").keys := addNodePlain_mem _ _
          obtain ⟨ext, hext, _⟩ := addEdgesFrom_nodes (addNodePlain rd1.graph "END")
            ((((outDegList rd1.graph).filter (fun q => q.2 = 0)).map Prod.fst).map
              (fun n => (n, "END")))
          rw [keys_of_nodes_ext hext]
          exact List.mem_append_left _ h2
        · intro n hn
          exact addEdgesFrom_mem_of_mem (List.mem_map_of_mem (fun n2 => (n2, "END")) hn)

/-- Node-type tag written by the option loop (build_graph.py line 105):
an option-tagged dialogue node. -/
def optionAttr : NodeAttrs → Bool
  | .dialogue _ _ nt _ => "option".data.isPrefixOf nt.data
  | _ => false

def optionNodeCount (g : Graph) : Nat :=
  (g.nodes.filter (fun q => optionAttr q.2)).length

/-- The strings Python would iterate over for a parameter value (list
elements, a single string as a one-element list, nothing for None). -/
def valuesOfVal : Val → List String
  | .vstr s => [s]
  | .vlist l => l
  | .vnone => []

/-- The speaker group the extractor computes for a line (build_graph.py
22-27): the stripped text before the first colon when the colon index is at
least one, the default 旅行者 otherwise. -/
def speakerOf (s : String) : String :=
  match firstColonIdx s.data with
  | some i => if 1 ≤ i then pyStrip (pySlice s 0 i) else "旅行者"
  | none => "旅行者"

theorem pyIndex_mem {α : Type} {l : List α} {i : Nat} {a : α}
    (h : pyIndex l i = .ok a) : a ∈ l := by
  unfold pyIndex at h
  match h2 : l.get? i with
  | some b =>
    rw [h2] at h
    cases Except.ok.inj h
    exact List.get?_mem h2
  | none => rw [h2] at h; cases h

theorem ne_empty_of_two_le {s : String} (h : 2 ≤ s.length) : s ≠ "" := by
  intro he
  rw [he] at h
  exact absurd h (by decide)

theorem content_ne_empty (a c : String) : a ++ "_" ++ c ≠ "" := by
  intro h
  have h2 := congrArg String.length h
  rw [String.length_append, String.length_append] at h2
  have h3 : ("_" : String).length = 1 := rfl
  have h4 : ("" : String).length = 0 := rfl
  omega

theorem extractor_survives (idFn : String → Nat → String) (rng : Nat → Nat)
    (k : Nat) {ov : String} (hnb : ¬ pyStrip ov = "") :
    ∃ ct, (getSpeakerNameAndContent idFn rng k ov).1
        = some (idFn ov (rng (k + 1)), speakerOf ov, ct ++ "_" ++ toString (rng k)) := by
  match h : firstColonIdx ov.data with
  | some i =>
    by_cases hi : 1 ≤ i
    · refine ⟨pyStrip (pySliceFrom ov (i + 1)), ?_⟩
      simp [getSpeakerNameAndContent, speakerOf, h, hnb, hi]
    · refine ⟨ov, ?_⟩
      simp [getSpeakerNameAndContent, speakerOf, h, hnb, hi]
  | none =>
    refine ⟨ov, ?_⟩
    simp [getSpeakerNameAndContent, speakerOf, h, hnb]

theorem inDeg_zero_of_fresh {g : Graph} (hg : GInv g) {n : String} (h : n ∉ g.keys) :
    inDeg g n = 0 := by
  unfold inDeg
  have h2 : g.edges.filter (fun e => e.2 = n) = [] := by
    rw [List.filter_eq_nil_iff]
    intro e he
    simp only [decide_eq_true_eq]
    intro h3
    exact h (h3 ▸ hg.tgt_mem e he)
  rw [h2]
  rfl

theorem inDeg_edges_append {g2 g : Graph} {es : List (String × String)}
    (h : g2.edges = g.edges ++ es) (n : String) :
    inDeg g2 n = inDeg g n + (es.filter (fun e => e.2 = n)).length := by
  unfold inDeg
  rw [h, List.filter_append, List.length_append]

theorem addEdgesFrom_all_new : ∀ {g : Graph} {es : List (String × String)},
    es.Nodup → (∀ e ∈ es, e ∉ g.edges) →
    (addEdgesFrom g es).edges = g.edges ++ es := by
  intro g es
  induction es generalizing g with
  | nil => intro _ _; simp [addEdgesFrom]
  | cons e rest ih =>
    intro hnd hnin
    obtain ⟨u, v⟩ := e
    have he1 : (u, v) ∉ g.edges := hnin (u, v) (by simp)
    have hadd : (addEdge g u v).edges = g.edges ++ [(u, v)] := by
      unfold addEdge
      simp only [addNodePlain_edges]
      rw [if_neg (by simpa using he1)]
    have hrest : ∀ e2 ∈ rest, e2 ∉ (addEdge g u v).edges := by
      intro e2 he2
      rw [hadd]
      intro hmem
      rcases List.mem_append.mp hmem with h2 | h2
      · exact hnin e2 (List.mem_cons_of_mem _ he2) h2
      · rw [List.mem_singleton.mp h2] at he2
        exact (List.nodup_cons.mp hnd).1 he2
    have := ih (List.nodup_cons.mp hnd).2 hrest
    show (addEdgesFrom (addEdge g u v) rest).edges = _
    rw [this, hadd, List.append_assoc]
    rfl

theorem zipPrevTo_nodup {prev : PrevV} {id : String} (h : (prevNames prev).Nodup) :
    (zipPrevTo prev id).Nodup := by
  rw [zipPrevTo_eq_map]
  exact h.map (fun a b hab => congrArg Prod.fst hab)

theorem zipPrevTo_filter_tgt (prev : PrevV) (id : String) :
    ((zipPrevTo prev id).filter (fun e => e.2 = id)).length = (prevNames prev).length := by
  rw [zipPrevTo_eq_map]
  induction prevNames prev with
  | nil => rfl
  | cons a l ih => simpa using ih

theorem isPrefixOf_self_append : ∀ (l x : List Char), l.isPrefixOf (l ++ x) = true := by
  intro l x
  induction l with
  | nil => simp [List.isPrefixOf]
  | cons a t ih => simp [List.isPrefixOf, ih]

theorem optionAttr_option (sp ct lastC : String) (br : Option String) :
    optionAttr (.dialogue sp ct ("option" ++ lastC) br) = true := by
  show ("option".data.isPrefixOf ("option" ++ lastC).data) = true
  rw [String.data_append]
  exact isPrefixOf_self_append _ _

theorem optionAttr_plot (sp ct lastC : String) (br : Option String) :
    optionAttr (.dialogue sp ct ("plot" ++ lastC) br) = false := by
  show ("option".data.isPrefixOf ("plot" ++ lastC).data) = false
  rw [String.data_append]
  rfl

theorem optionNodeCount_nodes_append {g g2 : Graph} {ext : List (String × NodeAttrs)}
    (h : g2.nodes = g.nodes ++ ext) :
    optionNodeCount g2
      = optionNodeCount g + (ext.filter (fun q => optionAttr q.2)).length := by
  unfold optionNodeCount
  rw [h, List.filter_append, List.length_append]

theorem filter_optionAttr_nil {ext : List (String × NodeAttrs)}
    (h : ∀ q ∈ ext, optionAttr q.2 = false) :
    ext.filter (fun q => optionAttr q.2) = [] := by
  rw [List.filter_eq_nil_iff]
  intro q hq
  simp [h q hq]

theorem optionsLoop_count {idFn : String → Nat → String} {rng : Nat → Nat}
    {A : List String} (hid : HId idFn rng A) (tmpl : List Part)
    (prev : PrevV) (branch : String) (hnodup : (prevNames prev).Nodup) :
    ∀ (pairRest : List (String × PairInfo)) (g : Graph)
      (opts : List (String × String)) (k : Nat)
      (res : Graph × List (String × String) × Nat),
    GSt idFn rng A g k →
    PrevOK g prev →
    (∀ q ∈ opts, q.2 ∈ g.keys ∧ 2 ≤ q.2.length) →
    (∀ q ∈ pairRest, ∃ option ov, pyIndex tmpl (q.2.option_pos + 1) = .ok option
        ∧ option.value = Val.vstr ov ∧ ¬ pyStrip ov = "" ∧ ¬ speakerOf ov = "") →
    optionsLoop idFn rng tmpl prev branch g opts k pairRest = .ok res →
    optionNodeCount res.1 = optionNodeCount g + pairRest.length
    ∧ ∃ newOpts, res.2.1 = opts ++ newOpts ∧ newOpts.length = pairRest.length
        ∧ ∀ q ∈ newOpts, q.2 ∈ res.1.keys
            ∧ inDeg res.1 q.2 = (prevNames prev).length := by
  intro pairRest
  induction pairRest with
  | nil =>
    intro g opts k res hst hprev hwf hsurv hok
    have hres : (g, opts, k) = res := by
      simpa [optionsLoop] using hok
    rw [← hres]
    exact ⟨by simp, [], by simp, rfl, fun q hq => absurd hq (by simp)⟩
  | cons oi restPair ih =>
    intro g opts k res hst hprev hwf hsurv hok
    obtain ⟨optionName, info⟩ := oi
    obtain ⟨option, ov, hpi, hval, hnb, hsp⟩ := hsurv (optionName, info) (by simp)
    simp only [optionsLoop] at hok
    rw [hpi] at hok
    simp only [except_bind_ok] at hok
    rw [hval] at hok
    dsimp only at hok
    obtain ⟨ct, hsome⟩ := extractor_survives idFn rng k hnb
    rw [hsome] at hok
    dsimp only at hok
    have hall : allNonEmpty (idFn ov (rng (k + 1)), speakerOf ov,
        ct ++ "_" ++ toString (rng k)) = true := by
      simp only [allNonEmpty, Bool.and_eq_true, decide_eq_true_eq]
      refine ⟨⟨?_, hsp⟩, ?_⟩
      · exact ne_empty_of_two_le (hid.len2 _ _)
      · exact content_ne_empty ct _
    rw [hall] at hok
    simp only [if_true] at hok
    match hlc : pyLastChar optionName with
    | .error e => rw [hlc] at hok; cases hok
    | .ok lastC =>
      rw [hlc] at hok
      simp only [except_bind_ok] at hok
      have hk2 : (getSpeakerNameAndContent idFn rng k ov).2 = k + 2 :=
        (extractor_some hsome).2
      rw [hk2] at hok
      have hfresh : idFn ov (rng (k + 1)) ∉ g.keys :=
        fresh_id hid (goodKeys_mono hst.good (by omega)) ov
      have horig : idOrigin idFn rng (k + 2) (idFn ov (rng (k + 1))) :=
        ⟨ov, k + 1, by omega, rfl⟩
      have hlen : 2 ≤ (idFn ov (rng (k + 1))).length := hid.len2 _ _
      obtain ⟨hst3, ⟨ext3, hkeys3, hext3⟩, ⟨newEs, hEs, hEtgt⟩⟩ :=
        fanin_gst hst (by omega) prev hprev hfresh hlen horig
          (.dialogue (speakerOf ov) (ct ++ "_" ++ toString (rng k))
            ("option" ++ lastC) (some branch))
      obtain ⟨ext4, hext4, hq4⟩ := addEdgesFrom_nodes
        (addNodeAttrs g (idFn ov (rng (k + 1)))
          (.dialogue (speakerOf ov) (ct ++ "_" ++ toString (rng k))
            ("option" ++ lastC) (some branch)))
        (zipPrevTo prev (idFn ov (rng (k + 1))))
      have hnodes3 : (addEdgesFrom (addNodeAttrs g (idFn ov (rng (k + 1)))
          (.dialogue (speakerOf ov) (ct ++ "_" ++ toString (rng k))
            ("option" ++ lastC) (some branch)))
          (zipPrevTo prev (idFn ov (rng (k + 1))))).nodes
          = g.nodes ++ ([(idFn ov (rng (k + 1)),
              .dialogue (speakerOf ov) (ct ++ "_" ++ toString (rng k))
                ("option" ++ lastC) (some branch))] ++ ext4) := by
        rw [hext4, addNodeAttrs_nodes_fresh _ hfresh, List.append_assoc]
      have hcount3 : optionNodeCount (addEdgesFrom (addNodeAttrs g (idFn ov (rng (k + 1)))
          (.dialogue (speakerOf ov) (ct ++ "_" ++ toString (rng k))
            ("option" ++ lastC) (some branch)))
          (zipPrevTo prev (idFn ov (rng (k + 1)))))
          = optionNodeCount g + 1 := by
        rw [optionNodeCount_nodes_append hnodes3, List.filter_append,
          @filter_optionAttr_nil ext4 (fun q hq => by rw [(hq4 q hq).1]; rfl)]
        simp [optionAttr_option]
      have hznodup := @zipPrevTo_nodup prev (idFn ov (rng (k + 1))) hnodup
      have hnewe : ∀ e ∈ zipPrevTo prev (idFn ov (rng (k + 1))),
          e ∉ (addNodeAttrs g (idFn ov (rng (k + 1)))
            (.dialogue (speakerOf ov) (ct ++ "_" ++ toString (rng k))
              ("option" ++ lastC) (some branch))).edges := by
        intro e he hmem
        rw [addNodeAttrs_edges] at hmem
        have htgt : e.2 = idFn ov (rng (k + 1)) := by
          rw [zipPrevTo_eq_map] at he
          obtain ⟨n, _, rfl⟩ := List.mem_map.mp he
          rfl
        exact hfresh (htgt ▸ hst.inv.tgt_mem e hmem)
      have hedges3 : (addEdgesFrom (addNodeAttrs g (idFn ov (rng (k + 1)))
          (.dialogue (speakerOf ov) (ct ++ "_" ++ toString (rng k))
            ("option" ++ lastC) (some branch)))
          (zipPrevTo prev (idFn ov (rng (k + 1))))).edges
          = g.edges ++ zipPrevTo prev (idFn ov (rng (k + 1))) := by
        rw [addEdgesFrom_all_new hznodup hnewe, addNodeAttrs_edges]
      have hindeg3 : inDeg (addEdgesFrom (addNodeAttrs g (idFn ov (rng (k + 1)))
          (.dialogue (speakerOf ov) (ct ++ "_" ++ toString (rng k))
            ("option" ++ lastC) (some branch)))
          (zipPrevTo prev (idFn ov (rng (k + 1))))) (idFn ov (rng (k + 1)))
          = (prevNames prev).length := by
        rw [inDeg_edges_append hedges3, zipPrevTo_filter_tgt,
          inDeg_zero_of_fresh hst.inv hfresh]
        omega
      have hmem3 : idFn ov (rng (k + 1))
          ∈ (addEdgesFrom (addNodeAttrs g (idFn ov (rng (k + 1)))
            (.dialogue (speakerOf ov) (ct ++ "_" ++ toString (rng k))
              ("option" ++ lastC) (some branch)))
            (zipPrevTo prev (idFn ov (rng (k + 1))))).keys := by
        rw [hkeys3]
        exact List.mem_append_left _ (List.mem_append_right _ (by simp))
      have hsub3 : ∀ n ∈ g.keys,
          n ∈ (addEdgesFrom (addNodeAttrs g (idFn ov (rng (k + 1)))
            (.dialogue (speakerOf ov) (ct ++ "_" ++ toString (rng k))
              ("option" ++ lastC) (some branch)))
            (zipPrevTo prev (idFn ov (rng (k + 1))))).keys := by
        intro n hn
        rw [hkeys3]
        exact List.mem_append_left _ (List.mem_append_left _ hn)
      have hprev3 : PrevOK (addEdgesFrom (addNodeAttrs g (idFn ov (rng (k + 1)))
          (.dialogue (speakerOf ov) (ct ++ "_" ++ toString (rng k))
            ("option" ++ lastC) (some branch)))
          (zipPrevTo prev (idFn ov (rng (k + 1))))) prev :=
        fun n hn hl => hsub3 n (hprev n hn hl)
      have hopts3 : ∀ q ∈ opts ++ [(optionName, idFn ov (rng (k + 1)))],
          q.2 ∈ (addEdgesFrom (addNodeAttrs g (idFn ov (rng (k + 1)))
            (.dialogue (speakerOf ov) (ct ++ "_" ++ toString (rng k))
              ("option" ++ lastC) (some branch)))
            (zipPrevTo prev (idFn ov (rng (k + 1))))).keys ∧ 2 ≤ q.2.length := by
        intro q hq
        rcases List.mem_append.mp hq with h2 | h2
        · obtain ⟨hm, hl⟩ := hwf q h2
          exact ⟨hsub3 _ hm, hl⟩
        · rw [List.mem_singleton.mp h2]
          exact ⟨hmem3, hlen⟩
      have hsurv2 : ∀ q ∈ restPair, ∃ option ov,
          pyIndex tmpl (q.2.option_pos + 1) = .ok option
          ∧ option.value = Val.vstr ov ∧ ¬ pyStrip ov = "" ∧ ¬ speakerOf ov = "" :=
        fun q hq => hsurv q (List.mem_cons_of_mem _ hq)
      have hihres := ih _ (opts ++ [(optionName, idFn ov (rng (k + 1)))]) (k + 2) res
        hst3 hprev3 hopts3 hsurv2 hok
      obtain ⟨hcountR, newOpts2, hopeq, hlenR, hinR⟩ := hihres
      obtain ⟨hstR, hkR, ⟨extR, hkeysR, _⟩, hoptsR, hindR⟩ :=
        optionsLoop_post hid tmpl prev branch restPair _ _ (k + 2) res hst3 hprev3
          hopts3 hok
      refine ⟨?_, (optionName, idFn ov (rng (k + 1))) :: newOpts2, ?_, ?_, ?_⟩
      · rw [hcountR, hcount3, List.length_cons]
        omega
      · rw [hopeq, List.append_assoc]
        rfl
      · simp [hlenR]
      · intro q hq
        rcases List.mem_cons.mp hq with rfl | hq2
        · refine ⟨?_, ?_⟩
          · rw [hkeysR]
            exact List.mem_append_left _ hmem3
          · rw [hindR _ hmem3]
            exact hindeg3
        · exact hinR q hq2

theorem plots_no_new_option {idFn : String → Nat → String} {rng : Nat → Nat}
    {A : List String} (hid : HId idFn rng A)
    (hS : "START" ∈ A) (hE : "END" ∈ A) :
    ∀ fuel : Nat,
    (∀ (k : Nat) (tmpl : List Part) (graph : Graph) (branch : String)
        (opts : List (String × String)) (pairRest : List (String × PairInfo))
        (res : BRes),
      GSt idFn rng A graph k →
      (∀ q ∈ opts, q.2 ∈ graph.keys ∧ 2 ≤ q.2.length) →
      (∀ p ∈ tmpl, ∀ v ∈ valuesOfVal p.value, placeholderMatch v = false) →
      runBuilder idFn rng fuel (.plots k tmpl graph branch opts pairRest) = .ok res →
      ∃ ext, res.gstate.nodes = graph.nodes ++ ext
        ∧ ∀ q ∈ ext, optionAttr q.2 = false)
    ∧ (∀ (k : Nat) (graph : Graph) (branch plotName : String)
        (nested : List (String × List Part)) (prev : PrevV) (values : List String)
        (res : BRes),
      GSt idFn rng A graph k → PrevOK graph prev →
      (∀ v ∈ values, placeholderMatch v = false) →
      runBuilder idFn rng fuel (.plotValues k graph branch plotName nested prev values)
        = .ok res →
      ∃ ext, res.gstate.nodes = graph.nodes ++ ext
        ∧ ∀ q ∈ ext, optionAttr q.2 = false) := by
  intro fuel
  induction fuel with
  | zero =>
    constructor
    · intro k tmpl graph branch opts pairRest res _ _ _ hok
      exact nomatch hok
    · intro k graph branch plotName nested prev values res _ _ _ hok
      exact nomatch hok
  | succ fuel ih =>
    constructor
    · intro k tmpl graph branch opts pairRest res hst hwf htmpl hok
      match pairRest with
      | [] =>
        have hres : (⟨none, graph, k⟩ : BRes) = res := by
          simp only [runBuilder] at hok
          exact Except.ok.inj hok
        rw [← hres]
        exact ⟨[], by simp, fun q hq => absurd hq (by simp)⟩
      | (optionName, info) :: restPair =>
        simp only [runBuilder] at hok
        match hpp : info.plot_pos with
        | none =>
          rw [hpp] at hok
          dsimp only at hok
          exact ih.1 k tmpl graph branch opts restPair res hst hwf htmpl hok
        | some plotPos =>
          rw [hpp] at hok
          dsimp only at hok
          match hpi : pyIndex tmpl (plotPos + 1) with
          | .error e => rw [hpi] at hok; exact nomatch hok
          | .ok pairedPlot =>
            rw [hpi] at hok
            simp only [except_bind_ok] at hok
            have hpp2 : pairedPlot ∈ tmpl := pyIndex_mem hpi
            have main : ∀ (values : List String),
                (∀ v ∈ values, placeholderMatch v = false) →
                (match assocGet opts optionName with
                  | some nid =>
                    (do
                      let res1 ← runBuilder idFn rng fuel
                        (.plotValues k graph branch pairedPlot.name pairedPlot.nestedTemp
                          (PrevV.plist [nid]) values)
                      runBuilder idFn rng fuel
                        (.plots res1.k tmpl res1.gstate branch opts restPair))
                  | none => Except.error "KeyError: options_to_be_connected")
                  = Except.ok res →
                ∃ ext, res.gstate.nodes = graph.nodes ++ ext
                  ∧ ∀ q ∈ ext, optionAttr q.2 = false := by
              intro values hvals hok2
              match hga : assocGet opts optionName with
              | none => rw [hga] at hok2; exact nomatch hok2
              | some nid =>
                rw [hga] at hok2
                dsimp only at hok2
                match hr1 : runBuilder idFn rng fuel
                    (.plotValues k graph branch pairedPlot.name pairedPlot.nestedTemp
                      (PrevV.plist [nid]) values) with
                | .error e => rw [hr1] at hok2; exact nomatch hok2
                | .ok res1 =>
                  rw [hr1] at hok2
                  simp only [except_bind_ok] at hok2
                  obtain ⟨hnidm, hnidl⟩ := hwf _ (assocGet_some_mem hga)
                  have hprev : PrevOK graph (PrevV.plist [nid]) := by
                    intro n hn _
                    rw [List.mem_singleton.mp hn]
                    exact hnidm
                  obtain ⟨ext1, hn1, hopt1⟩ := ih.2 k graph branch pairedPlot.name
                    pairedPlot.nestedTemp (PrevV.plist [nid]) values res1
                    hst hprev hvals hr1
                  have hpost1 := runBuilder_post hid hS hE fuel
                    (.plotValues k graph branch pairedPlot.name pairedPlot.nestedTemp
                      (PrevV.plist [nid]) values) res1
                    (show PreOf idFn rng A _ from ⟨hst, hprev⟩) hr1
                  obtain ⟨hk1, hst1, ⟨ext2, hke2, _⟩, _⟩ := hpost1
                  have hwf2 : ∀ q ∈ opts, q.2 ∈ res1.gstate.keys ∧ 2 ≤ q.2.length := by
                    intro q hq
                    obtain ⟨hm, hl⟩ := hwf q hq
                    exact ⟨by rw [hke2]; exact List.mem_append_left _ hm, hl⟩
                  obtain ⟨ext3, hn3, hopt3⟩ := ih.1 res1.k tmpl res1.gstate branch opts
                    restPair res hst1 hwf2 htmpl hok2
                  refine ⟨ext1 ++ ext3, ?_, ?_⟩
                  · rw [hn3, hn1, List.append_assoc]
                  · intro q hq
                    rcases List.mem_append.mp hq with h2 | h2
                    · exact hopt1 q h2
                    · exact hopt3 q h2
            match hv : pairedPlot.value with
            | .vnone => rw [hv] at hok; exact nomatch hok
            | .vstr s =>
              rw [hv] at hok
              dsimp only at hok
              refine main [s] ?_ hok
              intro v hv2
              rw [List.mem_singleton.mp hv2]
              have := htmpl pairedPlot hpp2 s (by rw [hv]; simp [valuesOfVal])
              exact this
            | .vlist l =>
              rw [hv] at hok
              dsimp only at hok
              refine main l ?_ hok
              intro v hv2
              exact htmpl pairedPlot hpp2 v (by rw [hv]; simpa [valuesOfVal] using hv2)
    · intro k graph branch plotName nested prev values res hst hprev hvals hok
      match values with
      | [] =>
        have hres : (⟨none, graph, k⟩ : BRes) = res := by
          simp only [runBuilder] at hok
          exact Except.ok.inj hok
        rw [← hres]
        exact ⟨[], by simp, fun q hq => absurd hq (by simp)⟩
      | value :: vrest =>
        simp only [runBuilder] at hok
        have hpm : placeholderMatch value = false := hvals value (List.mem_cons_self _ _)
        rw [hpm] at hok
        simp only [Bool.false_eq_true, if_false] at hok
        have hvrest : ∀ v ∈ vrest, placeholderMatch v = false :=
          fun v hv => hvals v (List.mem_cons_of_mem _ hv)
        match hr : (getSpeakerNameAndContent idFn rng k value).1 with
        | none =>
          rw [hr] at hok
          dsimp only at hok
          have hkb := extractor_k_between idFn rng k value
          exact ih.2 _ graph branch plotName nested prev vrest res
            (gst_mono hst hkb.1) hprev hvrest hok
        | some t =>
          rw [hr] at hok
          dsimp only at hok
          by_cases hall : allNonEmpty t = true
          · rw [hall] at hok
            simp only [if_true] at hok
            match hlc : pyLastChar plotName with
            | .error e => rw [hlc] at hok; exact nomatch hok
            | .ok lastC =>
              rw [hlc] at hok
              simp only [except_bind_ok] at hok
              obtain ⟨hid1, hk2e⟩ := extractor_some hr
              rw [hk2e] at hok
              have hfresh : t.1 ∉ graph.keys := by
                rw [hid1]
                exact fresh_id hid (goodKeys_mono hst.good (by omega)) value
              have horig : idOrigin idFn rng (k + 2) t.1 := ⟨value, k + 1, by omega, hid1⟩
              have hlen : 2 ≤ t.1.length := by rw [hid1]; exact hid.len2 _ _
              obtain ⟨hst3, ⟨ext3, hkeys3, _⟩, _⟩ :=
                fanin_gst hst (by omega) prev hprev hfresh hlen horig
                  (.dialogue t.2.1 t.2.2 ("plot" ++ lastC) (some branch))
              obtain ⟨ext4, hext4, hq4⟩ := addEdgesFrom_nodes
                (addNodeAttrs graph t.1
                  (.dialogue t.2.1 t.2.2 ("plot" ++ lastC) (some branch)))
                (zipPrevTo prev t.1)
              have hnodes3 : (addEdgesFrom (addNodeAttrs graph t.1
                  (.dialogue t.2.1 t.2.2 ("plot" ++ lastC) (some branch)))
                  (zipPrevTo prev t.1)).nodes
                  = graph.nodes ++ ([(t.1, NodeAttrs.dialogue t.2.1 t.2.2
                      ("plot" ++ lastC) (some branch))] ++ ext4) := by
                rw [hext4, addNodeAttrs_nodes_fresh _ hfresh, List.append_assoc]
              have hmem3 : t.1 ∈ (addEdgesFrom (addNodeAttrs graph t.1
                  (.dialogue t.2.1 t.2.2 ("plot" ++ lastC) (some branch)))
                  (zipPrevTo prev t.1)).keys := by
                rw [hkeys3]
                exact List.mem_append_left _ (List.mem_append_right _ (by simp))
              have hprev3 : PrevOK (addEdgesFrom (addNodeAttrs graph t.1
                  (.dialogue t.2.1 t.2.2 ("plot" ++ lastC) (some branch)))
                  (zipPrevTo prev t.1)) (.plist [t.1]) := by
                intro n hn _
                rw [List.mem_singleton.mp hn]
                exact hmem3
              obtain ⟨ext5, hn5, hopt5⟩ := ih.2 (k + 2) _ branch plotName nested
                (.plist [t.1]) vrest res hst3 hprev3 hvrest hok
              refine ⟨[(t.1, NodeAttrs.dialogue t.2.1 t.2.2
                  ("plot" ++ lastC) (some branch))] ++ ext4 ++ ext5, ?_, ?_⟩
              · rw [hn5, hnodes3, List.append_assoc]
              · intro q hq
                rcases List.mem_append.mp hq with h2 | h2
                · rcases List.mem_append.mp h2 with h3 | h3
                  · rw [List.mem_singleton.mp h3]
                    exact optionAttr_plot t.2.1 t.2.2 lastC (some branch)
                  · rw [(hq4 q h3).1]
                    rfl
                · exact hopt5 q h2
          · have hallF : allNonEmpty t = false := by
              cases h2 : allNonEmpty t
              · rfl
              · exact absurd h2 hall
            rw [hallF] at hok
            simp only [Bool.false_eq_true, if_false] at hok
            have hkb := extractor_k_between idFn rng k value
            exact ih.2 _ graph branch plotName nested prev vrest res
              (gst_mono hst hkb.1) hprev hvrest hok

/-- C6 (amended): for an option template all of whose choice values are
strings that survive extraction (nonblank after trimming, with a nonempty
speaker group) and whose continuation values contain no nested-template
placeholder, a top-level builder invocation (frontier ["START"], one entry)
creates exactly one option-tagged node per entry of the choice/continuation
pair map, and each of those nodes has in-degree equal to the frontier size
one.  The claim's unqualified version fails for a nonempty choice value whose
speaker group strips to blank, which creates no node (the counterexample). -/
theorem c6_option_nodes_amended (idFn : String → Nat → String) (rng : Nat → Nat)
    (hid : HId idFn rng ["START", "END"]) :
    ∀ (fuel k : Nat) (p0 : Part) (rest : List Part)
      (pair : List (String × PairInfo)) (res : BRes),
    p0.ptype = "template_name" → p0.content = Val.vstr "剧情选项" →
    findOptionPlotPair rest = .ok pair →
    (∀ q ∈ pair, ∃ option ov, pyIndex (p0 :: rest) (q.2.option_pos + 1) = .ok option
        ∧ option.value = Val.vstr ov ∧ ¬ pyStrip ov = "" ∧ ¬ speakerOf ov = "") →
    (∀ p ∈ p0 :: rest, ∀ v ∈ valuesOfVal p.value, placeholderMatch v = false) →
    buildPlotOptionGraph idFn rng fuel k (p0 :: rest) none none "None" = .ok res →
    optionNodeCount res.gstate = pair.length
    ∧ ∃ newOpts : List (String × String), newOpts.length = pair.length
        ∧ ∀ q ∈ newOpts, q.2 ∈ res.gstate.keys ∧ inDeg res.gstate q.2 = 1 := by
  have hS : "START" ∈ ["START", "END"] := by decide
  have hE : "END" ∈ ["START", "END"] := by decide
  intro fuel k p0 rest pair res hty hct hfp hsurv htmpl hok
  match fuel with
  | 0 => exact nomatch hok
  | fuel + 1 =>
    unfold buildPlotOptionGraph at hok
    dsimp only [runBuilder, Option.getD, prevHead, Bind.bind, Except.bind, pure,
      Except.pure] at hok
    rw [show addNodePlain Graph.empty "START"
      = Graph.mk [("START", NodeAttrs.plain)] [] from rfl] at hok
    rw [if_pos ⟨hty, hct⟩, hfp] at hok
    dsimp only at hok
    have hbk : (Graph.mk [("START", NodeAttrs.plain)] []).keys = ["START"] := rfl
    have hstb : GSt idFn rng ["START", "END"]
        (Graph.mk [("START", NodeAttrs.plain)] []) k := by
      refine ⟨⟨?_, ?_, ?_, ?_⟩, ?_, ?_⟩
      · intro e he
        exact absurd he (by simp)
      · intro e he
        exact absurd he (by simp)
      · intro e he
        exact absurd he (by simp)
      · intro e he hl
        exact absurd he (by simp)
      · intro n hn
        rw [hbk] at hn
        rw [List.mem_singleton.mp hn]
        exact Or.inr (Or.inl hS)
      · intro q hq
        exact absurd hq (by simp [branchAttrPairs, branchOf])
    have hprevb : PrevOK (Graph.mk [("START", NodeAttrs.plain)] [])
        (PrevV.plist ["START"]) := by
      intro n hn _
      rw [List.mem_singleton.mp hn, hbk]
      simp
    match hopt : optionsLoop idFn rng (p0 :: rest) (PrevV.plist ["START"]) "None"
        (Graph.mk [("START", NodeAttrs.plain)] []) [] k pair with
    | .error e => rw [hopt] at hok; exact nomatch hok
    | .ok trip =>
      obtain ⟨g1, opts, k1⟩ := trip
      rw [hopt] at hok
      dsimp only at hok
      match hpl : runBuilder idFn rng fuel
          (.plots k1 (p0 :: rest) g1 "None" opts pair) with
      | .error e => rw [hpl] at hok; exact nomatch hok
      | .ok res2 =>
        rw [hpl] at hok
        dsimp only at hok
        have hnodupP : (prevNames (PrevV.plist ["START"])).Nodup := by
          simp [prevNames]
        obtain ⟨hcount1, newOpts, hopeq, hlen1, hin1⟩ :=
          optionsLoop_count hid (p0 :: rest) (PrevV.plist ["START"]) "None" hnodupP
            pair _ [] k (g1, opts, k1) hstb hprevb
            (fun q hq => absurd hq (by simp)) hsurv hopt
        obtain ⟨hst1, hk1, ⟨ext1, hke1, _⟩, hopts1, hind1⟩ :=
          optionsLoop_post hid (p0 :: rest) (PrevV.plist ["START"]) "None" pair _ [] k
            (g1, opts, k1) hstb hprevb (fun q hq => absurd hq (by simp)) hopt
        have hst1' : GSt idFn rng ["START", "END"] g1 k1 := hst1
        have hopts1' : ∀ q ∈ opts, q.2 ∈ g1.keys ∧ 2 ≤ q.2.length := hopts1
        have hcount1' : optionNodeCount g1
            = optionNodeCount (Graph.mk [("START", NodeAttrs.plain)] [])
              + pair.length := hcount1
        have hlen1' : newOpts.length = pair.length := hlen1
        have hin1' : ∀ q ∈ newOpts, q.2 ∈ g1.keys ∧ inDeg g1 q.2 = 1 := by
          intro q hq
          obtain ⟨hm, hi⟩ := hin1 q hq
          exact ⟨hm, hi⟩
        obtain ⟨ext6, hn6, hopt6⟩ := (plots_no_new_option hid hS hE fuel).1 k1
          (p0 :: rest) g1 "None" opts pair res2 hst1' hopts1' htmpl hpl
        have hpost2 := runBuilder_post hid hS hE fuel
          (.plots k1 (p0 :: rest) g1 "None" opts pair) res2
          (show PreOf idFn rng ["START", "END"] _ from ⟨hst1', hopts1'⟩) hpl
        obtain ⟨hk2, hst2, ⟨ext7, hke7, _⟩, hind2⟩ := hpost2
        rw [← Except.ok.inj hok]
        constructor
        · show optionNodeCount res2.gstate = pair.length
          rw [optionNodeCount_nodes_append hn6, filter_optionAttr_nil hopt6]
          have hc0 : optionNodeCount (Graph.mk [("START", NodeAttrs.plain)] []) = 0 := rfl
          simp only [List.length_nil]
          omega
        · refine ⟨newOpts, hlen1', ?_⟩
          intro q hq
          obtain ⟨hmq, hiq⟩ := hin1' q hq
          refine ⟨?_, ?_⟩
          · show q.2 ∈ res2.gstate.keys
            rw [hke7]
            exact List.mem_append_left _ hmq
          · show inDeg res2.gstate q.2 = 1
            rw [hind2 q.2 hmq]
            exact hiq

def c6parts : List Part := [tnPart, mkParam "选项1" " :hi"]

/-- C6 counterexample: the choice 选项1 has the non-empty value " :hi", so the
pair map has one entry; but the speaker group before the colon strips to
blank, all() rejects the extractor triple and no option node is created:
0 option nodes for 1 choice name. -/
theorem c6_blank_speaker_counterexample :
    findOptionPlotPair [mkParam "选项1" " :hi"] = .ok [("选项1", ⟨none, none, 0⟩)]
    ∧ (" :hi" : String) ≠ ""
    ∧ ((buildPlotOptionGraph idStub rngA 20 0 c6parts none none "None").map
        (fun r => optionNodeCount r.gstate)) = .ok 0
    ∧ (1 : Nat) ≠ 0 := ⟨rfl, by decide, rfl, by decide⟩

def c6wparts : List Part := [tnPart, mkParam "选项1" "A: hi", mkParam "剧情1" "B: bye"]

/-- C6 witness: the amended count and in-degree statement applied to a
concrete surviving template, discharging every hypothesis there. -/
theorem c6_option_nodes_witness :
    ∃ res, buildPlotOptionGraph idW (fun i => i) 20 0 c6wparts none none "None"
        = .ok res
      ∧ optionNodeCount res.gstate = 1
      ∧ ∃ newOpts : List (String × String), newOpts.length = 1
          ∧ ∀ q ∈ newOpts, q.2 ∈ res.gstate.keys ∧ inDeg res.gstate q.2 = 1 := by
  refine ⟨_, rfl, ?_⟩
  have h := c6_option_nodes_amended idW (fun i => i) hid_idW 20 0 tnPart
    [mkParam "选项1" "A: hi", mkParam "剧情1" "B: bye"]
    [("选项1", ⟨some "剧情1", some 1, 0⟩)] _ rfl rfl rfl
    (by
      intro q hq
      rw [List.mem_singleton.mp hq]
      exact ⟨mkParam "选项1" "A: hi", "A: hi", rfl, rfl, by decide, by decide⟩)
    (by decide) rfl
  exact ⟨h.1, h.2⟩

/-- Tokens of ParseOptionTemplate (parse.py 88-96 and 118-123): a template
name or plain chunk with its stripped content, or a parameter with its name,
its nested-template spans and its stripped raw value. -/
inductive RawTok where
  | tname (content : String)
  | common (content : String)
  | tparam (name : String) (spans : List (Nat × Nat)) (value : String)
deriving DecidableEq, Repr

/-- Python slice code[a:b] on a character list. -/
def pySubList (code : List Char) (a b : Nat) : List Char :=
  (code.drop a).take (b - a)

/-- The while of parse.py line 36: position of the next '=' at or after i
(IndexError past the end). -/
def findEqFrom (code : List Char) : Nat → Nat → Except String Nat
  | 0, _ => .error "RecursionError"
  | fuel + 1, i =>
    match code.get? i with
    | none => .error "IndexError: string index out of range"
    | some c => if c = '=' then .ok i else findEqFrom code fuel (i + 1)

/-- The while of parse.py lines 116-117: position of the next punctuator
(IndexError past the end). -/
def scanNonPunct (code : List Char) : Nat → Nat → Except String Nat
  | 0, _ => .error "RecursionError"
  | fuel + 1, i =>
    match code.get? i with
    | none => .error "IndexError: string index out of range"
    | some c =>
      if c = '{' ∨ c = '}' ∨ c = '|' ∨ c = '=' then .ok i
      else scanNonPunct code fuel (i + 1)

/-- The value loop of ParseOptionTemplate._get_param_val (parse.py 45-84) on
code2 = code[start:]: nested-brace tracking with the double skips of the
source, returning the collected nested_temp_spans and the final pos.  Every
non-terminal step advances pos, so the fuel used by the callers suffices. -/
def paramValLoop (code2 : List Char) :
    Nat → Option Nat → List (Nat × Nat) → Nat → Nat →
    Except String (List (Nat × Nat) × Nat)
  | 0, _, _, _, _ => .error "RecursionError"
  | fuel + 1, nts, spans, counter, pos =>
    match code2.get? pos with
    | none => .ok (spans, pos)
    | some char =>
      if char = '{' then
        paramValLoop code2 fuel (some (nts.getD pos)) spans (counter + 1) (pos + 2)
      else if char = '}' then
        let cp := if 0 < counter then (counter - 1, pos + 2) else (counter, pos)
        if cp.1 = 0 then
          match nts with
          | some s => paramValLoop code2 fuel none (spans ++ [(s, cp.2)]) cp.1 cp.2
          | none =>
            match code2.get? (cp.2 + 1) with
            | none => .error "IndexError: string index out of range"
            | some c2 =>
              if c2 ≠ '}' then paramValLoop code2 fuel none spans cp.1 (cp.2 + 1)
              else .ok (spans, cp.2)
        else paramValLoop code2 fuel nts spans cp.1 cp.2
      else if char = '|' ∧ counter = 0 then .ok (spans, pos)
      else paramValLoop code2 fuel nts spans counter (pos + 1)

/-- ParseOptionTemplate._get_param_val (parse.py 35-96): the parameter name
up to '=', then the value with its nested spans; the token holds the
stripped value. -/
def getParamVal (code : List Char) (start endp : Nat) :
    Except String (RawTok × Nat) := do
  let eqIdx ← findEqFrom code (code.length + 1) endp
  let paramName := String.mk (pySubList code (start + 1) eqIdx)
  let code2 := code.drop (eqIdx + 1)
  let (spans, pos) ← paramValLoop code2 (code2.length + 2) none [] 0 0
  pure (.tparam paramName spans (pyStrip (String.mk (code2.take pos))), eqIdx + 1 + pos)

/-- ParseOptionTemplate._parse (parse.py 98-127).  Char.isWhitespace stands
in for Python str.isspace (they agree on the blank characters used here). -/
def parseTok (code : List Char) (start endp : Nat) (inT : Bool) :
    Except String (Option RawTok × Nat × Bool) :=
  match code.get? endp with
  | none => .error "IndexError: string index out of range"
  | some c =>
    if c.isWhitespace then .ok (none, endp + 1, inT)
    else if c = '|' ∧ inT then do
      let (tok, e2) ← getParamVal code start (endp + 1)
      pure (some tok, e2, inT)
    else if c = '{' then .ok (none, endp + 2, true)
    else if ¬(c = '{' ∨ c = '}' ∨ c = '|' ∨ c = '=') then do
      let e2 ← scanNonPunct code (code.length + 1) (endp + 1)
      pure (some (if inT then RawTok.tname (pyStrip (String.mk (pySubList code start e2)))
                  else RawTok.common (pyStrip (String.mk (pySubList code start e2)))),
        e2, inT)
    else if c = '}' then .ok (none, endp + 1, inT)
    else .error ("ValueError: Not supported character: " ++ String.mk [c])

/-- ParseOptionTemplate.scan (parse.py 129-135): start follows end after
each token. -/
def scanAux (code : List Char) :
    Nat → Nat → Bool → List RawTok → Except String (List RawTok)
  | 0, _, _, _ => .error "RecursionError"
  | fuel + 1, endp, inT, acc =>
    if endp < code.length then do
      let (tok?, e2, inT2) ← parseTok code endp endp inT
      match tok? with
      | some t => scanAux code fuel e2 inT2 (acc ++ [t])
      | none => scanAux code fuel e2 inT2 acc
    else .ok acc

def scanTemplate (s : String) : Except String (List RawTok) :=
  scanAux s.data (s.data.length + 1) 0 false []

/-- Position of the first character c with p c in a character list. -/
def firstGt : List Char → Option Nat
  | [] => none
  | c :: rest => if c = '>' then some 0 else (firstGt rest).map (fun i => i + 1)

/-- One leftmost match of the Parse.__clean_string pattern
":|<br>|\\*|----|<[^>]+>" (parse.py 161-172) at the head of l: the matched
length.  Alternatives are tried in the pattern's order, as re.sub does. -/
def cleanHead (l : List Char) : Option Nat :=
  match l with
  | ':' :: _ => some 1
  | '<' :: 'b' :: 'r' :: '>' :: _ => some 4
  | '*' :: _ => some 1
  | '-' :: '-' :: '-' :: '-' :: _ => some 4
  | '<' :: rest =>
    match firstGt rest with
    | some j => if 1 ≤ j then some (j + 2) else none
    | none => none
  | _ => none

def cleanChars : Nat → List Char → List Char
  | 0, l => l
  | fuel + 1, l =>
    match l with
    | [] => []
    | c :: rest =>
      match cleanHead l with
      | some n => cleanChars fuel (l.drop n)
      | none => c :: cleanChars fuel rest

/-- Parse.__clean_string (parse.py 161-172): delete every occurrence of the
unwanted snippets, leftmost first — in particular every ASCII colon. -/
def cleanString (s : String) : String := ⟨cleanChars s.data.length s.data⟩

/-- Split a character list on newlines (Python str.split of parse.py 181). -/
def splitNl : List Char → List (List Char)
  | [] => [[]]
  | c :: rest =>
    if c = '\n' then [] :: splitNl rest
    else
      match splitNl rest with
      | h :: t => (c :: h) :: t
      | [] => [[c]]

/-- Parse.__sequence_string (parse.py 174-181): strip, clean, then a single
string (none when empty) or the list of nonempty lines. -/
def sequenceString (s : String) : Option Val :=
  let cl := cleanString (pyStrip s)
  if '\n' ∈ cl.data then
    some (.vlist ((splitNl cl.data).filter (fun p => p ≠ []) |>.map
      (fun p => String.mk p)))
  else if cl = "" then none else some (.vstr cl)

/-- Python truthiness of a sequence_string result ('' , [] and None are
falsy), as the walrus call sites use it. -/
def valTruthy : Option Val → Bool
  | none => false
  | some (.vstr s) => s ≠ ""
  | some (.vlist l) => l ≠ []
  | some .vnone => false

/-- Stand-in for Parse.__numeric_hash (parse.py 183-190): the first ten
decimal digits of a sha256 integer.  The digest itself is an external
deterministic function of the span text; the claims depend only on that
determinism and on the ten-decimal-digit shape, so a concrete deterministic
stand-in with exactly that shape is used. -/
def numericHash (s : String) : String :=
  ⟨(toString (s.data.foldl (fun a c => (a * 131 + c.toNat) % (10 ^ 10)) 7
      + 10 ^ 10)).data.drop 1⟩

/-- Modelled from the spec and the parse.py call sites: the name of the one
top-level template of a nested span string, as wikitextparser (an external
library, not part of src/) reports it for the span strings the scanner
produces, which start with two braces. -/
def wtpTopName (s : String) : Option String :=
  match s.data with
  | '{' :: '{' :: rest =>
    some (pyStrip (String.mk (rest.takeWhile (fun c => ¬(c = '|' ∨ c = '}')))))
  | _ => none

/-- Parse.__ignored_templates (parse.py 141-153). -/
def ignoredTemplates : List String :=
  ["任务", "面包屑", "JS", "左侧目录", "提示", "任务描述", "图标", "黑幕",
   "图片放大", "提示", "悬浮框"]

def isPOTTok : RawTok → Bool
  | .tname c => c = "剧情选项"
  | _ => false

/-- A raw scan token as a component dict (the shape stored when a nested
span contains no top-level template, parse.py 230 with no loop iteration). -/
def rawTokToPart : RawTok → Part
  | .tname c => .mk "template_name" "" (.vstr c) .vnone []
  | .common c => .mk "common_string" "" (.vstr c) .vnone []
  | .tparam n _ v => .mk "template" n .vnone (.vstr v) []

def spanText (value : List Char) (sp : Nat × Nat) : String :=
  String.mk ((value.drop sp.1).take (sp.2 - sp.1))

/-- One call frame of the modelled traverse_nested_template recursion
(parse.py 195-254): one token, a token list, the nested-span handler
(parse.py 229-246: scan, the option-template test, the external-template
fallback with the ignore list), and the span-splicing loop (parse.py
213-249). -/
inductive TCall where
  | tok (t : RawTok)
  | toks (ts : List RawTok)
  | nested (s : String)
  | splice (value : List Char) (spans : List (Nat × Nat)) (sliceStart : Nat)
      (accS : List Char) (accN : List (String × List Part))

inductive TRes where
  | part (p : Part)
  | parts (ps : List Part)
  | nest (o : Option (List Part))
  | spl (s : List Char) (n : List (String × List Part))

/-- The modelled Parse.__parse_plot_option_temp traversal (parse.py
192-260).  Fuel bounds the nesting depth; the tabber, 折叠 and 颜色 handlers
of Parse.__handle_temp parse through the external wikitextparser library and
are not modelled (they map to the NotImplementedError of parse.py 342);
every claim below exercises only the ignore list and the option template. -/
def runTraverse (fuel : Nat) : TCall → Except String TRes := fun c =>
  match fuel, c with
  | 0, _ => .error "RecursionError"
  | fuel + 1, .tok t =>
    match t with
    | .tname c => .ok (.part (.mk "template_name" "" (.vstr c) .vnone []))
    | .common _ => .error "KeyError: nested_temp_spans"
    | .tparam name spans value =>
      if spans = [] then
        let v2 :=
          match sequenceString value with
          | some v => if valTruthy (some v) then v else .vstr value
          | none => .vstr value
        .ok (.part (.mk "template" name .vnone v2 []))
      else do
        match ← runTraverse fuel (.splice value.data spans 0 [] []) with
        | .spl out nested =>
          let v2 :=
            match sequenceString (String.mk out) with
            | some v => v
            | none => .vnone
          .ok (.part (.mk "template" name .vnone v2 nested))
        | _ => .error "model: unexpected frame result"
  | fuel + 1, .toks ts =>
    match ts with
    | [] => .ok (.parts [])
    | t :: rest => do
      match ← runTraverse fuel (.tok t), ← runTraverse fuel (.toks rest) with
      | .part p, .parts ps => .ok (.parts (p :: ps))
      | _, _ => .error "model: unexpected frame result"
  | fuel + 1, .nested s => do
    let toks ← scanTemplate s
    if toks.any isPOTTok then
      match ← runTraverse fuel (.toks toks) with
      | .parts ps => .ok (.nest (some ps))
      | _ => .error "model: unexpected frame result"
    else
      match wtpTopName s with
      | some nm =>
        if nm ∈ ignoredTemplates then .ok (.nest none)
        else .error ("NotImplementedError: " ++ nm ++ " has no parsing function")
      | none => .ok (.nest (some (toks.map rawTokToPart)))
  | fuel + 1, .splice value spans sliceStart accS accN =>
    match spans with
    | [] => .ok (.spl (accS ++ value.drop sliceStart) accN)
    | sp :: rest => do
      let nstr := spanText value sp
      let md5 := numericHash nstr
      match ← runTraverse fuel (.nested nstr) with
      | .nest parsed? =>
        let accN2 :=
          match parsed? with
          | some ps => assocSet accN md5 ps
          | none => accN
        runTraverse fuel (.splice value rest sp.2
          (accS ++ pySubList value sliceStart sp.1 ++ ("$$" ++ md5 ++ "$$").data) accN2)
      | _ => .error "model: unexpected frame result"

/-- Parse.__parse_plot_option_temp (parse.py 192-260): scan, then traverse
every top-level token, collecting the expanded component dicts in order. -/
def parsePlotOptionTemp (fuel : Nat) (code : String) : Except String (List Part) := do
  let toks ← scanTemplate code
  match ← runTraverse fuel (.toks toks) with
  | .parts ps => pure ps
  | _ => .error "model: unexpected frame result"

def c2input : String := "\x7b\x7b剧情选项|选项1=A: hi|剧情1=B: bye\x7d\x7d"

def c2graph : Graph :=
  ⟨[("START", NodeAttrs.plain),
    ("#A hi_1001", .dialogue "旅行者" "A hi_1000" "option1" (some "None")),
    ("#B bye_1003", .dialogue "旅行者" "B bye_1002" "plot1" (some "None"))],
   [("START", "#A hi_1001"), ("#A hi_1001", "#B bye_1003")]⟩

/-- C2 counterexample: on the claim's input, Parse.__clean_string (parse.py
161-172) deletes the ASCII colon from every parameter value before the
builder runs, so the extractor never sees the speaker convention: the
pipeline produces an option node with the default speaker 旅行者 (not "A")
and content "A hi" plus the random suffix (not "hi"), and likewise for the
plot line. -/
theorem c2_colon_stripped_counterexample :
    cleanString "A: hi" = "A hi"
    ∧ parsePlotOptionTemp 30 c2input
      = .ok [Part.mk "template_name" "" (.vstr "剧情选项") .vnone [],
             Part.mk "template" "选项1" .vnone (.vstr "A hi") [],
             Part.mk "template" "剧情1" .vnone (.vstr "B bye") []]
    ∧ ((do
        let parts ← parsePlotOptionTemp 30 c2input
        buildPlotOptionGraph idStub rngA 20 0 parts none none "None").map
          (fun r : BRes => r.gstate)) = .ok c2graph
    ∧ c2graph.nodes.all (fun q =>
        match q.2 with
        | NodeAttrs.dialogue sp ct _ _ => decide (sp ≠ "A" ∧ ct ≠ "hi")
        | _ => true) = true :=
  ⟨rfl, rfl, rfl, by decide⟩

/-- The concrete result of the modelled pipeline on c2input (digest idStub,
generator 1000+i, fuel 20). -/
def c2res : BRes :=
  ⟨some ⟨c2graph, "START", .elist ["#B bye_1003"]⟩, c2graph, 4⟩

/-- C2 (amended): for the input of the claim the pipeline (modelled digest
idStub, generator 1000+i) produces exactly one option node and one plot
node, an edge from the option node to the plot node, and the terminal set
holding exactly the plot node — but, because clean_string strips the ASCII
colon before the builder runs, both nodes carry the DEFAULT speaker 旅行者
and keep the colon-stripped whole line (plus the random suffix) as content,
rather than the claim's speaker "A"/"B" and contents "hi"/"bye". -/
theorem c2_pipeline_amended :
    (do
        let parts ← parsePlotOptionTemp 30 c2input
        buildPlotOptionGraph idStub rngA 20 0 parts none none "None") = .ok c2res
    ∧ c2res.gstate = c2graph
    ∧ optionNodeCount c2graph = 1
    ∧ ("#A hi_1001", NodeAttrs.dialogue "旅行者" "A hi_1000" "option1" (some "None"))
        ∈ c2graph.nodes
    ∧ ("#B bye_1003", NodeAttrs.dialogue "旅行者" "B bye_1002" "plot1" (some "None"))
        ∈ c2graph.nodes
    ∧ EdgeRel c2graph "#A hi_1001" "#B bye_1003"
    ∧ ∃ rd, c2res.ret = some rd ∧ rd.endv = .elist ["#B bye_1003"] :=
  ⟨rfl, rfl, rfl, by decide, by decide,
   show ("#A hi_1001", "#B bye_1003") ∈ c2graph.edges by decide, _, rfl, rfl⟩

theorem runTraverse_mono : ∀ (fuel : Nat) (c : TCall) (r : TRes),
    runTraverse fuel c = .ok r → runTraverse (fuel + 1) c = .ok r := by
  intro fuel
  induction fuel with
  | zero => intro c r h; exact nomatch h
  | succ f ih =>
    intro c r hok
    match c with
    | .tok t =>
      match t with
      | .tname c2 =>
        rw [runTraverse]
        simp only [runTraverse] at hok
        exact hok
      | .common c2 => exact nomatch hok
      | .tparam name spans value =>
        by_cases hsp : spans = []
        · rw [runTraverse]
          simp only [runTraverse] at hok
          rw [if_pos hsp] at hok ⊢
          exact hok
        · rw [runTraverse]
          simp only [runTraverse] at hok
          rw [if_neg hsp] at hok ⊢
          match hs : runTraverse f (.splice value.data spans 0 [] []) with
          | .error e => rw [hs] at hok; exact nomatch hok
          | .ok tr =>
            rw [hs] at hok
            rw [ih _ _ hs]
            simp only [except_bind_ok] at hok ⊢
            exact hok
    | .toks ts =>
      match ts with
      | [] =>
        rw [runTraverse]
        simp only [runTraverse] at hok
        exact hok
      | t :: rest =>
        rw [runTraverse]
        simp only [runTraverse] at hok
        match h1 : runTraverse f (.tok t) with
        | .error e => rw [h1] at hok; exact nomatch hok
        | .ok tr1 =>
          rw [h1] at hok
          rw [ih _ _ h1]
          simp only [except_bind_ok] at hok ⊢
          match h2 : runTraverse f (.toks rest) with
          | .error e => rw [h2] at hok; exact nomatch hok
          | .ok tr2 =>
            rw [h2] at hok
            rw [ih _ _ h2]
            simp only [except_bind_ok] at hok ⊢
            exact hok
    | .nested s =>
      rw [runTraverse]
      simp only [runTraverse] at hok
      match hscan : scanTemplate s with
      | .error e => rw [hscan] at hok; exact nomatch hok
      | .ok toks =>
        rw [hscan] at hok
        simp only [except_bind_ok] at hok ⊢
        by_cases hp : toks.any isPOTTok = true
        · rw [if_pos hp] at hok ⊢
          match h1 : runTraverse f (.toks toks) with
          | .error e => rw [h1] at hok; exact nomatch hok
          | .ok tr1 =>
            rw [h1] at hok
            rw [ih _ _ h1]
            simp only [except_bind_ok] at hok ⊢
            exact hok
        · rw [if_neg hp] at hok ⊢
          exact hok
    | .splice value spans sliceStart accS accN =>
      match spans with
      | [] =>
        rw [runTraverse]
        simp only [runTraverse] at hok
        exact hok
      | sp :: rest =>
        rw [runTraverse]
        simp only [runTraverse] at hok
        match h1 : runTraverse f (.nested (spanText value sp)) with
        | .error e => rw [h1] at hok; exact nomatch hok
        | .ok tr =>
          rw [h1] at hok
          rw [ih _ _ h1]
          simp only [except_bind_ok] at hok ⊢
          match tr with
          | .nest parsed? =>
            dsimp only at hok ⊢
            exact ih _ _ hok
          | .part p => exact nomatch hok
          | .parts ps => exact nomatch hok
          | .spl a b => exact nomatch hok

theorem runTraverse_mono_le {f1 f2 : Nat} (h : f1 ≤ f2) {c : TCall} {r : TRes}
    (hok : runTraverse f1 c = .ok r) : runTraverse f2 c = .ok r := by
  induction f2 with
  | zero =>
    have : f1 = 0 := by omega
    rw [← this]
    exact hok
  | succ f ih =>
    by_cases h2 : f1 = f + 1
    · rw [← h2]
      exact hok
    · exact runTraverse_mono f c r (ih (by omega))

theorem runTraverse_functional {f1 f2 : Nat} {c : TCall} {r1 r2 : TRes}
    (h1 : runTraverse f1 c = .ok r1) (h2 : runTraverse f2 c = .ok r2) : r1 = r2 := by
  have g1 : runTraverse (f1 + f2) c = .ok r1 := runTraverse_mono_le (by omega) h1
  have g2 : runTraverse (f1 + f2) c = .ok r2 := runTraverse_mono_le (by omega) h2
  rw [g1] at g2
  exact Except.ok.inj g2

theorem assocSet_keys_sup {α : Type} (l : List (String × α)) (k : String) (v : α)
    (h2 : String) (h : h2 ∈ l.map Prod.fst) : h2 ∈ (assocSet l k v).map Prod.fst := by
  induction l with
  | nil => exact absurd h (by simp)
  | cons q rest ih =>
    simp only [List.map_cons, List.mem_cons] at h
    by_cases hk : q.1 = k
    · simp only [assocSet, if_pos hk, List.map_cons, List.mem_cons]
      rcases h with h | h
      · exact Or.inl (h.trans hk)
      · exact Or.inr h
    · simp only [assocSet, if_neg hk, List.map_cons, List.mem_cons]
      rcases h with h | h
      · exact Or.inl h
      · exact Or.inr (ih h)

theorem assocSet_key_mem {α : Type} (l : List (String × α)) (k : String) (v : α) :
    k ∈ (assocSet l k v).map Prod.fst := by
  induction l with
  | nil => simp [assocSet]
  | cons q rest ih =>
    by_cases hk : q.1 = k
    · simp [assocSet, if_pos hk]
    · simp only [assocSet, if_neg hk, List.map_cons, List.mem_cons]
      exact Or.inr ih

theorem assocSet_keys_cases {α : Type} (l : List (String × α)) (k : String) (v : α)
    (h2 : String) (h : h2 ∈ (assocSet l k v).map Prod.fst) :
    h2 ∈ l.map Prod.fst ∨ h2 = k := by
  induction l with
  | nil =>
    refine Or.inr ?_
    simpa [assocSet] using h
  | cons q rest ih =>
    by_cases hk : q.1 = k
    · simp only [assocSet, if_pos hk, List.map_cons, List.mem_cons] at h
      rcases h with h | h
      · exact Or.inr h
      · exact Or.inl (by simp only [List.map_cons, List.mem_cons]; exact Or.inr h)
    · simp only [assocSet, if_neg hk, List.map_cons, List.mem_cons] at h
      rcases h with h | h
      · exact Or.inl (by simp only [List.map_cons, List.mem_cons]; exact Or.inl h)
      · rcases ih h with h3 | h3
        · exact Or.inl (by simp only [List.map_cons, List.mem_cons]; exact Or.inr h3)
        · exact Or.inr h3

/-- The string built so far is a prefix of the final spliced value of the
loop of parse.py 213-249: the loop only ever appends to it. -/
theorem splice_prefix : ∀ (spans : List (Nat × Nat)) (fuel : Nat) (value : List Char)
    (sliceStart : Nat) (accS : List Char) (accN : List (String × List Part))
    (out : List Char) (nested : List (String × List Part)),
    runTraverse fuel (.splice value spans sliceStart accS accN) = .ok (.spl out nested) →
    accS <+: out := by
  intro spans
  induction spans with
  | nil =>
    intro fuel value sliceStart accS accN out nested hok
    match fuel with
    | 0 => exact nomatch hok
    | f + 1 =>
      simp only [runTraverse] at hok
      have h2 := Except.ok.inj hok
      injection h2 with hA hB
      rw [← hA]
      exact List.prefix_append _ _
  | cons sp rest ih =>
    intro fuel value sliceStart accS accN out nested hok
    match fuel with
    | 0 => exact nomatch hok
    | f + 1 =>
      simp only [runTraverse] at hok
      match hn : runTraverse f (.nested (spanText value sp)) with
      | .error e => rw [hn] at hok; exact nomatch hok
      | .ok tr =>
        rw [hn] at hok
        simp only [except_bind_ok] at hok
        match tr with
        | .nest parsed? =>
          dsimp only at hok
          have h := ih f value sp.2 _ _ out nested hok
          exact ((List.prefix_append accS _).trans (List.prefix_append _ _)).trans h
        | .part p => exact nomatch hok
        | .parts ps => exact nomatch hok
        | .spl a b => exact nomatch hok

/-- C8 (amended): in the splicing loop of traverse_nested_template (parse.py
213-249), every nested-template span is replaced in the output string by the
placeholder $$numeric_hash(span text)$$ — a deterministic digest of the span
text alone — and the placeholder occurs in the final spliced value; an entry
keyed by that hash is put into nested_temp whenever the span parses to a
non-None result (and every nested_temp key not already present on entry
arises this way); but a span whose template is ignored (parsed is None, e.g.
黑幕) leaves its placeholder in the value with NO nested_temp entry, so the
claimed placeholder-to-entry correspondence fails for ignored templates. -/
theorem c8_placeholder_nested_amended :
    ∀ (spans : List (Nat × Nat)) (fuel : Nat) (value : List Char)
      (sliceStart : Nat) (accS : List Char) (accN : List (String × List Part))
      (out : List Char) (nested : List (String × List Part)),
    runTraverse fuel (.splice value spans sliceStart accS accN)
      = .ok (.spl out nested) →
    (∀ sp ∈ spans, ("$$" ++ numericHash (spanText value sp) ++ "$$").data <:+: out)
    ∧ (∀ sp ∈ spans, ∀ f2 ps,
        runTraverse f2 (.nested (spanText value sp)) = .ok (.nest (some ps)) →
        numericHash (spanText value sp) ∈ nested.map Prod.fst)
    ∧ (∀ h2 ∈ accN.map Prod.fst, h2 ∈ nested.map Prod.fst)
    ∧ (∀ h2 ∈ nested.map Prod.fst,
        h2 ∈ accN.map Prod.fst
        ∨ ∃ sp ∈ spans, h2 = numericHash (spanText value sp)
            ∧ ∃ f2 ps, runTraverse f2 (.nested (spanText value sp))
                = .ok (.nest (some ps))) := by
  intro spans
  induction spans with
  | nil =>
    intro fuel value sliceStart accS accN out nested hok
    match fuel with
    | 0 => exact nomatch hok
    | f + 1 =>
      simp only [runTraverse] at hok
      have h2 := Except.ok.inj hok
      injection h2 with hA hB
      refine ⟨fun sp hsp => absurd hsp (by simp), fun sp hsp => absurd hsp (by simp),
        ?_, ?_⟩
      · rw [← hB]; exact fun h2 h => h
      · rw [← hB]; exact fun h2 h => Or.inl h
  | cons sp rest ih =>
    intro fuel value sliceStart accS accN out nested hok
    match fuel with
    | 0 => exact nomatch hok
    | f + 1 =>
      simp only [runTraverse] at hok
      match hn : runTraverse f (.nested (spanText value sp)) with
      | .error e => rw [hn] at hok; exact nomatch hok
      | .ok tr =>
        rw [hn] at hok
        simp only [except_bind_ok] at hok
        match tr with
        | .part p => exact nomatch hok
        | .parts ps => exact nomatch hok
        | .spl a b => exact nomatch hok
        | .nest parsed? =>
          dsimp only at hok
          match parsed? with
          | some ps0 =>
            dsimp only at hok
            have IH := ih f value sp.2 _ _ out nested hok
            refine ⟨?_, ?_, ?_, ?_⟩
            · intro sp2 hsp2
              rcases List.mem_cons.mp hsp2 with h | h
              · subst h
                have hpre := splice_prefix rest f value _ _ _ out nested hok
                exact ((List.suffix_append _ _).isInfix).trans hpre.isInfix
              · exact IH.1 sp2 h
            · intro sp2 hsp2 f2 ps hrun
              rcases List.mem_cons.mp hsp2 with h | h
              · subst h
                exact IH.2.2.1 _ (assocSet_key_mem accN _ ps0)
              · exact IH.2.1 sp2 h f2 ps hrun
            · intro h2 hmem
              exact IH.2.2.1 h2 (assocSet_keys_sup accN _ ps0 h2 hmem)
            · intro h2 hmem
              rcases IH.2.2.2 h2 hmem with h | ⟨sp2, hsp2, hh, f2, ps2, hrun⟩
              · rcases assocSet_keys_cases accN _ ps0 h2 h with h3 | h3
                · exact Or.inl h3
                · exact Or.inr ⟨sp, List.mem_cons_self sp rest, h3, f, ps0, hn⟩
              · exact Or.inr ⟨sp2, List.mem_cons.mpr (Or.inr hsp2), hh, f2, ps2, hrun⟩
          | none =>
            dsimp only at hok
            have IH := ih f value sp.2 _ _ out nested hok
            refine ⟨?_, ?_, IH.2.2.1, ?_⟩
            · intro sp2 hsp2
              rcases List.mem_cons.mp hsp2 with h | h
              · subst h
                have hpre := splice_prefix rest f value _ _ _ out nested hok
                exact ((List.suffix_append _ _).isInfix).trans hpre.isInfix
              · exact IH.1 sp2 h
            · intro sp2 hsp2 f2 ps hrun
              rcases List.mem_cons.mp hsp2 with h | h
              · subst h
                refine absurd (runTraverse_functional hn hrun) ?_
                intro hq
                injection hq with hq2
                exact nomatch hq2
              · exact IH.2.1 sp2 h f2 ps hrun
            · intro h2 hmem
              rcases IH.2.2.2 h2 hmem with h | ⟨sp2, hsp2, hh, f2, ps2, hrun⟩
              · exact Or.inl h
              · exact Or.inr ⟨sp2, List.mem_cons.mpr (Or.inr hsp2), hh, f2, ps2, hrun⟩

def c8input : String := "\x7b\x7b剧情选项|选项1=o|剧情1=\x7b\x7b黑幕|a=x\x7d\x7d\x7d\x7d"

/-- C8 counterexample: the parameter 剧情1 of c8input holds the nested
template 黑幕, which is on the ignored list, so traverse_nested_template
replaces it by the deterministic placeholder $$3802974611$$ but stores NO
entry under that hash in nested_temp; the builder then reaches the
placeholder, strips the dollars, and fails the nested_temp lookup
(build_graph.py line 131, KeyError), refuting the claimed exactly-one-entry
correspondence. -/
theorem c8_ignored_template_counterexample :
    parsePlotOptionTemp 30 c8input
      = .ok [Part.mk "template_name" "" (.vstr "剧情选项") .vnone [],
             Part.mk "template" "选项1" .vnone (.vstr "o") [],
             Part.mk "template" "剧情1" .vnone (.vstr "$$3802974611$$") []]
    ∧ numericHash "\x7b\x7b黑幕|a=x\x7d\x7d" = "3802974611"
    ∧ placeholderMatch "$$3802974611$$" = true
    ∧ stripDollars "$$3802974611$$" = "3802974611"
    ∧ assocGet ([] : List (String × List Part)) "3802974611" = none
    ∧ (do
        let parts ← parsePlotOptionTemp 30 c8input
        buildPlotOptionGraph idStub rngA 20 0 parts none none "None")
      = .error "KeyError: nested_temp" :=
  ⟨rfl, rfl, rfl, rfl, rfl, rfl⟩

/-- Witness for the amended C8 theorem: the single nested-template span of
the 黑幕 value, whose parse is ignored, instantiated concretely. -/
theorem c8_placeholder_nested_witness :
    (∀ sp ∈ [((0 : Nat), (10 : Nat))],
        ("$$" ++ numericHash (spanText ("\x7b\x7b黑幕|a=x\x7d\x7d").data sp) ++ "$$").data
          <:+: ("$$3802974611$$").data)
    ∧ (∀ sp ∈ [((0 : Nat), (10 : Nat))], ∀ f2 ps,
        runTraverse f2 (.nested (spanText ("\x7b\x7b黑幕|a=x\x7d\x7d").data sp))
          = .ok (.nest (some ps)) →
        numericHash (spanText ("\x7b\x7b黑幕|a=x\x7d\x7d").data sp)
          ∈ ([] : List (String × List Part)).map Prod.fst)
    ∧ (∀ h2 ∈ ([] : List (String × List Part)).map Prod.fst,
        h2 ∈ ([] : List (String × List Part)).map Prod.fst)
    ∧ (∀ h2 ∈ ([] : List (String × List Part)).map Prod.fst,
        h2 ∈ ([] : List (String × List Part)).map Prod.fst
        ∨ ∃ sp ∈ [((0 : Nat), (10 : Nat))],
            h2 = numericHash (spanText ("\x7b\x7b黑幕|a=x\x7d\x7d").data sp)
            ∧ ∃ f2 ps, runTraverse f2 (.nested (spanText ("\x7b\x7b黑幕|a=x\x7d\x7d").data sp))
                = .ok (.nest (some ps))) :=
  c8_placeholder_nested_amended [((0 : Nat), (10 : Nat))] 10
    ("\x7b\x7b黑幕|a=x\x7d\x7d").data 0 [] [] ("$$3802974611$$").data [] rfl

end BiliWiki
